import Mathlib

/-!
# Salvatore banquet-booking assistant: a verification development

A shallow embedding of the two back-end variants of the assistant
(`src/backend/server.js`, the step machine, and `src/backend/server2.js`,
the extraction variant) together with the properties proved about them.

JavaScript strings are modelled as lists of characters.  Regular expressions
are kept as syntax trees, written exactly as in the source, and run by a
small backtracking matcher that follows the ECMAScript matching rules
(leftmost match, greedy quantifiers, ordered alternation).
-/

namespace Salvatore

/-! ## Strings -/

/-- A JavaScript string, as the list of its characters. -/
abbrev Str := List Char

/-- ECMAScript `WhiteSpace` and `LineTerminator` code points: what `\s` matches and
what `String.prototype.trim` removes. -/
def isSpace (c : Char) : Bool :=
  c.toNat == 9 || c.toNat == 10 || c.toNat == 11 || c.toNat == 12 || c.toNat == 13 ||
  c.toNat == 32 || c.toNat == 0xA0 || c.toNat == 0x1680 ||
  (0x2000 ≤ c.toNat && c.toNat ≤ 0x200A) ||
  c.toNat == 0x2028 || c.toNat == 0x2029 || c.toNat == 0x202F || c.toNat == 0x205F ||
  c.toNat == 0x3000 || c.toNat == 0xFEFF

/-- What `\d` matches: the ten ASCII digits. -/
def isDigit (c : Char) : Bool := 48 ≤ c.toNat && c.toNat ≤ 57

/-- What `\w` matches: ASCII letters, digits and the underscore. -/
def isWord (c : Char) : Bool :=
  (97 ≤ c.toNat && c.toNat ≤ 122) || (65 ≤ c.toNat && c.toNat ≤ 90) || isDigit c || c.toNat == 95

/-- `String.prototype.trim`. -/
def trim (s : Str) : Str :=
  ((s.dropWhile isSpace).reverse.dropWhile isSpace).reverse

/-- Lower-casing of one character.  ASCII capitals go to their small letters; the two
non-ASCII characters whose lower case contains an ASCII letter (KELVIN SIGN and
LATIN CAPITAL LETTER I WITH DOT ABOVE) are mapped as Unicode prescribes.  Every other
character is kept: its Unicode lower case, where it differs, is again non-ASCII, and the
program only ever compares lower-cased text with ASCII keywords and patterns. -/
def lowerChar (c : Char) : Str :=
  if 65 ≤ c.toNat && c.toNat ≤ 90 then [Char.ofNat (c.toNat + 32)]
  else if c.toNat == 0x212A then ['k']
  else if c.toNat == 0x130 then ['i', Char.ofNat 0x307]
  else [c]

/-- `String.prototype.toLowerCase`. -/
def toLowerCase (s : Str) : Str := s.flatMap lowerChar

/-- `String.prototype.includes`. -/
def includes : Str → Str → Bool
  | [], pat => pat.isEmpty
  | c :: cs, pat => pat.isPrefixOf (c :: cs) || includes cs pat

/-- `String.prototype.startsWith`. -/
def startsWith (s pat : Str) : Bool := pat.isPrefixOf s

/-- Decimal digits of a natural number (`Number.prototype.toString` on a non-negative
integer). -/
def natToStr (n : Nat) : Str := Nat.toDigits 10 n

/-- `String.prototype.padStart(n, c)` with a one-character filler. -/
def padStart (s : Str) (n : Nat) (c : Char) : Str :=
  List.replicate (n - s.length) c ++ s

/-- The value of a run of decimal digits read left to right, starting from `acc`. -/
def digitsValue : Nat → Str → Nat
  | acc, [] => acc
  | acc, c :: cs => digitsValue (acc * 10 + (c.toNat - 48)) cs

/-- `parseInt(s)` for text without sign or radix prefix: the value of the longest
leading run of decimal digits after leading white space, `none` (NaN) when there is no
digit.  The program calls `parseInt` only on captures of `\d{1,2}` and `\d{2}` and on
the literal `"0"`. -/
def parseInt (s : Str) : Option Nat :=
  match (s.dropWhile isSpace).takeWhile isDigit with
  | [] => none
  | ds => some (digitsValue 0 ds)

/-- `Number.prototype.toString` on the result of `parseInt`. -/
def numToStr : Option Nat → Str
  | some n => natToStr n
  | none => "NaN".toList

/-- Four lower-case hexadecimal digits. -/
def hex4 (n : Nat) : Str :=
  padStart (Nat.toDigits 16 n) 4 '0'

/-- The escape `JSON.stringify` writes for one character of a string. -/
def jsonEscape (c : Char) : Str :=
  if c.toNat == 34 then [Char.ofNat 92, Char.ofNat 34]
  else if c.toNat == 92 then [Char.ofNat 92, Char.ofNat 92]
  else if c.toNat == 8 then [Char.ofNat 92, 'b']
  else if c.toNat == 12 then [Char.ofNat 92, 'f']
  else if c.toNat == 10 then [Char.ofNat 92, 'n']
  else if c.toNat == 13 then [Char.ofNat 92, 'r']
  else if c.toNat == 9 then [Char.ofNat 92, 't']
  else if c.toNat < 32 then [Char.ofNat 92, 'u'] ++ hex4 c.toNat
  else [c]

/-! ## Regular expressions -/

/-- One member of a character class. -/
inductive Item where
  | ch (c : Char)
  | range (lo hi : Char)
  | digit
  | space
  deriving Repr

/-- Canonical form of a character under the `i` flag (without the `u` flag): the upper
case of the character, except that a non-ASCII character is never mapped to an ASCII
one.  All patterns of the program are ASCII, so only the ASCII letters matter. -/
def canon (c : Char) : Char :=
  if 97 ≤ c.toNat && c.toNat ≤ 122 then Char.ofNat (c.toNat - 32) else c

/-- Does character `c` belong to the class member `it` (`ic`: the `i` flag)? -/
def Item.test (ic : Bool) (c : Char) : Item → Bool
  | .ch x => if ic then canon c == canon x else c == x
  | .range lo hi =>
      if ic then
        (lo.toNat ≤ c.toNat && c.toNat ≤ hi.toNat) ||
        ((List.range (hi.toNat + 1 - lo.toNat)).any fun k => canon (Char.ofNat (lo.toNat + k)) == canon c)
      else lo.toNat ≤ c.toNat && c.toNat ≤ hi.toNat
  | .digit => isDigit c
  | .space => isSpace c

/-- Membership in a character class `[...]` (`neg`: the class is `[^...]`). -/
def classTest (ic neg : Bool) (items : List Item) (c : Char) : Bool :=
  (items.any (Item.test ic c)) != neg

/-- The regular-expression syntax used by the program. -/
inductive Re where
  /-- a single character or character class -/
  | set (neg : Bool) (items : List Item)
  /-- a greedy quantifier `{min,max}` on a character or character class
  (`max = none`: unbounded) -/
  | rep (neg : Bool) (items : List Item) (min : Nat) (max : Option Nat)
  | seq (a b : Re)
  | alt (a b : Re)
  /-- the greedy quantifier `?` on a group -/
  | opt (a : Re)
  /-- the capturing group number `i` -/
  | group (i : Nat) (a : Re)
  /-- the assertion `\b` -/
  | wordB
  /-- the lookahead `(?=...)` -/
  | ahead (a : Re)
  /-- the assertion `^` (without the `m` flag) -/
  | bos
  /-- the assertion `$` (without the `m` flag) -/
  | eos
  deriving Repr

/-- A position of the matcher inside the input: the characters already passed (last one
first), the characters still ahead, and the captures recorded so far (latest first). -/
structure MState where
  before : Str
  rest : Str
  caps : List (Nat × Str)
  deriving DecidableEq, Repr

/-- First success of two alternatives. -/
def orElse {α : Type} : Option α → Option α → Option α
  | some a, _ => some a
  | none, b => b

/-- Greedy repetition of a one-character test `p`, between `mn` and `mx` times: take as
many characters as allowed, then give back one at a time until the continuation `k`
accepts. -/
def repGo (p : Char → Bool) (k : Str → Str → Option MState) :
    Nat → Option Nat → Str → Str → Option MState
  | mn, _, before, [] => if mn = 0 then k before [] else none
  | mn, mx, before, c :: cs =>
      if p c && mx != some 0 then
        orElse (repGo p k (mn - 1) (mx.map Nat.pred) (c :: before) cs)
          (if mn = 0 then k before (c :: cs) else none)
      else if mn = 0 then k before (c :: cs) else none

/-- The characters passed between two positions of one run of the matcher. -/
def consumed (st st' : MState) : Str :=
  (st'.before.take (st'.before.length - st.before.length)).reverse

/-- The backtracking matcher, in continuation-passing style: `m ic r st k` matches `r`
at position `st` and hands every end position, in priority order, to `k` until `k`
succeeds. -/
def Re.m (ic : Bool) : Re → MState → (MState → Option MState) → Option MState
  | .set neg items, st, k =>
      match st.rest with
      | [] => none
      | c :: cs =>
          if classTest ic neg items c then k { st with before := c :: st.before, rest := cs }
          else none
  | .rep neg items mn mx, st, k =>
      repGo (classTest ic neg items) (fun b r => k { st with before := b, rest := r })
        mn mx st.before st.rest
  | .seq a b, st, k => Re.m ic a st (fun st' => Re.m ic b st' k)
  | .alt a b, st, k => orElse (Re.m ic a st k) (Re.m ic b st k)
  | .opt a, st, k =>
      orElse (Re.m ic a st (fun st' => if st'.rest.length = st.rest.length then none else k st'))
        (k st)
  | .group i a, st, k =>
      Re.m ic a st (fun st' => k { st' with caps := (i, consumed st st') :: st'.caps })
  | .wordB, st, k =>
      if (st.before.head?.map isWord).getD false != (st.rest.head?.map isWord).getD false
      then k st else none
  | .ahead a, st, k =>
      match Re.m ic a st some with
      | some st' => k { st with caps := st'.caps }
      | none => none
  | .bos, st, k => if st.before.isEmpty then k st else none
  | .eos, st, k => if st.rest.isEmpty then k st else none

/-- The result of a successful match: `text` is element 0 of the JavaScript match array,
`caps` holds the capturing groups that took part. -/
structure Match where
  index : Nat
  text : Str
  caps : List (Nat × Str)
  deriving DecidableEq, Repr

/-- Capturing group `i` of a match (`none`: the group did not take part, `undefined`
in JavaScript). -/
def Match.cap (mt : Match) (i : Nat) : Option Str :=
  (mt.caps.find? (fun p => p.1 == i)).map (fun p => p.2)

/-- Try to match `re` at one position. -/
def matchAt (ic : Bool) (re : Re) (before rest : Str) : Option Match :=
  match Re.m ic re ⟨before, rest, []⟩ some with
  | some st => some ⟨before.length, consumed ⟨before, rest, []⟩ st, st.caps⟩
  | none => none

/-- Leftmost match of `re` at or after the current position. -/
def execFrom (ic : Bool) (re : Re) : Str → Str → Option Match
  | before, [] => matchAt ic re before []
  | before, c :: cs => orElse (matchAt ic re before (c :: cs)) (execFrom ic re (c :: before) cs)

/-- `s.match(re)` for a pattern without the `g` flag (`ic`: the `i` flag). -/
def exec (ic : Bool) (re : Re) (s : Str) : Option Match := execFrom ic re [] s

/-- `re.test(s)`. -/
def test (ic : Bool) (re : Re) (s : Str) : Bool := (exec ic re s).isSome

/-- The loop of a global replace: `skip` counts the characters that still belong to the
match just replaced. -/
def replaceGo (ic : Bool) (re : Re) (repl : Match → Str) : Nat → Str → Str → Str
  | 0, before, [] =>
      match matchAt ic re before [] with
      | some mt => repl mt
      | none => []
  | _ + 1, _, [] => []
  | skip + 1, before, c :: cs => replaceGo ic re repl skip (c :: before) cs
  | 0, before, c :: cs =>
      match matchAt ic re before (c :: cs) with
      | some mt =>
          repl mt ++
            (if mt.text.length = 0 then c :: replaceGo ic re repl 0 (c :: before) cs
             else replaceGo ic re repl (mt.text.length - 1) (c :: before) cs)
      | none => c :: replaceGo ic re repl 0 (c :: before) cs

/-- `s.replace(re, repl)` for a pattern with the `g` flag: every match, left to right and
not overlapping, is replaced. -/
def replaceAll (ic : Bool) (re : Re) (repl : Match → Str) (s : Str) : Str :=
  replaceGo ic re repl 0 [] s

/-- A literal character. -/
def Re.chr (c : Char) : Re := .set false [.ch c]

/-- A literal word. -/
def Re.lit : Str → Re
  | [] => .rep false [] 0 (some 0)
  | [c] => .chr c
  | c :: cs => .seq (.chr c) (Re.lit cs)

/-- The value of capturing group `i` inside a replacement text (`$i`): the empty string
when the group did not take part. -/
def Match.sub (mt : Match) (i : Nat) : Str := (mt.cap i).getD []

/-! ## Step-machine variant (`server.js`): helpers -/

namespace Server

/-- The class `[,.!?]`. -/
def punct : List Item := [.ch ',', .ch '.', .ch '!', .ch '?']

/-- The pattern `/[ ]{2,}/g`. -/
def reSpaces : Re := .rep false [.ch ' '] 2 none

/-- The pattern `/\s+([,.!?])/g`. -/
def reSpaceBeforePunct : Re := .seq (.rep false [.space] 1 none) (.group 1 (.set false punct))

/-- The pattern `/([,.!?])(?=[^\s])/g`. -/
def rePunctBeforeText : Re := .seq (.group 1 (.set false punct)) (.ahead (.set true [.space]))

/-- The pattern `/\s{2,}/g`. -/
def reBlanks : Re := .rep false [.space] 2 none

/-- The function `cleanText` of `server.js`. -/
def cleanText (text : Str) : Str :=
  trim
    (replaceAll false reBlanks (fun _ => [' '])
      (replaceAll false rePunctBeforeText (fun mt => mt.sub 1 ++ [' '])
        (replaceAll false reSpaceBeforePunct (fun mt => mt.sub 1)
          (replaceAll false reSpaces (fun _ => [' ']) text))))

/-- The pattern `/(\d{1,2})(?::(\d{2}))?\s*(am|pm)?/` of `normalizeTime`. -/
def reTime : Re :=
  .seq (.group 1 (.rep false [.digit] 1 (some 2)))
    (.seq (.opt (.seq (.chr ':') (.group 2 (.rep false [.digit] 2 (some 2)))))
      (.seq (.rep false [.space] 0 none)
        (.opt (.group 3 (.alt (Re.lit "am".toList) (Re.lit "pm".toList))))))

/-- The function `normalizeTime` of `server.js`.  The argument is `none` for `null` or
`undefined`. -/
def normalizeTime (str : Option Str) : Str :=
  match str with
  | none => "00:00:00".toList
  | some s =>
    if s.isEmpty then "00:00:00".toList
    else
      let t := toLowerCase (trim s)
      let hm : Option Nat × Option Nat :=
        match exec false reTime t with
        | some mt =>
            let hour := parseInt (mt.sub 1)
            let minute := parseInt (match mt.cap 2 with
              | some (c :: cs) => c :: cs
              | _ => "0".toList)
            let hour := if mt.cap 3 = some "pm".toList ∧ (∃ h, hour = some h ∧ h < 12)
                        then hour.map (· + 12) else hour
            let hour := if mt.cap 3 = some "am".toList ∧ hour = some 12 then some 0 else hour
            (hour, minute)
        | none => (some 0, some 0)
      padStart (numToStr hm.1) 2 '0' ++ [':'] ++ padStart (numToStr hm.2) 2 '0' ++ ":00".toList

/-! ### Sessions -/

/-- The booking record of a session; `none` is JavaScript `null`. -/
structure Booking where
  date : Option Str
  startTime : Option Str
  endTime : Option Str
  partySize : Option Str
  eventType : Option Str
  food : Option Str
  email : Option Str
  phone : Option Str
  decor : Option Str
  extras : Option Str
  deriving DecidableEq, Repr

/-- One entry of the message history. -/
structure Message where
  role : Str
  content : Str
  deriving DecidableEq, Repr

/-- The state kept per conversation. -/
structure Session where
  step : Nat
  booking : Booking
  history : List Message
  lastServerPrompt : Str
  deriving DecidableEq, Repr

/-- The system message that opens every history. -/
def systemMessage : Message :=
  ⟨"system".toList,
   "You are Salvatore AI, a polite, friendly banquet-booking assistant. Ask one question at a time. Treat BookingDetails from the server as authoritative.".toList⟩

/-- The function `makeNewSession`. -/
def makeNewSession : Session :=
  { step := 0
    booking :=
      { date := none, startTime := none, endTime := none, partySize := none,
        eventType := none, food := none, email := none, phone := none,
        decor := none, extras := none }
    history := [systemMessage]
    lastServerPrompt := [] }

/-- JavaScript truthiness of a value that is `null` or a string. -/
def truthy : Option Str → Bool
  | some (_ :: _) => true
  | _ => false

/-- The expression `v || d` for a value that is `null` or a string. -/
def orDefault (v : Option Str) (d : Str) : Str :=
  match v with
  | some (c :: cs) => c :: cs
  | _ => d

/-- A `null`-or-string value inside a template literal. -/
def tmpl (v : Option Str) : Str := v.getD "null".toList

/-- The global `conversationContext`: sessions by identifier. -/
abbrev Store := Str → Option Session

/-- The assignment `conversationContext[id] = s`. -/
def Store.set (store : Store) (id : Str) (s : Session) : Store :=
  fun k => if k = id then some s else store k

/-! ### The outside world -/

/-- What `chrono.parse` reports for the first date expression it finds: the time value
of `results[0].start.date()` and `results[0].start.knownValues.year`. -/
structure ChronoStart where
  date : Int
  year : Option Int
  deriving Repr

/-- The calendar event handed to `calendar.events.insert` (both `timeZone` fields are the
constant `"America/New_York"`). -/
structure Event where
  summary : Str
  description : Str
  startDateTime : Str
  endDateTime : Str
  deriving DecidableEq, Repr

/-- The libraries and services one request of `server.js` talks to.  Time values are
milliseconds since the epoch. -/
structure Env where
  /-- the identifier `makeSessionId()` returns -/
  makeSessionId : Str
  /-- `chrono.parse(message, \x7b forwardDate: true \x7d)`: `results[0].start` when there is
  a result with a start, `none` otherwise -/
  chronoParse : Str → Option ChronoStart
  /-- `new Date()` -/
  now : Int
  /-- `Date.prototype.getFullYear` -/
  getFullYear : Int → Int
  /-- `Date.prototype.setFullYear`: the new time value -/
  setFullYear : Int → Int → Int
  /-- `Date.prototype.getTimezoneOffset`, in minutes -/
  getTimezoneOffset : Int → Int
  /-- `Date.prototype.toISOString`, given as the text before the `T` and the text after
  it -/
  toISOString : Int → Str × Str
  /-- `chrono.parseDate(text)`: `none` when it returns `null` -/
  chronoParseDate : Str → Option Int
  /-- `new Date(text)`: `none` for an invalid date -/
  dateParse : Str → Option Int
  /-- does `sheets.spreadsheets.values.append` succeed on this row? -/
  sheetsAppend : List (Option Str) → Bool
  /-- `callOpenAIStream`: the `delta.content` values of the chunks received, and whether
  the call then fails -/
  openAIStream : Str → List (Option Str) × Bool

/-! ### Persistence -/

/-- The pattern `/^\d{4}-\d{2}-\d{2}$/`. -/
def reIsoDate : Re :=
  .seq .bos (.seq (.rep false [.digit] 4 (some 4)) (.seq (.chr '-')
    (.seq (.rep false [.digit] 2 (some 2)) (.seq (.chr '-')
      (.seq (.rep false [.digit] 2 (some 2)) .eos)))))

/-- What one call of `saveBooking` did. -/
structure SaveResult where
  /-- the call threw -/
  threw : Bool
  /-- the event of the attempted calendar insert -/
  event : Option Event
  /-- the row of the attempted spreadsheet append -/
  row : Option (List (Option Str))
  deriving Repr

/-- First step of `saveBooking`: `booking.date` brought to `YYYY-MM-DD`; `none` when the
step throws (`chrono.parseDate` finds no date). -/
def saveDate (env : Env) (date : Option Str) : Option Str :=
  if test false reIsoDate (tmpl date) then some (tmpl date)
  else
    match date with
    | none => none
    | some d =>
      match env.chronoParseDate d with
      | none => none
      | some t => some (env.toISOString t).1

/-- The `start` and `end` dates of `saveBooking` for a date already in `YYYY-MM-DD` form,
after the ordering check; `none` is an invalid date. -/
def eventSpan (env : Env) (date : Str) (startTime endTime : Option Str) :
    Option Int × Option Int :=
  let startDateTime := date ++ ['T'] ++ normalizeTime (some (orDefault startTime "12:00".toList))
  let endDateTime := date ++ ['T'] ++ normalizeTime (some (orDefault endTime "13:00".toList))
  let start := env.dateParse startDateTime
  let end0 := env.dateParse endDateTime
  match start, end0 with
  | some s, some e => if e ≤ s then (some s, some (s + 60 * 60 * 1000)) else (some s, some e)
  | _, _ => (start, end0)

/-- The full text of `toISOString`. -/
def isoText (env : Env) (t : Int) : Str :=
  (env.toISOString t).1 ++ ['T'] ++ (env.toISOString t).2

/-- The function `saveBooking` of `server.js`.  A failing calendar insert is caught and
logged inside the function and changes nothing else; a failing spreadsheet append, like
any earlier exception, is thrown on to the caller. -/
def saveBooking (env : Env) (booking : Booking) : SaveResult :=
  match saveDate env booking.date with
  | none => ⟨true, none, none⟩
  | some date =>
    match eventSpan env date booking.startTime booking.endTime with
    | (some start, some end1) =>
      let event : Event :=
        { summary := "Banquet: ".toList ++ orDefault booking.eventType "Event".toList
          description := "Customer: ".toList ++ tmpl booking.email ++ "\nGuests: ".toList ++
            tmpl booking.partySize ++ "\nFood: ".toList ++ tmpl booking.food
          startDateTime := isoText env start
          endDateTime := isoText env end1 }
      let row : List (Option Str) :=
        [some date, booking.startTime, booking.endTime, booking.eventType, booking.partySize,
         booking.food, booking.email, booking.phone,
         some (orDefault booking.decor "None".toList),
         some (orDefault booking.extras "None".toList)]
      ⟨!(env.sheetsAppend row), some event, some row⟩
    | _ => ⟨true, none, none⟩

/-! ### Streaming -/

/-- A UTF-16 code unit of a string: a character of the basic plane, or one half of the
surrogate pair of a character outside it. -/
inductive Unit16 where
  | bmp (c : Char)
  | high (c : Char)
  | low (c : Char)
  deriving DecidableEq, Repr

/-- The UTF-16 code units of a string (JavaScript measures and slices strings in these). -/
def toUnits (s : Str) : List Unit16 :=
  s.flatMap fun c => if c.toNat < 0x10000 then [.bmp c] else [.high c, .low c]

/-- The text a client decodes from a run of code units written with one `res.write`: a
surrogate pair gives its character, a surrogate left alone gives U+FFFD. -/
def ofUnits : List Unit16 → Str
  | [] => []
  | .bmp c :: us => c :: ofUnits us
  | .high c :: .low d :: us => if c = d then c :: ofUnits us else Char.ofNat 0xFFFD :: Char.ofNat 0xFFFD :: ofUnits us
  | .high _ :: us => Char.ofNat 0xFFFD :: ofUnits us
  | .low _ :: us => Char.ofNat 0xFFFD :: ofUnits us

/-- Cut a list into consecutive pieces of `n + 1` elements (the last may be shorter);
`cur` is the piece being filled, last element first. -/
def chunksGo {α : Type} (n : Nat) : List α → Nat → List α → List (List α)
  | cur, _, [] => if cur.isEmpty then [] else [cur.reverse]
  | cur, 0, x :: xs => (x :: cur).reverse :: chunksGo n [] n xs
  | cur, room + 1, x :: xs => chunksGo n (x :: cur) room xs

/-- The pieces `text.slice(i, i + chunkSize)` for `i = 0, chunkSize, ...`, as written to
the response (`chunkSize` is positive). -/
def chunks (chunkSize : Nat) (text : Str) : List Str :=
  (chunksGo (chunkSize - 1) [] (chunkSize - 1) (toUnits text)).map ofUnits

/-- The frame payload `JSON.stringify(\x7b sessionId \x7d)`. -/
def sessionFrame (sessionId : Str) : Str :=
  "\x7b\"sessionId\":\"".toList ++ sessionId.flatMap jsonEscape ++ "\"\x7d".toList

/-- The end-of-stream payload. -/
def doneFrame : Str := "[DONE]".toList

/-- The payloads written by `streamText(res, sessionId, text)`, in order; each is sent as
`data: <payload>\n\n`. -/
def streamText (sessionId : Str) (text : Str) : List Str :=
  [sessionFrame sessionId] ++ chunks 40 (cleanText text) ++ [doneFrame]

/-! ### The `/api/assistant` handler -/

/-- The table `stepPrompts`. -/
def stepPrompts : Nat → Option Str
  | 0 => some "Hi there! I'm your Salvatore AI assistant — I can help you book a banquet or answer any questions! Would you like to book a banquet or ask a general question?".toList
  | 2 => some "Wonderful — what date would you like to book your banquet for?".toList
  | 3 => some "Got it! What time would you like your event to start (and end), e.g., '6pm' or '6pm-9pm'?".toList
  | 4 => some "Perfect. How many guests are you expecting?".toList
  | 5 => some "Noted. What type of event is this? Options include: \n- Anniversary Party\n- Bar/Bat Mitzvah\n- Birthday Party\n- Business Meeting\n- Charity Event\n- Corporate Event\n- Engagement Party\n- Wedding Reception\n- Graduation Party\n- Holiday Party".toList
  | 6 => some "Sounds great! What kind of food or catering would you like to have?".toList
  | 7 => some "Excellent — could you please provide a contact email so we can send confirmation?".toList
  | 8 => some "Thanks! And a phone number for quick contact?".toList
  | 9 => some "Got it. Would you like any specific decor or theme for the event?".toList
  | 10 => some "Any other special requests or questions you'd like noted?".toList
  | _ => none

/-- The entry `stepPrompts[n]` for a step that has one. -/
def prompt (n : Nat) : Str := (stepPrompts n).getD "undefined".toList

/-- The flag `isBookingIntent`, computed from the cleaned message. -/
def isBookingIntent (message : Str) : Bool :=
  let lower := toLowerCase message
  includes lower "book".toList || includes lower "banquet".toList ||
  includes lower "reserve".toList || includes lower "party".toList ||
  includes lower "event".toList

/-- The values `parsedDate` and `parsedTime` the handler derives from `chrono.parse`. -/
def parseMessageDate (env : Env) (message : Str) : Option Str × Option Str :=
  match env.chronoParse message with
  | some start =>
      let mentionedYear := start.year
      let date :=
        if (mentionedYear = none ∨ mentionedYear = some 0) ∧ start.date < env.now
        then env.setFullYear start.date (env.getFullYear env.now + 1)
        else start.date
      let offset := env.getTimezoneOffset date
      let date := date - offset * 60 * 1000
      (some (env.toISOString date).1, some ((env.toISOString date).2.take 5))
  | none => (none, none)

/-- The prompt text built from the history: one line per entry, then `Assistant:`. -/
def buildPrompt (history : List Message) : Str :=
  "\n".toList.intercalate
    (history.map fun m =>
      if m.role = "system".toList then "System: ".toList ++ m.content
      else if m.role = "user".toList then "User: ".toList ++ m.content
      else "Assistant: ".toList ++ m.content)
  ++ "\nAssistant:".toList

/-- A time of day as written in a time range: `\d{1,2}(?::\d{2})?\s*(?:am|pm)?`. -/
def reTimeOfDay : Re :=
  .seq (.rep false [.digit] 1 (some 2))
    (.seq (.opt (.seq (.chr ':') (.rep false [.digit] 2 (some 2))))
      (.seq (.rep false [.space] 0 none)
        (.opt (.alt (Re.lit "am".toList) (Re.lit "pm".toList)))))

/-- The pattern of step 3,
`/(\d{1,2}(?::\d{2})?\s*(?:am|pm)?)(?:\s*[-to]{1,3}\s*)(\d{1,2}(?::\d{2})?\s*(?:am|pm)?)/i`. -/
def reTimeRange : Re :=
  .seq (.group 1 reTimeOfDay)
    (.seq (.seq (.rep false [.space] 0 none)
            (.seq (.rep false [.ch '-', .ch 't', .ch 'o'] 1 (some 3)) (.rep false [.space] 0 none)))
      (.group 2 reTimeOfDay))

/-- The pattern `/\d/` of step 3. -/
def reAnyDigit : Re := .set false [.digit]

/-- The pattern `/(\d{1,4})/` of step 4. -/
def rePartySize : Re := .group 1 (.rep false [.digit] 1 (some 4))

/-- The pattern `/\b[A-Z0-9._%+-]+@[A-Z0-9.-]+\.[A-Z]{2,}\b/i` of step 7. -/
def reEmail : Re :=
  .seq .wordB
    (.seq (.rep false [.range 'A' 'Z', .range '0' '9', .ch '.', .ch '_', .ch '%', .ch '+', .ch '-'] 1 none)
      (.seq (.chr '@')
        (.seq (.rep false [.range 'A' 'Z', .range '0' '9', .ch '.', .ch '-'] 1 none)
          (.seq (.chr '.')
            (.seq (.rep false [.range 'A' 'Z'] 2 none) .wordB)))))

/-- The pattern `/(\+?\d[\d\-\s()]{6,}\d)/` of step 8. -/
def rePhone : Re :=
  .group 1
    (.seq (.rep false [.ch '+'] 0 (some 1))
      (.seq (.set false [.digit])
        (.seq (.rep false [.digit, .ch '-', .space, .ch '(', .ch ')'] 6 none)
          (.set false [.digit]))))

/-- The test of step 10: does the lower-cased message contain a negation keyword? -/
def isNegation (message : Str) : Bool :=
  let low := toLowerCase message
  includes low "no".toList || includes low "that's it".toList ||
  includes low "thats it".toList || includes low "nope".toList

/-- The summary text of step 10. -/
def summary (b : Booking) : Str :=
  "\n".toList.intercalate
    [ "📅 Date: ".toList ++ orDefault b.date "TBD".toList,
      "⏰ Time: ".toList ++ orDefault b.startTime "TBD".toList ++
        (if truthy b.endTime then " - ".toList ++ tmpl b.endTime else []),
      "👥 Guests: ".toList ++ orDefault b.partySize "TBD".toList,
      "🎉 Event Type: ".toList ++ orDefault b.eventType "TBD".toList,
      "🍽 Food: ".toList ++ orDefault b.food "TBD".toList,
      "📧 Email: ".toList ++ orDefault b.email "TBD".toList,
      "📞 Phone: ".toList ++ orDefault b.phone "TBD".toList,
      "🎈 Decor: ".toList ++ orDefault b.decor "None".toList ]

/-- The closing message of step 10 after a negation. -/
def confirmMsg (b : Booking) : Str :=
  "Thanks — here's a summary of your booking:\n\n".toList ++ summary b ++
  "\n\nWe'll follow up to confirm. For immediate help call 330.422.3304 or email salvatoresHowland@gmail.com.".toList

/-- The closing message of step 10 after an extra request. -/
def extrasMsg (message : Str) : Str :=
  "Noted. I've added: \"".toList ++ message ++
  "\". We'll include that in your booking. We'll follow up to confirm. For immediate help call 330.422.3304 or email salvatoresHowland@gmail.com.".toList

/-- What handling one message did to a session. -/
structure Turn where
  /-- the session stored under the identifier afterwards -/
  session : Session
  /-- the payloads written after the handler's own session-identifier frame -/
  frames : List Str
  /-- the arguments of the calls of `saveBooking`, in order -/
  saved : List Booking
  /-- the prompts handed to `callOpenAIStream`, in order -/
  prompts : List Str
  deriving Repr

/-- The local function `ask`. -/
def ask (sessionId : Str) (session : Session) (stepNum : Nat) (promptText : Str) : Turn :=
  ⟨{ session with step := stepNum, lastServerPrompt := promptText },
   streamText sessionId promptText, [], []⟩

/-- The general chat path after the `switch`. -/
def aiFallback (env : Env) (session : Session) : Turn :=
  let prompt := buildPrompt session.history
  let reply := env.openAIStream prompt
  let texts := reply.1.filterMap fun content => if truthy content then content else none
  ⟨{ session with lastServerPrompt := prompt },
   if reply.2 then texts ++ ["Sorry — AI backend error. Try again later.".toList, doneFrame]
   else texts ++ [doneFrame],
   [], [prompt]⟩

/-- The body of the handler from the intent test on: `session` is
`conversationContext[sessionId]` and `message` the cleaned, non-empty message. -/
def turn (env : Env) (sessionId : Str) (session : Session) (message : Str) : Turn :=
  let parsedDate := (parseMessageDate env message).1
  let parsedTime := (parseMessageDate env message).2
  if session.step = 0 then
    if isBookingIntent message then
      let prompt := orDefault (stepPrompts 2)
        "Wonderful — what date would you like to book your banquet for?".toList
      ⟨{ session with step := 2, lastServerPrompt := prompt }, streamText sessionId prompt, [],
       []⟩
    else
      ⟨{ session with step := 1, lastServerPrompt := prompt 0 },
       streamText sessionId (prompt 0), [], []⟩
  else if session.step = 1 then
    if isBookingIntent message then
      ⟨{ session with step := 2, lastServerPrompt := prompt 2 },
       streamText sessionId (prompt 2), [], []⟩
    else
      let history := session.history ++ [⟨"user".toList, message⟩]
      ⟨{ session with
          history := history ++ [⟨"assistant".toList, []⟩]
          lastServerPrompt := buildPrompt history },
       [doneFrame], [], []⟩
  else
    match session.step with
    | 2 =>
        let booking :=
          if !truthy session.booking.date && truthy parsedDate then
            { session.booking with date := parsedDate }
          else if !truthy session.booking.date then
            { session.booking with date := some message }
          else session.booking
        ask sessionId { session with booking := booking } 3 (prompt 3)
    | 3 =>
        let booking :=
          match exec true reTimeRange message with
          | some timeRangeMatch =>
              { session.booking with
                  startTime := some (trim (timeRangeMatch.sub 1))
                  endTime := some (trim (timeRangeMatch.sub 2)) }
          | none =>
              if truthy parsedTime && !test false reAnyDigit message then
                { session.booking with startTime := parsedTime }
              else { session.booking with startTime := some message }
        ask sessionId { session with booking := booking } 4 (prompt 4)
    | 4 =>
        let booking :=
          match exec false rePartySize message with
          | some m => { session.booking with partySize := some (m.sub 1) }
          | none => { session.booking with partySize := some message }
        ask sessionId { session with booking := booking } 5 (prompt 5)
    | 5 =>
        ask sessionId { session with booking := { session.booking with eventType := some message } }
          6 (prompt 6)
    | 6 =>
        ask sessionId { session with booking := { session.booking with food := some message } }
          7 (prompt 7)
    | 7 =>
        let email :=
          match exec true reEmail message with
          | some emailMatch => emailMatch.text
          | none => message
        ask sessionId { session with booking := { session.booking with email := some email } }
          8 (prompt 8)
    | 8 =>
        let phone :=
          match exec false rePhone message with
          | some phoneMatch => phoneMatch.text
          | none => message
        ask sessionId { session with booking := { session.booking with phone := some phone } }
          9 (prompt 9)
    | 9 =>
        ask sessionId { session with booking := { session.booking with decor := some message } }
          10 (prompt 10)
    | 10 =>
        if isNegation message then
          ⟨{ makeNewSession with history := makeNewSession.history.set 0 systemMessage },
           streamText sessionId (confirmMsg session.booking),
           [session.booking], []⟩
        else
          ⟨makeNewSession, streamText sessionId (extrasMsg message), [], []⟩
    | _ => aiFallback env session

/-- A field of the request body: missing or falsy, a string, or some other truthy value. -/
inductive Field where
  | absent
  | str (s : Str)
  | other
  deriving Repr

/-- The body of a `POST /api/assistant` request. -/
structure Request where
  sessionId : Option Str
  message : Field
  deriving Repr

/-- What one request did: the sessions afterwards, the payloads written to the response
(each sent as `data: <payload>\n\n`), the bookings handed to `saveBooking`, and the
prompts handed to `callOpenAIStream`. -/
structure Response where
  store : Store
  frames : List Str
  saved : List Booking
  prompts : List Str

/-- The message of a request after `(message || "").trim()` and `cleanText`; `none` when
`trim` is not a function of the value (the handler then throws into its outer `catch`). -/
def cleanedMessage : Field → Option Str
  | .absent => some (cleanText (trim []))
  | .str s => some (cleanText (trim s))
  | .other => none

/-- The session identifier a request works on. -/
def requestId (env : Env) (req : Request) : Str :=
  match req.sessionId with
  | some (c :: cs) => c :: cs
  | _ => env.makeSessionId

/-- The property names every plain object inherits from `Object.prototype`.
`conversationContext` is a plain object, so `conversationContext[name]` for one of these
names is an inherited function (for `__proto__` the prototype object) and not
`undefined`, although no session is stored under the name. -/
def inheritedNames : List Str :=
  ["constructor".toList, "__defineGetter__".toList, "__defineSetter__".toList,
   "hasOwnProperty".toList, "__lookupGetter__".toList, "__lookupSetter__".toList,
   "isPrototypeOf".toList, "propertyIsEnumerable".toList, "toString".toList,
   "valueOf".toList, "__proto__".toList, "toLocaleString".toList]

/-- The handler of `POST /api/assistant` in `server.js`.

When no session is stored under the identifier and the identifier is an inherited
property name, `!conversationContext[sessionId]` is false, so no session is made and
`session` is the inherited value: its `step` is `undefined`, no step matches, and
`session.history.map` of the general chat path throws into the outer `catch`, after the
session-identifier payload has been written. -/
def apiAssistant (env : Env) (store : Store) (req : Request) : Response :=
  match cleanedMessage req.message with
  | none => ⟨store, ["[ERROR in assistant]".toList, doneFrame], [], []⟩
  | some message =>
    if message.isEmpty then ⟨store, [doneFrame], [], []⟩
    else
      let sessionId := requestId env req
      if (store sessionId).isNone && inheritedNames.contains sessionId then
        ⟨store, [sessionFrame sessionId, "[ERROR in assistant]".toList, doneFrame], [], []⟩
      else
        let session := (store sessionId).getD makeNewSession
        let t := turn env sessionId session message
        ⟨store.set sessionId t.session, sessionFrame sessionId :: t.frames, t.saved, t.prompts⟩

end Server

/-! ## Extraction variant (`server2.js`) -/

namespace Server2

/-- The pattern `/(\d{1,2})(:(\d{2}))?(am|pm)?/` of `normalizeTime`. -/
def reTime : Re :=
  .seq (.group 1 (.rep false [.digit] 1 (some 2)))
    (.seq (.opt (.group 2 (.seq (.chr ':') (.group 3 (.rep false [.digit] 2 (some 2))))))
      (.opt (.group 4 (.alt (Re.lit "am".toList) (Re.lit "pm".toList)))))

/-- The function `normalizeTime` of `server2.js`.  The argument is `none` for `null` or
`undefined`. -/
def normalizeTime (t : Option Str) : Str :=
  match t with
  | none => "12:00:00".toList
  | some s =>
    if s.isEmpty then "12:00:00".toList
    else
      let t := replaceAll false (.set false [.space]) (fun _ => []) (toLowerCase s)
      match exec false reTime t with
      | none => "12:00:00".toList
      | some mt =>
          let hour := parseInt (mt.sub 1)
          let min := match mt.cap 3 with
            | some ms => if ms.isEmpty then some 0 else parseInt ms
            | none => some 0
          let period := mt.cap 4
          let hour := if period = some "pm".toList ∧ (∃ h, hour = some h ∧ h < 12)
                      then hour.map (· + 12) else hour
          let hour := if period = some "am".toList ∧ hour = some 12 then some 0 else hour
          padStart (numToStr hour) 2 '0' ++ [':'] ++ padStart (numToStr min) 2 '0' ++ ":00".toList

/-- The pattern `/\s+/g`. -/
def reSpaceRun : Re := .rep false [.space] 1 none

/-- The pattern `/([a-z])([A-Z])/g`. -/
def reCamel : Re := .seq (.group 1 (.set false [.range 'a' 'z'])) (.group 2 (.set false [.range 'A' 'Z']))

/-- The pattern `/\s{2,}/g`. -/
def reBlanks : Re := .rep false [.space] 2 none

/-- The function `cleanText` of `server2.js`. -/
def cleanText (text : Str) : Str :=
  trim
    (replaceAll false reBlanks (fun _ => [' '])
      (replaceAll false reCamel (fun mt => mt.sub 1 ++ [' '] ++ mt.sub 2)
        (replaceAll false reSpaceRun (fun _ => [' ']) text)))

/-- A value inside the object the extraction returns. -/
inductive Value where
  | null
  | bool (b : Bool)
  | num (q : Rat)
  | str (s : Str)
  /-- a nested object or array; `text` is what `String(value)` gives -/
  | object (text : Str)
  deriving DecidableEq, Repr

/-- JavaScript truthiness of a value. -/
def Value.truthy : Value → Bool
  | .null => false
  | .bool b => b
  | .num q => decide (q ≠ 0)
  | .str s => !s.isEmpty
  | .object _ => true

/-- The result of `JSON.parse`. -/
inductive Parsed where
  /-- the value `null`: reading a property of it throws -/
  | null
  /-- a number, string, boolean or array: it has none of the booking fields -/
  | plain
  /-- an object, by its properties -/
  | record (fields : List (Str × Value))
  deriving DecidableEq, Repr

/-- The booking object handed from the extraction to `saveBooking`. -/
abbrev Record := List (Str × Value)

/-- The property `booking.key`; a missing property (`undefined`) reads as `null`. -/
def Record.get (r : Record) (key : String) : Value :=
  ((r.find? (fun p => p.1 == key.toList)).map (fun p => p.2)).getD .null

/-- One entry of the stored history. -/
structure Entry where
  sender : Str
  text : Str
  deriving DecidableEq, Repr

/-- The calendar event of `server2.js` (both `timeZone` fields are the constant
`"America/New_York"`). -/
structure Event where
  summary : Str
  description : Str
  startDateTime : Str
  endDateTime : Str
  attendee : Str
  deriving DecidableEq, Repr

/-- The libraries and services one request of `server2.js` talks to.  A failing call is
given by the message of the error it throws. -/
structure Env where
  /-- the identifier `uuidv4()` returns -/
  uuidv4 : Str
  /-- the stored history of a session: `[]` when the file does not exist, the parsed file
  otherwise -/
  readSession : Str → Except Str (List Entry)
  /-- the chat completion: the `delta.content` values of the chunks received, and the
  error that ends the stream early, if any -/
  chat : List Entry → Except Str (List (Option Str) × Option Str)
  /-- `fs.writeFileSync` of the session file: the error, if any -/
  writeSession : Str → List Entry → Option Str
  /-- the extraction completion on a conversation text: the content of the reply
  (`none`: no content) -/
  extraction : Str → Except Str (Option Str)
  /-- `JSON.parse`: `none` when it throws -/
  jsonParse : Str → Option Parsed
  /-- `Number.prototype.toString` -/
  numberText : Rat → Str
  /-- does `calendar.events.insert` succeed? -/
  calendarInsert : Event → Bool
  /-- `process.env.SHEET_ID` -/
  sheetId : Option Str
  /-- does `sheets.spreadsheets.values.append` succeed on this row? -/
  sheetsAppend : List Value → Bool
  /-- `new Date().toISOString()` -/
  nowText : Str

/-- A value inside a template literal. -/
def Value.text (env : Env) : Value → Str
  | .null => "null".toList
  | .bool true => "true".toList
  | .bool false => "false".toList
  | .num q => env.numberText q
  | .str s => s
  | .object t => t

/-- The expression `v || d`. -/
def Value.orElse (v : Value) (d : String) : Value :=
  if v.truthy then v else .str d.toList

/-- The conversation text of the extraction prompt: the last 15 entries, one per line. -/
def conversationText (history : List Entry) : Str :=
  "\n".toList.intercalate
    ((history.drop (history.length - 15)).map fun m => m.sender ++ ": ".toList ++ m.text)

/-- The pattern of the opening code fence: three backticks, `json`, an optional line
feed. -/
def reFenceJson : Re :=
  .seq (Re.lit [Char.ofNat 96, Char.ofNat 96, Char.ofNat 96, 'j', 's', 'o', 'n'])
    (.rep false [.ch (Char.ofNat 10)] 0 (some 1))

/-- The pattern of a code fence: three backticks and an optional line feed. -/
def reFence : Re :=
  .seq (Re.lit [Char.ofNat 96, Char.ofNat 96, Char.ofNat 96])
    (.rep false [.ch (Char.ofNat 10)] 0 (some 1))

/-- The clean-up of the reply before parsing: both kinds of code fence are removed and the
result is trimmed. -/
def stripFences (content : Str) : Str :=
  trim (replaceAll false reFence (fun _ => [])
    (replaceAll false reFenceJson (fun _ => []) content))

/-- The five required fields. -/
def requiredFields : List String := ["date", "startTime", "partySize", "email", "eventType"]

/-- The part of `extractBookingDetails` after the completion call: `content` is
`response.choices[0]?.message?.content` (`none`: missing).  Every exception is caught
inside the function and gives `null` (`none`). -/
def extractFromReply (env : Env) (content : Option Str) : Option Record :=
  match content.map trim with
  | none => none
  | some [] => none
  | some (c :: cs) =>
    let jsonText := stripFences (c :: cs)
    match env.jsonParse jsonText with
    | none => none
    | some .null => none
    | some .plain => none
    | some (.record parsed) =>
      let hasRequired :=
        (Record.get parsed "date").truthy && (Record.get parsed "startTime").truthy &&
        (Record.get parsed "partySize").truthy && (Record.get parsed "email").truthy &&
        (Record.get parsed "eventType").truthy
      if hasRequired then some parsed else none

/-- The function `extractBookingDetails`. -/
def extractBookingDetails (env : Env) (history : List Entry) : Option Record :=
  match env.extraction (conversationText history) with
  | .error _ => none
  | .ok content => extractFromReply env content

/-- The function `normalizeTime` applied to a property of the booking; `none` when it
throws (`toLowerCase` on a truthy value that is not a string). -/
def timeText (v : Value) : Option Str :=
  if !v.truthy then some (normalizeTime none)
  else
    match v with
    | .str s => some (normalizeTime (some s))
    | _ => none

/-- What one call of `saveBooking` did. -/
structure SaveResult where
  /-- the value returned -/
  ok : Bool
  /-- the event of the attempted calendar insert -/
  event : Option Event
  /-- the row of the attempted spreadsheet append -/
  row : Option (List Value)
  deriving Repr

/-- The function `saveBooking` of `server2.js`. -/
def saveBooking (env : Env) (booking : Record) : SaveResult :=
  match timeText (booking.get "startTime"),
        timeText (if (booking.get "endTime").truthy then booking.get "endTime"
                  else booking.get "startTime") with
  | some startTime, some endTime =>
    let event : Event :=
      { summary := "Banquet: ".toList ++ ((booking.get "eventType").orElse "Event").text env ++
          " - ".toList ++ (booking.get "partySize").text env ++ " guests".toList
        description := "Customer: ".toList ++ (booking.get "email").text env ++
          "\nPhone: ".toList ++ ((booking.get "phone").orElse "N/A").text env ++
          "\nGuests: ".toList ++ (booking.get "partySize").text env ++
          "\nFood: ".toList ++ ((booking.get "food").orElse "Not specified").text env ++
          "\nNotes: ".toList ++ ((booking.get "notes").orElse "None").text env
        startDateTime := (booking.get "date").text env ++ ['T'] ++ startTime
        endDateTime := (booking.get "date").text env ++ ['T'] ++ endTime
        attendee := (booking.get "email").text env }
    if env.calendarInsert event then
      match env.sheetId with
      | some (_ :: _) =>
        let row : List Value :=
          [ .str env.nowText, booking.get "date", booking.get "startTime",
            (booking.get "endTime").orElse "N/A", booking.get "partySize",
            (booking.get "eventType").orElse "N/A", (booking.get "food").orElse "N/A",
            booking.get "email", (booking.get "phone").orElse "N/A",
            if (booking.get "notes").truthy then booking.get "notes" else .str [] ]
        ⟨env.sheetsAppend row, some event, some row⟩
      | _ => ⟨true, some event, none⟩
    else ⟨false, some event, none⟩
  | _, _ => ⟨false, none, none⟩

/-- The payload `JSON.stringify(\x7b error: err.message \x7d)` of the handler's `catch`. -/
def errorFrame (message : Str) : Str :=
  "\x7b\"error\":\"".toList ++ message.flatMap jsonEscape ++ "\"\x7d".toList

/-- The session-identifier payload, written by plain interpolation. -/
def sessionFrame (sid : Str) : Str :=
  "\x7b\"sessionId\":\"".toList ++ sid ++ "\"\x7d".toList

/-- The escaping of a text fragment before it is framed: line feed and carriage return
become backslash-n and backslash-r. -/
def escapeBreaks (content : Str) : Str :=
  replaceAll false (.chr (Char.ofNat 13)) (fun _ => [Char.ofNat 92, 'r'])
    (replaceAll false (.chr (Char.ofNat 10)) (fun _ => [Char.ofNat 92, 'n']) content)

/-- A field of the request body: missing or falsy, a string, or some other truthy value. -/
inductive Field where
  | absent
  | str (s : Str)
  | other
  deriving Repr

/-- The body of a `POST /api/assistant` request. -/
structure Request where
  sessionId : Option Str
  message : Field
  deriving Repr

/-- What the client receives. -/
inductive Reply where
  /-- status 400 with the JSON body `error: "Missing message"` -/
  | badRequest
  /-- an event stream with these payloads, each sent as `data: <payload>\n\n` -/
  | stream (frames : List Str)
  deriving Repr

/-- What one request did: the reply, the bookings handed to `saveBooking`, and the
history written to the session file. -/
structure Response where
  reply : Reply
  saved : List Record
  written : Option (Str × List Entry)
  deriving Repr

/-- The text fragments of a completion stream that are not empty. -/
def fragments (chunks : List (Option Str)) : List Str :=
  chunks.filterMap fun content =>
    match content with
    | some (c :: cs) => some (c :: cs)
    | _ => none

/-- The handler of `POST /api/assistant` in `server2.js`. -/
def apiAssistant (env : Env) (req : Request) : Response :=
  match req.message with
  | .absent => ⟨.badRequest, [], none⟩
  | .str [] => ⟨.badRequest, [], none⟩
  | .other => ⟨.stream [errorFrame "text.replace is not a function".toList], [], none⟩
  | .str (c :: cs) =>
    let sid :=
      match req.sessionId with
      | some (d :: ds) => d :: ds
      | _ => env.uuidv4
    let cleanMessage := cleanText (c :: cs)
    match env.readSession sid with
    | .error e => ⟨.stream [errorFrame e], [], none⟩
    | .ok stored =>
      let history := stored ++ [⟨"user".toList, cleanMessage⟩]
      match env.chat history with
      | .error e => ⟨.stream [sessionFrame sid, errorFrame e], [], none⟩
      | .ok (chunks, failure) =>
        let texts := (fragments chunks).map escapeBreaks
        match failure with
        | some e => ⟨.stream ([sessionFrame sid] ++ texts ++ [errorFrame e]), [], none⟩
        | none =>
          let botReply := (fragments chunks).flatten
          let history := history ++ [⟨"assistant".toList, botReply⟩]
          match env.writeSession sid history with
          | some e => ⟨.stream ([sessionFrame sid] ++ texts ++ [errorFrame e]), [], none⟩
          | none =>
            match extractBookingDetails env history with
            | some booking =>
              ⟨.stream ([sessionFrame sid] ++ texts ++
                  (if (saveBooking env booking).ok then ["[BOOKING_SAVED]".toList] else []) ++
                  ["[DONE]".toList]),
               [booking], some (sid, history)⟩
            | none =>
              ⟨.stream ([sessionFrame sid] ++ texts ++ ["[DONE]".toList]), [], some (sid, history)⟩

end Server2

/-! ## Chat client (`App.js`) and the text on the wire -/

namespace Client

/-- The pattern `/\\n/g` of the chat client: a backslash followed by `n`. -/
def reEscapedBreak : Re := Re.lit [Char.ofNat 92, 'n']

/-- The client's unescaping `content.replace(/\\n/g, '\n')`. -/
def unescapeBreaks (content : Str) : Str :=
  replaceAll false reEscapedBreak (fun _ => [Char.ofNat 10]) content

end Client

/-- `String.prototype.split` with a one-character separator. -/
def splitOn (sep : Char) : Str → List Str
  | [] => [[]]
  | c :: cs =>
      if c = sep then [] :: splitOn sep cs
      else
        match splitOn sep cs with
        | l :: ls => (c :: l) :: ls
        | [] => [[c]]

namespace Server

/-- The text sent for a list of payloads: each one goes out as `data: <payload>\n\n`. -/
def wire (frames : List Str) : Str :=
  frames.flatMap fun f => "data: ".toList ++ f ++ "\n\n".toList

end Server

namespace Client

/-- What the stream loop of `sendMessage` adds to `botMessage` for one line. -/
def lineText (line : Str) : Str :=
  if (trim line).isEmpty then []
  else if !startsWith line "data: ".toList then []
  else
    let content := line.drop 6
    if content = "[DONE]".toList then []
    else if content = "[BOOKING_SAVED]".toList then []
    else if startsWith content "\x7b\"sessionId\"".toList then []
    else unescapeBreaks content

/-- The value of `botMessage` after the stream loop of `sendMessage`, for the texts `raw`
decoded from the reads of the response body, in order. -/
def botMessage (reads : List Str) : Str :=
  reads.flatMap fun raw => (splitOn '\n' raw).flatMap lineText

end Client

/-! ## Vocabulary of the statements -/

/-- The character of the decimal digit `n`. -/
def digitChar (n : Nat) : Char := Char.ofNat (48 + n)

/-- A number below one hundred written with two digits. -/
def twoDigits (n : Nat) : Str := [digitChar (n / 10), digitChar (n % 10)]

/-- The ways of writing the hour `H` with one or two digits. -/
def hourTexts (H : Nat) : List Str :=
  if H < 10 then [[digitChar H], twoDigits H] else [twoDigits H]

/-- The optional minute part `:MM` of a time. -/
def minuteText : Option Nat → Str
  | none => []
  | some m => ':' :: twoDigits m

/-- The two meridiem markers. -/
inductive Meridiem where
  | am
  | pm
  deriving DecidableEq, Repr

/-- The spellings of an optional meridiem marker, in any letter case. -/
def meridiemTexts : Option Meridiem → List Str
  | none => [[]]
  | some .am => ["am".toList, "aM".toList, "Am".toList, "AM".toList]
  | some .pm => ["pm".toList, "pM".toList, "Pm".toList, "PM".toList]

/-- The 24-hour value of the hour `H` under an optional meridiem marker. -/
def hour24 (H : Nat) : Option Meridiem → Nat
  | none => H
  | some .am => H % 12
  | some .pm => H % 12 + 12

/-- The text `hh:mm:00` with both fields zero-padded. -/
def timeOfDay (h m : Nat) : Str := twoDigits h ++ [':'] ++ twoDigits m ++ ":00".toList

/-- A text `HH:MM:SS` that is a time of day: hour at most 23, minute at most 59, written
`hh:mm:00`. -/
def IsTimeOfDay (s : Str) : Prop := ∃ h, h < 24 ∧ ∃ m, m < 60 ∧ s = timeOfDay h m

instance (s : Str) : Decidable (IsTimeOfDay s) := by
  unfold IsTimeOfDay; infer_instance

/-- A text of the shape `H(:MM)?(am|pm)?`: a one or two digit hour, an optional colon with
a two digit minute, an optional meridiem marker. -/
def TimeShape (s : Str) : Prop :=
  ∃ H mm mer ht mt, H < 100 ∧ (∀ m, mm = some m → m < 100) ∧ ht ∈ hourTexts H ∧
    mt ∈ meridiemTexts mer ∧ s = ht ++ minuteText mm ++ mt

/-- The hour after the meridiem adjustment of `normalizeTime` (`some true`: pm,
`some false`: am). -/
def codeHour (h : Nat) (mer : Option Bool) : Nat :=
  match mer with
  | none => h
  | some false => if h = 12 then 0 else h
  | some true => if h < 12 then h + 12 else h

/-- The lower-case meridiem marker (`some true`: pm, `some false`: am). -/
def merLower : Option Bool → Str
  | none => []
  | some false => ['a', 'm']
  | some true => ['p', 'm']

/-- Is the marker `pm`? -/
def isPm : Meridiem → Bool
  | .am => false
  | .pm => true

/-- The minute part made of a colon and two given characters. -/
def minPart : Option (Char × Char) → Str
  | none => []
  | some (a, b) => [':', a, b]

/-- The two digit characters of an optional minute. -/
def minuteDigits : Option Nat → Option (Char × Char)
  | none => none
  | some m => some (digitChar (m / 10), digitChar (m % 10))

/-- The value of an optional two-character minute. -/
def minValue : Option (Char × Char) → Nat
  | none => 0
  | some (a, b) => digitsValue 0 [a, b]

/-- One or two digit characters. -/
def DigitRun (hs : Str) : Prop :=
  (∃ d, isDigit d = true ∧ hs = [d]) ∨
  (∃ d1 d2, isDigit d1 = true ∧ isDigit d2 = true ∧ hs = [d1, d2])

/-- Both characters of an optional pair are digits. -/
def DigitPair : Option (Char × Char) → Prop
  | none => True
  | some (a, b) => isDigit a = true ∧ isDigit b = true

/-- The captures `server.js` records on a text `H(:MM)?(am|pm)?`. -/
def capsOf (hs : Str) (ms : Option (Char × Char)) (mer : Option Bool) : List (Nat × Str) :=
  (match mer with | none => [] | some _ => [(3, merLower mer)]) ++
  (match ms with | none => [] | some (a, b) => [(2, [a, b])]) ++ [(1, hs)]

/-- The captures `server2.js` records on a text `H(:MM)?(am|pm)?`. -/
def capsOf2 (hs : Str) (ms : Option (Char × Char)) (mer : Option Bool) : List (Nat × Str) :=
  (match mer with | none => [] | some _ => [(4, merLower mer)]) ++
  (match ms with | none => [] | some (a, b) => [(2, [':', a, b]), (3, [a, b])]) ++ [(1, hs)]

/-- The text `normalizeTime` assembles from an hour and a minute. -/
def clock (h m : Nat) : Str :=
  padStart (natToStr h) 2 '0' ++ [':'] ++ padStart (natToStr m) 2 '0' ++ [':', '0', '0']

/-- The end positions the pattern `r` allows from a position: `Re.Den ic r st st'` holds when
`r` can match from `st` up to `st'`.  Every end position the matcher hands to its
continuation is one of these. -/
def Re.Den (ic : Bool) : Re → MState → MState → Prop
  | .set neg items, st, st' =>
      ∃ c cs, st.rest = c :: cs ∧ classTest ic neg items c = true ∧
        st' = { st with before := c :: st.before, rest := cs }
  | .rep neg items mn mx, st, st' =>
      ∃ w, (∀ c ∈ w, classTest ic neg items c = true) ∧ mn ≤ w.length ∧
        (∀ n, mx = some n → w.length ≤ n) ∧
        st.rest = w ++ st'.rest ∧ st'.before = w.reverse ++ st.before ∧ st'.caps = st.caps
  | .seq a b, st, st' => ∃ st1, Re.Den ic a st st1 ∧ Re.Den ic b st1 st'
  | .alt a b, st, st' => Re.Den ic a st st' ∨ Re.Den ic b st st'
  | .opt a, st, st' => Re.Den ic a st st' ∨ st' = st
  | .group i a, st, st' =>
      ∃ st1, Re.Den ic a st st1 ∧ st' = { st1 with caps := (i, consumed st st1) :: st1.caps }
  | .wordB, st, st' =>
      ((st.before.head?.map isWord).getD false != (st.rest.head?.map isWord).getD false) = true ∧
        st' = st
  | .ahead a, st, st' => ∃ st1, Re.Den ic a st st1 ∧ st' = { st with caps := st1.caps }
  | .bos, st, st' => st.before = [] ∧ st' = st
  | .eos, st, st' => st.rest = [] ∧ st' = st

/-- No capturing group and no lookahead inside. -/
def Re.plain : Re → Bool
  | .seq a b => a.plain && b.plain
  | .alt a b => a.plain && b.plain
  | .opt a => a.plain
  | .group _ _ => false
  | .ahead _ => false
  | _ => true

/-! ### Vocabulary of the step machine -/

namespace Server

/-- A value that is neither `null` nor the empty string. -/
def Filled (v : Option Str) : Prop := ∃ s, v = some s ∧ s ≠ []

/-- The five required fields of a booking are all filled. -/
def Booking.Complete (b : Booking) : Prop :=
  Filled b.date ∧ Filled b.startTime ∧ Filled b.partySize ∧ Filled b.eventType ∧ Filled b.email

/-- A booking with the field(s) written at step `k` blanked. -/
def eraseStep (k : Nat) (b : Booking) : Booking :=
  match k with
  | 2 => { b with date := none }
  | 3 => { b with startTime := none, endTime := none }
  | 4 => { b with partySize := none }
  | 5 => { b with eventType := none }
  | 6 => { b with food := none }
  | 7 => { b with email := none }
  | 8 => { b with phone := none }
  | 9 => { b with decor := none }
  | _ => b

/-- The invariant of the step machine. -/
def Inv (s : Session) : Prop :=
  s.step ≤ 10 ∧ (s.step ≤ 2 → s.booking = makeNewSession.booking) ∧
  (3 ≤ s.step → Filled s.booking.date) ∧ (4 ≤ s.step → Filled s.booking.startTime) ∧
  (5 ≤ s.step → Filled s.booking.partySize) ∧ (6 ≤ s.step → Filled s.booking.eventType) ∧
  (8 ≤ s.step → Filled s.booking.email)

/-- The states of `conversationContext` the server can be in. -/
inductive Reachable : Store → Prop
  | start : Reachable (fun _ => none)
  | request (env : Env) (store : Store) (req : Request) :
      Reachable store → Reachable (apiAssistant env store req).store

/-- A sample environment: a date parser that knows `November 1st`, New York summer time,
a clock that reads the time of day after the `T`, and services that succeed. -/
def sampleEnv : Env where
  makeSessionId := "session-1".toList
  chronoParse := fun s =>
    if s = "November 1st".toList then some ⟨1825084800000, none⟩ else none
  now := 1793804400000
  getFullYear := fun _ => 2026
  setFullYear := fun t _ => t
  getTimezoneOffset := fun _ => 240
  toISOString := fun _ => ("2027-11-01".toList, "12:00:00.000Z".toList)
  chronoParseDate := fun _ => none
  dateParse := fun s =>
    match s.dropWhile (fun c => c != 'T') with
    | _ :: h1 :: h2 :: _ :: m1 :: m2 :: _ =>
        some (1825041600000 + (digitsValue 0 [h1, h2] * 60 + digitsValue 0 [m1, m2]) * 60000 : Int)
    | _ => none
  sheetsAppend := fun _ => true
  openAIStream := fun _ => ([], false)

/-- The sample environment with a failing spreadsheet. -/
def failingEnv : Env := { sampleEnv with sheetsAppend := fun _ => false }

/-- A complete booking. -/
def sampleBooking : Booking :=
  { date := some "2027-11-01".toList, startTime := some "6pm".toList, endTime := some "9pm".toList,
    partySize := some "40".toList, eventType := some "Birthday Party".toList,
    food := some "pasta".toList, email := some "john@example. com".toList,
    phone := some "330-422-3304".toList, decor := some "balloons".toList, extras := none }

/-- Handle a list of requests in order, all in the same environment. -/
def runRequests (env : Env) : Store → List Request → Store
  | store, [] => store
  | store, req :: reqs => runRequests env (apiAssistant env store req).store reqs

/-- A conversation that fills a booking. -/
def sampleConversation : List Request :=
  [ ⟨none, .str "I want to book a birthday party".toList⟩,
    ⟨some "session-1".toList, .str "November 1st".toList⟩,
    ⟨some "session-1".toList, .str "6pm-9pm".toList⟩,
    ⟨some "session-1".toList, .str "40 guests".toList⟩,
    ⟨some "session-1".toList, .str "Birthday Party".toList⟩,
    ⟨some "session-1".toList, .str "pasta".toList⟩,
    ⟨some "session-1".toList, .str "john@example.com".toList⟩,
    ⟨some "session-1".toList, .str "330-422-3304".toList⟩,
    ⟨some "session-1".toList, .str "balloons".toList⟩ ]

end Server

/-! ### Vocabulary of the extraction variant -/

namespace Server2

/-- A sample reply of the extraction model. -/
def sampleReply : Str :=
  "```json\n\x7b\"date\":\"2025-11-01\",\"startTime\":\"2:00 PM\",\"partySize\":25,\"email\":\"a@b.co\",\"eventType\":\"Graduation Party\"\x7d\n```".toList

/-- The object in the sample reply. -/
def sampleRecord : Record :=
  [ ("date".toList, .str "2025-11-01".toList), ("startTime".toList, .str "2:00 PM".toList),
    ("partySize".toList, .num 25), ("email".toList, .str "a@b.co".toList),
    ("eventType".toList, .str "Graduation Party".toList) ]

/-- A sample environment: the extraction answers with the sample reply, and every service
succeeds. -/
def sampleEnv : Env where
  uuidv4 := "session-1".toList
  readSession := fun _ => .ok []
  chat := fun _ => .ok ([some "Perfetto!".toList], none)
  writeSession := fun _ _ => none
  extraction := fun _ => .ok (some sampleReply)
  jsonParse := fun s =>
    if s = "\x7b\"date\":\"2025-11-01\",\"startTime\":\"2:00 PM\",\"partySize\":25,\"email\":\"a@b.co\",\"eventType\":\"Graduation Party\"\x7d".toList
    then some (.record sampleRecord) else none
  numberText := fun _ => "25".toList
  calendarInsert := fun _ => true
  sheetId := some "sheet".toList
  sheetsAppend := fun _ => true
  nowText := "2025-10-01T00:00:00.000Z".toList

end Server2

namespace Server2

/-- The payloads of a reply (none for a plain HTTP answer). -/
def Reply.frames : Reply → List Str
  | .badRequest => []
  | .stream frames => frames

/-- The sample record with an end time earlier in the day than its start time. -/
def earlyEndRecord : Record :=
  sampleRecord ++ [("endTime".toList, .str "1:00 PM".toList)]

/-- A sample environment whose chat completion fails. -/
def failingChatEnv : Env := { sampleEnv with chat := fun _ => .error "upstream down".toList }

/-- A sample environment whose session file cannot be read. -/
def failingReadEnv : Env := { sampleEnv with readSession := fun _ => .error "bad file".toList }

end Server2

/-! ### The passes of `cleanText` and the escaping on plain lists -/

/-- The characters of the class `[,.!?]`. -/
def isPunct (c : Char) : Bool := c == ',' || c == '.' || c == '!' || c == '?'

/-- A run of two or more characters with property `p` becomes one space; `inRun` tells
that the characters just passed belong to such a run. -/
def collapse (p : Char → Bool) : Bool → Str → Str
  | _, [] => []
  | inRun, c :: cs =>
      if p c then
        if inRun then collapse p true cs
        else if (cs.head?.map p).getD false then ' ' :: collapse p true cs
        else c :: collapse p false cs
      else c :: collapse p false cs

/-- Is the first character after the leading white space a punctuation character? -/
def nextIsPunct (s : Str) : Bool :=
  match s.dropWhile isSpace with
  | c :: _ => isPunct c
  | [] => false

/-- White space in front of a punctuation character is dropped. -/
def dropBefore : Str → Str
  | [] => []
  | c :: cs => if isSpace c && nextIsPunct cs then dropBefore cs else c :: dropBefore cs

/-- A space is put after a punctuation character that is followed by a character other
than white space. -/
def spaceAfter : Str → Str
  | [] => []
  | c :: cs =>
      c :: (if isPunct c && (cs.head?.map (fun d => !isSpace d)).getD false
            then ' ' :: spaceAfter cs else spaceAfter cs)

/-- A text cut at its characters that are not white space: each piece is a run of white
space and the character that ends it. -/
abbrev Piece := Str × Char

/-- The text made of pieces and a last run of white space. -/
def dec : List Piece → Str → Str
  | [], tl => tl
  | (w, c) :: ts, tl => w ++ c :: dec ts tl

/-- A white-space character put in front of a text given by its pieces. -/
def pushSpace (c : Char) : List Piece × Str → List Piece × Str
  | ([], tl) => ([], c :: tl)
  | ((w, d) :: ts, tl) => ((c :: w, d) :: ts, tl)

/-- The pieces and the last run of white space of a text. -/
def enc : Str → List Piece × Str
  | [] => ([], [])
  | c :: cs => if isSpace c then pushSpace c (enc cs) else (([], c) :: (enc cs).1, (enc cs).2)

/-- Every run of the pieces is white space and every end character is not. -/
def Valid (ts : List Piece) : Prop :=
  ∀ t ∈ ts, (∀ x ∈ t.1, isSpace x = true) ∧ isSpace t.2 = false

/-- A text of white space only. -/
def Blank (s : Str) : Prop := ∀ x ∈ s, isSpace x = true

/-- The rest of a text after a character, as `spaceAfter` leaves it; `prev` tells whether
that character is a punctuation character. -/
def spaceNext (prev : Bool) (r : Str) : Str :=
  if prev && (r.head?.map (fun d => !isSpace d)).getD false then ' ' :: spaceAfter r
  else spaceAfter r

/-- The pieces after `spaceAfter`: an empty run behind a punctuation character becomes one
space. -/
def spaceEnc : Bool → List Piece → List Piece
  | _, [] => []
  | prev, (w, c) :: ts => ((if prev && w.isEmpty then [' '] else w), c) :: spaceEnc (isPunct c) ts

/-- The run in front of a character as `cleanText` leaves it; `prev` tells whether the
character before the run is a punctuation character. -/
def cleanRun (prev : Bool) (w : Str) (c : Char) : Str :=
  collapse isSpace false
    (if prev && (if isPunct c then [] else collapse (fun x => x == ' ') false w).isEmpty
     then [' '] else (if isPunct c then [] else collapse (fun x => x == ' ') false w))

/-- The pieces as `cleanText` leaves them. -/
def cleanEnc : Bool → List Piece → List Piece
  | _, [] => []
  | prev, (w, c) :: ts => (cleanRun prev w c, c) :: cleanEnc (isPunct c) ts

/-- The text `cleanText` makes of the pieces of a text. -/
def cleanDec : List Piece → Str
  | [] => []
  | (_, c) :: ts => c :: dec (cleanEnc (isPunct c) ts) []

/-- Does the text hold a backslash immediately followed by `n`? -/
def hasEscapedBreak : Str → Bool
  | a :: b :: r => (a == Char.ofNat 92 && b == 'n') || hasEscapedBreak (b :: r)
  | _ => false

/-- Every backslash-`n` pair, left to right, replaced by a line feed. -/
def unescapePairs : Str → Str
  | a :: b :: r =>
      if a = Char.ofNat 92 ∧ b = 'n' then Char.ofNat 10 :: unescapePairs r
      else a :: unescapePairs (b :: r)
  | r => r

/-- Every character `x` replaced by the text `r`. -/
def substChar (x : Char) (r : Str) (s : Str) : Str :=
  s.flatMap fun c => if c = x then r else [c]

/-- The client's unescaping of the line-feed escaping, on plain lists. -/
def breakTrip (c : Str) : Str :=
  unescapePairs (substChar (Char.ofNat 10) [Char.ofNat 92, 'n'] c)

/-- Does the text hold a white-space character immediately followed by one of `,.!?`? -/
def spaceBeforePunct : Str → Bool
  | a :: b :: r => (isSpace a && isPunct b) || spaceBeforePunct (b :: r)
  | _ => false

namespace Server

/-- The keywords of the booking-intent test. -/
def bookingKeywords : List Str :=
  ["book".toList, "banquet".toList, "reserve".toList, "party".toList, "event".toList]

end Server

/-! # Properties -/

theorem isDigit_not_space {c : Char} (h : isDigit c = true) : isSpace c = false := by
  simp only [isDigit, Bool.and_eq_true, decide_eq_true_eq] at h
  simp only [isSpace, Bool.or_eq_false_iff, beq_eq_false_iff_ne, Bool.and_eq_false_imp, decide_eq_true_eq, decide_eq_false_iff_not, ne_eq]
  omega

theorem lowerChar_digit {c : Char} (h : isDigit c = true) : lowerChar c = [c] := by
  simp only [isDigit, Bool.and_eq_true, decide_eq_true_eq] at h
  have h1 : ¬ (65 ≤ c.toNat ∧ c.toNat ≤ 90) := by omega
  have h2 : ¬ c.toNat = 0x212A := by omega
  have h3 : ¬ c.toNat = 0x130 := by omega
  simp [lowerChar, h1, h2, h3]

theorem exec_reTime (hs : Str) (ms : Option (Char × Char)) (mer : Option Bool)
    (hh : DigitRun hs) (hm : DigitPair ms) :
    exec false Server.reTime (hs ++ minPart ms ++ merLower mer) =
      some ⟨0, hs ++ minPart ms ++ merLower mer, capsOf hs ms mer⟩ := by
  have c1 : isDigit ':' = false := by decide
  have c2 : isDigit 'a' = false := by decide
  have c3 : isDigit 'p' = false := by decide
  rcases hh with ⟨d, h1, rfl⟩ | ⟨d1, d2, h1, h2, rfl⟩ <;>
  rcases ms with _ | ⟨a, b⟩ <;> rcases mer with _ | _ | _ <;>
  simp [DigitPair] at hm <;>
  simp [exec, execFrom, matchAt, Server.reTime, Re.m, repGo, classTest, Item.test, h1, hm, orElse, consumed, Re.lit, Re.chr, isSpace, minPart, merLower, capsOf, c1, c2, c3, *]

theorem trim_eq_self (s : Str) (h1 : ∀ c, s.head? = some c → isSpace c = false)
    (h2 : ∀ c, s.getLast? = some c → isSpace c = false) : trim s = s := by
  cases s with
  | nil => rfl
  | cons a t =>
    have ha : isSpace a = false := h1 a rfl
    have hd : (a :: t).dropWhile isSpace = a :: t := by simp [List.dropWhile, ha]
    unfold trim
    rw [hd]
    cases hr : (a :: t).reverse with
    | nil => simp at hr
    | cons z r =>
      have hz : (a :: t).getLast? = some z := by
        rw [← List.head?_reverse, hr]; rfl
      have hz2 := h2 z hz
      have : (z :: r).dropWhile isSpace = z :: r := by simp [List.dropWhile, hz2]
      rw [this, ← hr, List.reverse_reverse]

theorem parseInt_digits (hs : Str) (h : ∀ c ∈ hs, isDigit c = true) (hne : hs ≠ []) :
    parseInt hs = some (digitsValue 0 hs) := by
  cases hs with
  | nil => exact absurd rfl hne
  | cons a t =>
    have ha : isSpace a = false := isDigit_not_space (h a (List.mem_cons_self _ _))
    have hd : (a :: t).dropWhile isSpace = a :: t := by simp [List.dropWhile, ha]
    have ht : (a :: t).takeWhile isDigit = a :: t := List.takeWhile_eq_self_iff.mpr h
    unfold parseInt
    rw [hd, ht]

theorem DigitRun.all {hs : Str} (h : DigitRun hs) : (∀ c ∈ hs, isDigit c = true) ∧ hs ≠ [] := by
  rcases h with ⟨d, h1, rfl⟩ | ⟨d1, d2, h1, h2, rfl⟩ <;> simp [h1, *]

theorem server_normalizeTime_lower (hs : Str) (ms : Option (Char × Char)) (mer : Option Bool)
    (s : Str) (hne : s ≠ []) (hlow : toLowerCase (trim s) = hs ++ minPart ms ++ merLower mer)
    (hh : DigitRun hs) (hm : DigitPair ms) :
    Server.normalizeTime (some s) = clock (codeHour (digitsValue 0 hs) mer) (minValue ms) := by
  have hp := parseInt_digits hs hh.all.1 hh.all.2
  have hs' : s.isEmpty = false := by cases s <;> simp_all
  unfold Server.normalizeTime
  simp only [hs', Bool.false_eq_true, if_false, hlow, exec_reTime hs ms mer hh hm]
  rcases ms with _ | ⟨a, b⟩ <;> rcases mer with _ | _ | _
  all_goals simp only [DigitPair] at hm
  all_goals first
    | have hq : parseInt [a, b] = some (digitsValue 0 [a, b]) :=
        parseInt_digits [a, b] (by simp [hm.1, hm.2]) (by simp)
      simp [Match.sub, Match.cap, capsOf, hp, hq, merLower, codeHour, minValue, clock, numToStr]
    | have hq : parseInt ['0'] = some 0 := by decide
      simp [Match.sub, Match.cap, capsOf, hp, hq, merLower, codeHour, minValue, clock, numToStr]
  all_goals (split_ifs <;> rfl)

theorem replaceGo_strip (before s : Str) :
    replaceGo false (.set false [.space]) (fun _ => []) 0 before s = s.filter (fun c => !isSpace c) := by
  induction s generalizing before with
  | nil => simp [replaceGo, matchAt, Re.m]
  | cons c cs ih =>
    by_cases hc : isSpace c = true
    · simp [replaceGo, matchAt, Re.m, classTest, Item.test, hc, consumed, ih]
    · simp only [Bool.not_eq_true] at hc
      simp [replaceGo, matchAt, Re.m, classTest, Item.test, hc, ih]

theorem exec_reTime2 (hs : Str) (ms : Option (Char × Char)) (mer : Option Bool)
    (hh : DigitRun hs) (hm : DigitPair ms) :
    exec false Server2.reTime (hs ++ minPart ms ++ merLower mer) =
      some ⟨0, hs ++ minPart ms ++ merLower mer, capsOf2 hs ms mer⟩ := by
  have c1 : isDigit ':' = false := by decide
  have c2 : isDigit 'a' = false := by decide
  have c3 : isDigit 'p' = false := by decide
  rcases hh with ⟨d, h1, rfl⟩ | ⟨d1, d2, h1, h2, rfl⟩ <;>
  rcases ms with _ | ⟨a, b⟩ <;> rcases mer with _ | _ | _ <;>
  simp [DigitPair] at hm <;>
  simp [exec, execFrom, matchAt, Server2.reTime, Re.m, repGo, classTest, Item.test, h1, hm, orElse, consumed, Re.lit, Re.chr, minPart, merLower, capsOf2, c1, c2, c3, *]

theorem server2_normalizeTime_lower (hs : Str) (ms : Option (Char × Char)) (mer : Option Bool)
    (s : Str) (hne : s ≠ [])
    (hlow : (toLowerCase s).filter (fun c => !isSpace c) = hs ++ minPart ms ++ merLower mer)
    (hh : DigitRun hs) (hm : DigitPair ms) :
    Server2.normalizeTime (some s) = clock (codeHour (digitsValue 0 hs) mer) (minValue ms) := by
  have hp := parseInt_digits hs hh.all.1 hh.all.2
  have hs' : s.isEmpty = false := by cases s <;> simp_all
  unfold Server2.normalizeTime
  simp only [hs', Bool.false_eq_true, if_false, replaceAll, replaceGo_strip, hlow,
    exec_reTime2 hs ms mer hh hm]
  rcases ms with _ | ⟨a, b⟩ <;> rcases mer with _ | _ | _
  all_goals simp only [DigitPair] at hm
  all_goals first
    | have hq : parseInt [a, b] = some (digitsValue 0 [a, b]) :=
        parseInt_digits [a, b] (by simp [hm.1, hm.2]) (by simp)
      simp [Match.sub, Match.cap, capsOf2, hp, hq, merLower, codeHour, minValue, clock, numToStr]
    | simp [Match.sub, Match.cap, capsOf2, hp, merLower, codeHour, minValue, clock, numToStr]
  all_goals (split_ifs <;> rfl)

theorem digitChar_spec : ∀ n, n < 10 → isDigit (digitChar n) = true ∧ (digitChar n).toNat = 48 + n := by
  decide

theorem pad_two : ∀ n, n < 100 → padStart (natToStr n) 2 '0' = twoDigits n := by
  intro n hn
  interval_cases n <;> rfl

theorem clock_eq (h m : Nat) (hh : h < 100) (hm : m < 100) : clock h m = timeOfDay h m := by
  simp [clock, timeOfDay, pad_two h hh, pad_two m hm]

theorem twoDigits_run (n : Nat) (h : n < 100) :
    isDigit (digitChar (n / 10)) = true ∧ isDigit (digitChar (n % 10)) = true ∧
    digitsValue 0 (twoDigits n) = n := by
  have a := digitChar_spec (n / 10) (by omega)
  have b := digitChar_spec (n % 10) (by omega)
  refine ⟨a.1, b.1, ?_⟩
  have e : digitsValue 0 (twoDigits n) =
      (0 * 10 + ((digitChar (n / 10)).toNat - 48)) * 10 + ((digitChar (n % 10)).toNat - 48) := rfl
  rw [e, a.2, b.2]
  omega

theorem hourTexts_run (H : Nat) (hH : H < 100) (ht : Str) (h : ht ∈ hourTexts H) :
    DigitRun ht ∧ digitsValue 0 ht = H := by
  have t := twoDigits_run H hH
  have two : DigitRun (twoDigits H) := Or.inr ⟨_, _, t.1, t.2.1, rfl⟩
  unfold hourTexts at h
  split at h
  · rename_i h10
    obtain ⟨a1, a2⟩ := digitChar_spec H h10
    simp only [List.mem_cons, List.mem_singleton, List.not_mem_nil, or_false] at h
    rcases h with h | h
    · generalize digitChar H = d at a1 a2 h
      subst h
      refine ⟨Or.inl ⟨d, a1, rfl⟩, ?_⟩
      show 0 * 10 + (d.toNat - 48) = H
      omega
    · subst h
      exact ⟨two, t.2.2⟩
  · simp only [List.mem_singleton] at h
    subst h
    exact ⟨two, t.2.2⟩

theorem minuteText_part (mm : Option Nat) (h : ∀ m, mm = some m → m < 100) :
    minuteText mm = minPart (minuteDigits mm) ∧ DigitPair (minuteDigits mm) ∧
    minValue (minuteDigits mm) = mm.getD 0 := by
  cases mm with
  | none => simp [minuteText, minPart, minuteDigits, DigitPair, minValue]
  | some m =>
    have t := twoDigits_run m (h m rfl)
    refine ⟨rfl, ⟨t.1, t.2.1⟩, ?_⟩
    simpa [minuteDigits, minValue, twoDigits] using t.2.2

theorem meridiemTexts_lower (mer : Option Meridiem) (mt : Str) (h : mt ∈ meridiemTexts mer) :
    toLowerCase mt = merLower (mer.map isPm) ∧ ∀ c ∈ mt, isSpace c = false := by
  rcases mer with _ | _ | _ <;>
  simp only [meridiemTexts, List.mem_cons, List.mem_singleton, List.not_mem_nil, or_false] at h
  · subst h; exact ⟨rfl, by simp⟩
  · rcases h with rfl | rfl | rfl | rfl <;> exact ⟨by decide, by decide⟩
  · rcases h with rfl | rfl | rfl | rfl <;> exact ⟨by decide, by decide⟩

theorem toLowerCase_digits (s : Str) (h : ∀ c ∈ s, isDigit c = true) : toLowerCase s = s := by
  induction s with
  | nil => rfl
  | cons c cs ih =>
    have hc := lowerChar_digit (h c (List.mem_cons_self _ _))
    have := ih (fun x hx => h x (List.mem_cons_of_mem _ hx))
    simp only [toLowerCase, List.flatMap_cons] at this ⊢
    rw [hc, this]; rfl

theorem toLowerCase_append (a b : Str) : toLowerCase (a ++ b) = toLowerCase a ++ toLowerCase b := by
  simp [toLowerCase, List.flatMap_append]

theorem trim_of_no_space (s : Str) (h : ∀ c ∈ s, isSpace c = false) : trim s = s := by
  apply trim_eq_self
  · intro c hc; exact h c (List.mem_of_mem_head? hc)
  · intro c hc; exact h c (List.mem_of_mem_getLast? hc)

theorem minPart_lower (ms : Option (Char × Char)) (h : DigitPair ms) :
    toLowerCase (minPart ms) = minPart ms ∧ ∀ c ∈ minPart ms, isSpace c = false := by
  rcases ms with _ | ⟨a, b⟩
  · exact ⟨rfl, by simp [minPart]⟩
  · simp only [DigitPair] at h
    refine ⟨?_, ?_⟩
    · have hc : lowerChar ':' = [':'] := by decide
      simp [minPart, toLowerCase, lowerChar_digit h.1, lowerChar_digit h.2, hc]
    · intro c hc
      simp only [minPart, List.mem_cons, List.mem_singleton, List.not_mem_nil, or_false] at hc
      rcases hc with rfl | rfl | rfl
      · decide
      · exact isDigit_not_space h.1
      · exact isDigit_not_space h.2

/-- Both variants of `normalizeTime` on every text of the shape `H(:MM)?(am|pm)?`: the
hour is only adjusted for the meridiem marker, never checked against a range. -/
theorem normalizeTime_shape (H : Nat) (mm : Option Nat) (mer : Option Meridiem) (ht mt : Str)
    (hH : H < 100) (hmm : ∀ m, mm = some m → m < 100)
    (hht : ht ∈ hourTexts H) (hmt : mt ∈ meridiemTexts mer) :
    Server.normalizeTime (some (ht ++ minuteText mm ++ mt)) =
      clock (codeHour H (mer.map isPm)) (mm.getD 0) ∧
    Server2.normalizeTime (some (ht ++ minuteText mm ++ mt)) =
      clock (codeHour H (mer.map isPm)) (mm.getD 0) := by
  obtain ⟨hrun, hval⟩ := hourTexts_run H hH ht hht
  obtain ⟨hmt1, hmt2, hmt3⟩ := minuteText_part mm hmm
  obtain ⟨hl, hsp⟩ := meridiemTexts_lower mer mt hmt
  obtain ⟨pl, psp⟩ := minPart_lower _ hmt2
  have hne : ht ++ minuteText mm ++ mt ≠ [] := by
    have := hrun.all.2
    simp [this]
  have nosp : ∀ c ∈ ht ++ minuteText mm ++ mt, isSpace c = false := by
    intro c hc
    simp only [List.mem_append] at hc
    rcases hc with (hc | hc) | hc
    · exact isDigit_not_space (hrun.all.1 c hc)
    · rw [hmt1] at hc; exact psp c hc
    · exact hsp c hc
  have low : toLowerCase (ht ++ minuteText mm ++ mt) =
      ht ++ minPart (minuteDigits mm) ++ merLower (mer.map isPm) := by
    rw [toLowerCase_append, toLowerCase_append, toLowerCase_digits ht hrun.all.1, hmt1, pl, hl]
  have nosp2 : ∀ c ∈ ht ++ minPart (minuteDigits mm) ++ merLower (mer.map isPm), isSpace c = false := by
    intro c hc
    simp only [List.mem_append] at hc
    rcases hc with (hc | hc) | hc
    · exact isDigit_not_space (hrun.all.1 c hc)
    · exact psp c hc
    · rcases mer with _ | _ | _ <;> simp [merLower, isPm] at hc
      all_goals rcases hc with rfl | rfl <;> decide
  constructor
  · have := server_normalizeTime_lower ht (minuteDigits mm) (mer.map isPm) _ hne
      (by rw [trim_of_no_space _ nosp, low]) hrun hmt2
    rw [this, hval, hmt3]
  · have := server2_normalizeTime_lower ht (minuteDigits mm) (mer.map isPm) _ hne
      (by rw [low]; exact List.filter_eq_self.mpr (fun c hc => by simp [nosp2 c hc])) hrun hmt2
    rw [this, hval, hmt3]

/-- C8: `normalizeTime` of both variants on a valid time.  For an hour `H` written with one
or two digits, an optional `:MM` with `MM ≤ 59` and an optional meridiem marker in any
letter case, where `1 ≤ H ≤ 12` with a marker and `H ≤ 23` without, the result is the
zero-padded text `hh:MM:00` with `hh = H mod 12` for am, `H mod 12 + 12` for pm and `H`
without marker. -/
theorem normalizeTime_valid (H : Nat) (mm : Option Nat) (mer : Option Meridiem) (ht mt : Str)
    (hht : ht ∈ hourTexts H) (hmt : mt ∈ meridiemTexts mer)
    (hmm : ∀ m, mm = some m → m ≤ 59)
    (hH : match mer with
      | none => H ≤ 23
      | some _ => 1 ≤ H ∧ H ≤ 12) :
    Server.normalizeTime (some (ht ++ minuteText mm ++ mt)) =
      timeOfDay (hour24 H mer) (mm.getD 0) ∧
    Server2.normalizeTime (some (ht ++ minuteText mm ++ mt)) =
      timeOfDay (hour24 H mer) (mm.getD 0) := by
  have hH' : H < 100 := by rcases mer with _ | _ <;> simp at hH <;> omega
  have hm' : ∀ m, mm = some m → m < 100 := fun m h => by have := hmm m h; omega
  have hmd : mm.getD 0 < 100 := by
    cases mm with
    | none => simp
    | some m => have := hmm m rfl; simpa using (by omega : m < 100)
  have hc : codeHour H (mer.map isPm) = hour24 H mer ∧ hour24 H mer < 100 := by
    rcases mer with _ | _ | _ <;> simp [codeHour, hour24, isPm] at hH ⊢
    · omega
    · constructor
      · split_ifs <;> omega
      · omega
    · constructor
      · split_ifs <;> omega
      · omega
  have := normalizeTime_shape H mm mer ht mt hH' hm' hht hmt
  rw [hc.1, clock_eq _ _ hc.2 hmd] at this
  exact this

/-- Witness of C8: the input `6pm` gives `18:00:00` in both variants. -/
theorem normalizeTime_valid_witness :
    Server.normalizeTime (some "6pm".toList) = "18:00:00".toList ∧
    Server2.normalizeTime (some "6pm".toList) = "18:00:00".toList :=
  normalizeTime_valid 6 none (some .pm) "6".toList "pm".toList (by decide) (by decide)
    (by simp) (by decide)

set_option maxRecDepth 100000 in
/-- C9, counterexample: `25:99` has the shape `H(:MM)?(am|pm)?`, and both variants turn it
into `25:99:00`, which is not a time of day. -/
theorem normalizeTime_shape_counterexample :
    TimeShape "25:99".toList ∧
    ¬ IsTimeOfDay (Server.normalizeTime (some "25:99".toList)) ∧
    ¬ IsTimeOfDay (Server2.normalizeTime (some "25:99".toList)) := by
  refine ⟨⟨25, some 99, none, "25".toList, [], by decide, by simp, by decide, by decide, by decide⟩, ?_, ?_⟩
  · have e : Server.normalizeTime (some "25:99".toList) = "25:99:00".toList := by decide
    rw [e]; decide
  · have e : Server2.normalizeTime (some "25:99".toList) = "25:99:00".toList := by decide
    rw [e]; decide

/-- C9, amended: on a text of the shape `H(:MM)?(am|pm)?` whose hour is at most 23 and
whose minute is at most 59, both variants of `normalizeTime` give a zero-padded 24-hour
time of day `HH:MM:SS` with hour at most 23 and minute at most 59. -/
theorem normalizeTime_time_of_day (H : Nat) (mm : Option Nat) (mer : Option Meridiem) (ht mt : Str)
    (hht : ht ∈ hourTexts H) (hmt : mt ∈ meridiemTexts mer)
    (hH : H ≤ 23) (hmm : ∀ m, mm = some m → m ≤ 59) :
    IsTimeOfDay (Server.normalizeTime (some (ht ++ minuteText mm ++ mt))) ∧
    IsTimeOfDay (Server2.normalizeTime (some (ht ++ minuteText mm ++ mt))) := by
  have hm' : ∀ m, mm = some m → m < 100 := fun m h => by have := hmm m h; omega
  have hmd : mm.getD 0 < 60 := by
    cases mm with
    | none => simp
    | some m => have := hmm m rfl; simpa using (by omega : m < 60)
  have hc : codeHour H (mer.map isPm) < 24 := by
    rcases mer with _ | _ | _ <;> simp [codeHour, isPm]
    · omega
    · split_ifs <;> omega
    · split_ifs <;> omega
  have := normalizeTime_shape H mm mer ht mt (by omega) hm' hht hmt
  rw [clock_eq _ _ (by omega) (by omega)] at this
  exact ⟨⟨_, hc, _, hmd, this.1⟩, ⟨_, hc, _, hmd, this.2⟩⟩

/-- Witness of the amended C9: the input `11:45PM`. -/
theorem normalizeTime_time_of_day_witness :
    IsTimeOfDay (Server.normalizeTime (some "11:45PM".toList)) ∧
    IsTimeOfDay (Server2.normalizeTime (some "11:45PM".toList)) :=
  normalizeTime_time_of_day 11 (some 45) (some .pm) "11".toList "PM".toList (by decide) (by decide)
    (by decide) (by simp)

/-! ## The matcher is sound -/

theorem orElse_some {α : Type} {a b : Option α} {r : α} (h : orElse a b = some r) :
    a = some r ∨ b = some r := by
  cases a with
  | none => right; simpa [orElse] using h
  | some x => left; simpa [orElse] using h

theorem repGo_sound (p : Char → Bool) (k : Str → Str → Option MState) (res : MState) :
    ∀ (rest : Str) (mn : Nat) (mx : Option Nat) (before : Str),
      repGo p k mn mx before rest = some res →
      ∃ w rest', (∀ c ∈ w, p c = true) ∧ mn ≤ w.length ∧ (∀ n, mx = some n → w.length ≤ n) ∧
        rest = w ++ rest' ∧ k (w.reverse ++ before) rest' = some res := by
  intro rest
  induction rest with
  | nil =>
    intro mn mx before h
    simp only [repGo] at h
    split at h
    · rename_i h0
      exact ⟨[], [], by simp, by simp [h0], by simp, by simp, by simpa using h⟩
    · exact absurd h (by simp)
  | cons c cs ih =>
    intro mn mx before h
    have stop : (if mn = 0 then k before (c :: cs) else none) = some res →
        ∃ w rest', (∀ c ∈ w, p c = true) ∧ mn ≤ w.length ∧ (∀ n, mx = some n → w.length ≤ n) ∧
          c :: cs = w ++ rest' ∧ k (w.reverse ++ before) rest' = some res := by
      intro h
      split at h
      · rename_i h0
        exact ⟨[], c :: cs, by simp, by simp [h0], by simp, by simp, by simpa using h⟩
      · exact absurd h (by simp)
    simp only [repGo] at h
    split at h
    · rename_i hc
      simp only [Bool.and_eq_true, bne_iff_ne, ne_eq] at hc
      rcases orElse_some h with h1 | h1
      · obtain ⟨w, rest', hw, hmn, hmx, hr, hk⟩ := ih _ _ _ h1
        refine ⟨c :: w, rest', ?_, ?_, ?_, ?_, ?_⟩
        · intro x hx
          rcases List.mem_cons.mp hx with rfl | hx
          · exact hc.1
          · exact hw x hx
        · simp only [List.length_cons]; omega
        · intro n hn
          subst hn
          have := hmx (n.pred) rfl
          have hn0 : n ≠ 0 := fun h0 => hc.2 (by rw [h0])
          simp only [List.length_cons]
          have : n.pred = n - 1 := rfl
          omega
        · rw [hr]; rfl
        · simpa using hk
      · exact stop h1
    · exact stop h

theorem Re.m_sound (ic : Bool) (r : Re) :
    ∀ (st : MState) (k : MState → Option MState) (res : MState),
      Re.m ic r st k = some res → ∃ st', Re.Den ic r st st' ∧ k st' = some res := by
  induction r with
  | set neg items =>
    intro st k res h
    simp only [Re.m] at h
    split at h
    · exact absurd h (by simp)
    · rename_i c cs hrest
      split at h
      · rename_i hc
        exact ⟨_, ⟨c, cs, hrest, hc, rfl⟩, h⟩
      · exact absurd h (by simp)
  | rep neg items mn mx =>
    intro st k res h
    simp only [Re.m] at h
    obtain ⟨w, rest', hw, hmn, hmx, hr, hk⟩ := repGo_sound _ _ _ _ _ _ _ h
    exact ⟨{ st with before := w.reverse ++ st.before, rest := rest' },
      ⟨w, hw, hmn, hmx, hr, rfl, rfl⟩, hk⟩
  | seq a b iha ihb =>
    intro st k res h
    simp only [Re.m] at h
    obtain ⟨st1, h1, hk1⟩ := iha _ _ _ h
    obtain ⟨st2, h2, hk2⟩ := ihb _ _ _ hk1
    exact ⟨st2, ⟨st1, h1, h2⟩, hk2⟩
  | alt a b iha ihb =>
    intro st k res h
    simp only [Re.m] at h
    rcases orElse_some h with h1 | h1
    · obtain ⟨st1, h1, hk1⟩ := iha _ _ _ h1
      exact ⟨st1, Or.inl h1, hk1⟩
    · obtain ⟨st1, h1, hk1⟩ := ihb _ _ _ h1
      exact ⟨st1, Or.inr h1, hk1⟩
  | opt a iha =>
    intro st k res h
    simp only [Re.m] at h
    rcases orElse_some h with h1 | h1
    · obtain ⟨st1, h1, hk1⟩ := iha _ _ _ h1
      split at hk1
      · exact absurd hk1 (by simp)
      · exact ⟨st1, Or.inl h1, hk1⟩
    · exact ⟨st, Or.inr rfl, h1⟩
  | group i a iha =>
    intro st k res h
    simp only [Re.m] at h
    obtain ⟨st1, h1, hk1⟩ := iha _ _ _ h
    exact ⟨_, ⟨st1, h1, rfl⟩, hk1⟩
  | wordB =>
    intro st k res h
    simp only [Re.m] at h
    split at h
    · rename_i hc
      exact ⟨st, ⟨hc, rfl⟩, h⟩
    · exact absurd h (by simp)
  | ahead a iha =>
    intro st k res h
    simp only [Re.m] at h
    split at h
    · rename_i st1 h1
      obtain ⟨st2, h2, hk2⟩ := iha _ _ _ h1
      simp only [Option.some.injEq] at hk2
      subst hk2
      exact ⟨_, ⟨st2, h2, rfl⟩, h⟩
    · exact absurd h (by simp)
  | bos =>
    intro st k res h
    simp only [Re.m] at h
    split at h
    · rename_i hc
      exact ⟨st, ⟨by simpa using hc, rfl⟩, h⟩
    · exact absurd h (by simp)
  | eos =>
    intro st k res h
    simp only [Re.m] at h
    split at h
    · rename_i hc
      exact ⟨st, ⟨by simpa using hc, rfl⟩, h⟩
    · exact absurd h (by simp)


theorem Re.Den.extend (ic : Bool) (r : Re) :
    ∀ (st st' : MState), Re.Den ic r st st' →
      ∃ w, st'.before = w.reverse ++ st.before ∧ st.rest = w ++ st'.rest := by
  induction r with
  | set neg items =>
    rintro st st' ⟨c, cs, hr, -, rfl⟩
    exact ⟨[c], by simp, by simp [hr]⟩
  | rep neg items mn mx =>
    rintro st st' ⟨w, -, -, -, hr, hb, -⟩
    exact ⟨w, hb, hr⟩
  | seq a b iha ihb =>
    rintro st st' ⟨st1, h1, h2⟩
    obtain ⟨w1, hb1, hr1⟩ := iha _ _ h1
    obtain ⟨w2, hb2, hr2⟩ := ihb _ _ h2
    exact ⟨w1 ++ w2, by simp [hb2, hb1], by simp [hr1, hr2]⟩
  | alt a b iha ihb =>
    rintro st st' (h | h)
    · exact iha _ _ h
    · exact ihb _ _ h
  | opt a iha =>
    rintro st st' (h | rfl)
    · exact iha _ _ h
    · exact ⟨[], by simp, by simp⟩
  | group i a iha =>
    rintro st st' ⟨st1, h1, rfl⟩
    exact iha st st1 h1
  | wordB =>
    rintro st st' ⟨-, rfl⟩
    exact ⟨[], by simp, by simp⟩
  | ahead a _ =>
    rintro st st' ⟨st1, -, rfl⟩
    exact ⟨[], by simp, by simp⟩
  | bos =>
    rintro st st' ⟨-, rfl⟩
    exact ⟨[], by simp, by simp⟩
  | eos =>
    rintro st st' ⟨-, rfl⟩
    exact ⟨[], by simp, by simp⟩

theorem Re.Den.caps_plain (ic : Bool) (r : Re) :
    ∀ (st st' : MState), r.plain = true → Re.Den ic r st st' → st'.caps = st.caps := by
  induction r with
  | set neg items =>
    rintro st st' - ⟨c, cs, -, -, rfl⟩
    rfl
  | rep neg items mn mx =>
    rintro st st' - ⟨w, -, -, -, -, -, hc⟩
    exact hc
  | seq a b iha ihb =>
    rintro st st' hp ⟨st1, h1, h2⟩
    simp only [Re.plain, Bool.and_eq_true] at hp
    rw [ihb _ _ hp.2 h2, iha _ _ hp.1 h1]
  | alt a b iha ihb =>
    rintro st st' hp (h | h)
    · simp only [Re.plain, Bool.and_eq_true] at hp
      exact iha _ _ hp.1 h
    · simp only [Re.plain, Bool.and_eq_true] at hp
      exact ihb _ _ hp.2 h
  | opt a iha =>
    rintro st st' hp (h | rfl)
    · exact iha _ _ (by simpa [Re.plain] using hp) h
    · rfl
  | group i a _ =>
    intro st st' hp
    simp [Re.plain] at hp
  | wordB =>
    rintro st st' - ⟨-, rfl⟩
    rfl
  | ahead a _ =>
    intro st st' hp
    simp [Re.plain] at hp
  | bos =>
    rintro st st' - ⟨-, rfl⟩
    rfl
  | eos =>
    rintro st st' - ⟨-, rfl⟩
    rfl

theorem consumed_extend (st st' : MState) (w : Str) (h : st'.before = w.reverse ++ st.before) :
    consumed st st' = w := by
  simp [consumed, h]

theorem matchAt_sound {ic : Bool} {re : Re} {before rest : Str} {mt : Match}
    (h : matchAt ic re before rest = some mt) :
    ∃ st, Re.Den ic re ⟨before, rest, []⟩ st ∧
      mt.text = consumed ⟨before, rest, []⟩ st ∧ mt.caps = st.caps := by
  unfold matchAt at h
  split at h
  · rename_i st hst
    obtain ⟨st', hd, hk⟩ := Re.m_sound ic re _ _ _ hst
    simp only [Option.some.injEq] at hk h
    subst hk
    subst h
    exact ⟨st', hd, rfl, rfl⟩
  · exact absurd h (by simp)

theorem execFrom_sound {ic : Bool} {re : Re} {mt : Match} :
    ∀ (rest before : Str), execFrom ic re before rest = some mt →
      ∃ b r, matchAt ic re b r = some mt := by
  intro rest
  induction rest with
  | nil =>
    intro before h
    exact ⟨before, [], by simpa [execFrom] using h⟩
  | cons c cs ih =>
    intro before h
    simp only [execFrom] at h
    rcases orElse_some h with h1 | h1
    · exact ⟨_, _, h1⟩
    · exact ih _ h1

theorem exec_sound {ic : Bool} {re : Re} {s : Str} {mt : Match} (h : exec ic re s = some mt) :
    ∃ b r st, Re.Den ic re ⟨b, r, []⟩ st ∧
      mt.text = consumed ⟨b, r, []⟩ st ∧ mt.caps = st.caps := by
  obtain ⟨b, r, hm⟩ := execFrom_sound _ _ h
  obtain ⟨st, h1, h2, h3⟩ := matchAt_sound hm
  exact ⟨b, r, st, h1, h2, h3⟩

theorem rePartySize_capture {s : Str} {mt : Match} (h : exec false Server.rePartySize s = some mt) :
    mt.sub 1 ≠ [] := by
  obtain ⟨b, r, st, hd, -, hc⟩ := exec_sound h
  obtain ⟨st1, ⟨w, -, hlen, -, -, hb, -⟩, rfl⟩ := hd
  have hw : consumed ⟨b, r, []⟩ st1 = w := consumed_extend _ _ w hb
  simp only [Match.sub, Match.cap, hc, hw, List.find?, beq_self_eq_true, Option.map_some',
    Option.getD_some]
  intro h0
  subst h0
  simp at hlen

theorem reEmail_text {s : Str} {mt : Match} (h : exec true Server.reEmail s = some mt) :
    mt.text ≠ [] := by
  obtain ⟨b, r, st, hd, ht, -⟩ := exec_sound h
  obtain ⟨w, hb, -⟩ := Re.Den.extend _ _ _ _ hd
  rw [ht, consumed_extend _ _ w hb]
  obtain ⟨st1, ⟨-, rfl⟩, st2, ⟨w1, -, hlen, -, -, hb1, -⟩, hrest⟩ := hd
  obtain ⟨w2, hb2, -⟩ := Re.Den.extend _ _ _ _ hrest
  rw [hb2, hb1] at hb
  intro h0
  subst h0
  have := congrArg List.length hb
  simp at this
  omega

theorem mem_dropWhile_of_not {p : Char → Bool} {c : Char} {l : Str} (hc : c ∈ l)
    (hp : p c = false) : c ∈ l.dropWhile p := by
  induction l with
  | nil => cases hc
  | cons a t ih =>
    by_cases ha : p a = true
    · rw [List.dropWhile_cons_of_pos ha]
      rcases List.mem_cons.mp hc with rfl | h
      · rw [hp] at ha; cases ha
      · exact ih h
    · rw [List.dropWhile_cons_of_neg ha]
      exact hc

theorem trim_ne_nil {s : Str} {c : Char} (hc : c ∈ s) (hp : isSpace c = false) : trim s ≠ [] := by
  have h1 : c ∈ (s.dropWhile isSpace).reverse := List.mem_reverse.mpr (mem_dropWhile_of_not hc hp)
  have h2 := mem_dropWhile_of_not h1 hp
  unfold trim
  intro h0
  rw [List.reverse_eq_nil_iff] at h0
  rw [h0] at h2
  cases h2

theorem reTimeRange_capture {s : Str} {mt : Match} (h : exec true Server.reTimeRange s = some mt) :
    trim (mt.sub 1) ≠ [] := by
  obtain ⟨b, r, st, hd, -, hc⟩ := exec_sound h
  obtain ⟨st1, ⟨st0, hd0, rfl⟩, st2, hsep, st3, hd3, rfl⟩ := hd
  have c0 : st0.caps = [] := Re.Den.caps_plain _ _ _ _ (by decide) hd0
  have c2 : st2.caps = _ := Re.Den.caps_plain _ _ _ _ (by decide) hsep
  have c3 : st3.caps = _ := Re.Den.caps_plain _ _ _ _ (by decide) hd3
  obtain ⟨w, hb, -⟩ := Re.Den.extend _ _ _ _ hd0
  have hw : consumed ⟨b, r, []⟩ st0 = w := consumed_extend _ _ w hb
  have hsub : mt.sub 1 = w := by
    simp [Match.sub, Match.cap, hc, c3, c2, c0, hw, List.find?]
  rw [hsub]
  obtain ⟨sta, ⟨w1, hdig, hlen, -, -, hb1, -⟩, hrest⟩ := hd0
  obtain ⟨w2, hb2, -⟩ := Re.Den.extend _ _ _ _ hrest
  rw [hb2, hb1] at hb
  have hww : w = w1 ++ w2 := by
    have := congrArg List.reverse hb
    simp only [List.reverse_append, List.reverse_reverse, List.append_assoc] at this
    exact Eq.symm (by simpa using this)
  cases w1 with
  | nil => simp at hlen
  | cons d t =>
    have hd : classTest true false [.digit] d = true := hdig d (List.mem_cons_self _ _)
    have hdd : isDigit d = true := by simpa [classTest, Item.test] using hd
    exact trim_ne_nil (c := d) (by simp [hww]) (isDigit_not_space hdd)

/-! ## The step machine -/

namespace Server

theorem filled_of_truthy {v : Option Str} (h : truthy v = true) : Filled v := by
  match v, h with
  | some (c :: cs), _ => exact ⟨c :: cs, rfl, by simp⟩

theorem filled_some {s : Str} (h : s ≠ []) : Filled (some s) := ⟨s, rfl, h⟩

theorem truthy_of_filled {v : Option Str} (h : Filled v) : truthy v = true := by
  obtain ⟨s, rfl, hs⟩ := h
  cases s with
  | nil => exact absurd rfl hs
  | cons c cs => rfl

theorem inv_new : Inv makeNewSession := by
  refine ⟨by decide, fun _ => rfl, ?_, ?_, ?_, ?_, ?_⟩ <;> intro h <;> simp [makeNewSession] at h

theorem turn_saved (env : Env) (id : Str) (s : Session) (m : Str) (b : Booking)
    (hb : b ∈ (turn env id s m).saved) : s.step = 10 ∧ b = s.booking := by
  obtain ⟨step, booking, history, lsp⟩ := s
  unfold turn at hb
  simp only at hb
  split at hb
  · split at hb <;> simp at hb
  · split at hb
    · split at hb <;> simp at hb
    · split at hb
      all_goals first
        | exact absurd hb (by simp [ask])
        | exact absurd hb (by simp [aiFallback])
        | skip
      split at hb
      · simp at hb; exact ⟨rfl, hb⟩
      · simp at hb



theorem turn_ask (env : Env) (id : Str) (k : Nat) (b : Booking) (h : List Message) (l m : Str)
    (h2 : 2 ≤ k) (h9 : k ≤ 9) :
    (turn env id ⟨k, b, h, l⟩ m).session.step = k + 1 ∧
    (turn env id ⟨k, b, h, l⟩ m).session.history = h ∧
    (turn env id ⟨k, b, h, l⟩ m).session.lastServerPrompt = prompt (k + 1) ∧
    (turn env id ⟨k, b, h, l⟩ m).frames = streamText id (prompt (k + 1)) ∧
    (turn env id ⟨k, b, h, l⟩ m).saved = [] := by
  interval_cases k <;> exact ⟨rfl, rfl, rfl, rfl, rfl⟩

theorem turn_date (env : Env) (id : Str) (b : Booking) (h : List Message) (l m : Str) :
    (turn env id ⟨2, b, h, l⟩ m).session.booking =
      if !truthy b.date && truthy (parseMessageDate env m).1 then
        { b with date := (parseMessageDate env m).1 }
      else if !truthy b.date then { b with date := some m }
      else b := rfl

theorem turn_time (env : Env) (id : Str) (b : Booking) (h : List Message) (l m : Str) :
    (turn env id ⟨3, b, h, l⟩ m).session.booking =
      match exec true reTimeRange m with
      | some timeRangeMatch =>
          { b with
              startTime := some (trim (timeRangeMatch.sub 1))
              endTime := some (trim (timeRangeMatch.sub 2)) }
      | none =>
          if truthy (parseMessageDate env m).2 && !test false reAnyDigit m then
            { b with startTime := (parseMessageDate env m).2 }
          else { b with startTime := some m } := rfl

theorem turn_party (env : Env) (id : Str) (b : Booking) (h : List Message) (l m : Str) :
    (turn env id ⟨4, b, h, l⟩ m).session.booking =
      match exec false rePartySize m with
      | some mt => { b with partySize := some (mt.sub 1) }
      | none => { b with partySize := some m } := rfl

theorem turn_event (env : Env) (id : Str) (b : Booking) (h : List Message) (l m : Str) :
    (turn env id ⟨5, b, h, l⟩ m).session.booking = { b with eventType := some m } := rfl

theorem turn_food (env : Env) (id : Str) (b : Booking) (h : List Message) (l m : Str) :
    (turn env id ⟨6, b, h, l⟩ m).session.booking = { b with food := some m } := rfl

theorem turn_email (env : Env) (id : Str) (b : Booking) (h : List Message) (l m : Str) :
    (turn env id ⟨7, b, h, l⟩ m).session.booking =
      { b with email := some (match exec true reEmail m with
          | some emailMatch => emailMatch.text
          | none => m) } := rfl

theorem turn_phone (env : Env) (id : Str) (b : Booking) (h : List Message) (l m : Str) :
    (turn env id ⟨8, b, h, l⟩ m).session.booking =
      { b with phone := some (match exec false rePhone m with
          | some phoneMatch => phoneMatch.text
          | none => m) } := rfl

theorem turn_decor (env : Env) (id : Str) (b : Booking) (h : List Message) (l m : Str) :
    (turn env id ⟨9, b, h, l⟩ m).session.booking = { b with decor := some m } := rfl

theorem turn_close (env : Env) (id : Str) (b : Booking) (h : List Message) (l m : Str) :
    (turn env id ⟨10, b, h, l⟩ m).session = makeNewSession := by
  show (if isNegation m then _ else _ : Turn).session = _
  split <;> rfl


theorem turn_frame (env : Env) (id : Str) (k : Nat) (b : Booking) (h : List Message) (l m : Str)
    (h2 : 2 ≤ k) (h9 : k ≤ 9) :
    eraseStep k (turn env id ⟨k, b, h, l⟩ m).session.booking = eraseStep k b := by
  interval_cases k
  · rw [turn_date]; split
    · rfl
    · split <;> rfl
  · rw [turn_time]; split
    · rfl
    · split <;> rfl
  · rw [turn_party]; split <;> rfl
  · rfl
  · rfl
  · rfl
  · rfl
  · rfl

theorem turn_inv (env : Env) (id : Str) (s : Session) (m : Str) (hm : m ≠ []) (hs : Inv s) :
    Inv (turn env id s m).session := by
  obtain ⟨step, booking, history, lsp⟩ := s
  obtain ⟨h10, h2, h3, h4, h5, h6, h8⟩ := hs
  simp only at h10 h2 h3 h4 h5 h6 h8
  have fm : Filled (some m) := filled_some hm
  by_cases hlow : step ≤ 1
  · have hb := h2 (by omega)
    interval_cases step
    · unfold turn
      simp only [if_true]
      split <;> simp [Inv, hb]
    · unfold turn
      simp only [if_true, if_false, OfNat.ofNat_ne_zero, one_ne_zero]
      split <;> simp [Inv, hb]
  by_cases hten : step = 10
  · subst hten
    rw [turn_close]
    exact inv_new
  have ha := turn_ask env id step booking history lsp m (by omega) (by omega)
  have hf := turn_frame env id step booking history lsp m (by omega) (by omega)
  unfold Inv
  rw [ha.1]
  refine ⟨by omega, fun h => by omega, ?_, ?_, ?_, ?_, ?_⟩
  · intro _
    by_cases h : step = 2
    · subst h
      rw [turn_date]
      split
      · rename_i hc
        simp only [Bool.and_eq_true] at hc
        exact filled_of_truthy hc.2
      · split
        · exact fm
        · rename_i hc
          simp only [Bool.not_eq_true', Bool.not_eq_false] at hc
          exact filled_of_truthy (by simpa using hc)
    · have := h3 (by omega)
      have e := congrArg Booking.date hf
      interval_cases step <;> first | omega | (simp only [eraseStep] at e; rw [e]; exact this)
  · intro _
    by_cases h : step = 3
    · subst h
      rw [turn_time]
      split
      · rename_i mt hmt
        exact filled_some (reTimeRange_capture hmt)
      · split
        · rename_i hc
          simp only [Bool.and_eq_true] at hc
          exact filled_of_truthy hc.1
        · exact fm
    · have := h4 (by omega)
      have e := congrArg Booking.startTime hf
      interval_cases step <;> first | omega | (simp only [eraseStep] at e; rw [e]; exact this)
  · intro _
    by_cases h : step = 4
    · subst h
      rw [turn_party]
      split
      · rename_i mt hmt
        exact filled_some (rePartySize_capture hmt)
      · exact fm
    · have := h5 (by omega)
      have e := congrArg Booking.partySize hf
      interval_cases step <;> first | omega | (simp only [eraseStep] at e; rw [e]; exact this)
  · intro _
    by_cases h : step = 5
    · subst h
      exact fm
    · have := h6 (by omega)
      have e := congrArg Booking.eventType hf
      interval_cases step <;> first | omega | (simp only [eraseStep] at e; rw [e]; exact this)
  · intro _
    by_cases h : step = 7
    · subst h
      rw [turn_email]
      refine filled_some ?_
      split
      · rename_i mt hmt
        exact reEmail_text hmt
      · exact hm
    · have := h8 (by omega)
      have e := congrArg Booking.email hf
      interval_cases step <;> first | omega | (simp only [eraseStep] at e; rw [e]; exact this)

theorem apiAssistant_eq (env : Env) (store : Store) (req : Request) (m : Str)
    (hc : cleanedMessage req.message = some m) (hm : m ≠ [])
    (hk : ((store (requestId env req)).isNone &&
      inheritedNames.contains (requestId env req)) = false) :
    apiAssistant env store req =
      ⟨store.set (requestId env req)
          (turn env (requestId env req) ((store (requestId env req)).getD makeNewSession) m).session,
        sessionFrame (requestId env req) ::
          (turn env (requestId env req) ((store (requestId env req)).getD makeNewSession) m).frames,
        (turn env (requestId env req) ((store (requestId env req)).getD makeNewSession) m).saved,
        (turn env (requestId env req) ((store (requestId env req)).getD makeNewSession) m).prompts⟩ := by
  have he : m.isEmpty = false := by cases m <;> simp_all
  unfold apiAssistant
  simp only [hc, he, hk, Bool.false_eq_true, if_false]

theorem apiAssistant_inherited (env : Env) (store : Store) (req : Request) (m : Str)
    (hc : cleanedMessage req.message = some m) (hm : m ≠ [])
    (hk : ((store (requestId env req)).isNone &&
      inheritedNames.contains (requestId env req)) = true) :
    apiAssistant env store req =
      ⟨store, [sessionFrame (requestId env req), "[ERROR in assistant]".toList, doneFrame],
        [], []⟩ := by
  have he : m.isEmpty = false := by cases m <;> simp_all
  unfold apiAssistant
  simp only [hc, he, hk, Bool.false_eq_true, if_false, if_true]

theorem stored_not_inherited (store : Store) (id : Str) (s : Session) (hs : store id = some s) :
    ((store id).isNone && inheritedNames.contains id) = false := by
  rw [hs]; rfl

theorem apiAssistant_idle (env : Env) (store : Store) (req : Request)
    (h : cleanedMessage req.message = none ∨ cleanedMessage req.message = some []) :
    (apiAssistant env store req).store = store ∧ (apiAssistant env store req).saved = [] := by
  unfold apiAssistant
  rcases h with h | h <;> simp [h]

theorem apiAssistant_cases (env : Env) (store : Store) (req : Request) :
    ((apiAssistant env store req).store = store ∧ (apiAssistant env store req).saved = []) ∨
    ∃ m, cleanedMessage req.message = some m ∧ m ≠ [] ∧
      ((store (requestId env req)).isNone &&
        inheritedNames.contains (requestId env req)) = false := by
  cases hc : cleanedMessage req.message with
  | none => exact Or.inl (apiAssistant_idle env store req (Or.inl hc))
  | some m =>
    by_cases hm : m = []
    · subst hm; exact Or.inl (apiAssistant_idle env store req (Or.inr hc))
    · rcases Bool.eq_false_or_eq_true ((store (requestId env req)).isNone &&
          inheritedNames.contains (requestId env req)) with hk | hk
      · rw [apiAssistant_inherited env store req m hc hm hk]
        exact Or.inl ⟨rfl, rfl⟩
      · exact Or.inr ⟨m, rfl, hm, hk⟩

theorem Store.set_same (store : Store) (id : Str) (s : Session) : (store.set id s) id = some s := by
  simp [Store.set]

theorem Store.set_other (store : Store) (id k : Str) (s : Session) (h : k ≠ id) :
    (store.set id s) k = store k := by
  simp [Store.set, h]

theorem inv_getD (store : Store) (h : ∀ id s, store id = some s → Inv s) (id : Str) :
    Inv ((store id).getD makeNewSession) := by
  cases hs : store id with
  | none => exact inv_new
  | some s => exact h id s hs

theorem apiAssistant_inv (env : Env) (store : Store) (req : Request)
    (h : ∀ id s, store id = some s → Inv s) :
    ∀ id s, (apiAssistant env store req).store id = some s → Inv s := by
  rcases apiAssistant_cases env store req with ⟨hst, -⟩ | ⟨m, hc, hm, hk⟩
  · rw [hst]; exact h
  · rw [apiAssistant_eq env store req m hc hm hk]
    intro id s hs
    simp only [Store.set] at hs
    split at hs
    · simp only [Option.some.injEq] at hs
      subst hs
      exact turn_inv _ _ _ _ hm (inv_getD store h _)
    · exact h id s hs

theorem reachable_inv {store : Store} (h : Reachable store) :
    ∀ id s, store id = some s → Inv s := by
  induction h with
  | start => intro id s hs; cases hs
  | request env store req _ ih => exact apiAssistant_inv env store req ih

theorem Inv.complete {s : Session} (h : Inv s) (h10 : s.step = 10) : s.booking.Complete := by
  obtain ⟨-, -, h3, h4, h5, h6, h8⟩ := h
  exact ⟨h3 (by omega), h4 (by omega), h5 (by omega), h6 (by omega), h8 (by omega)⟩

/-- C3: in every state the server can reach, each session has a step between 0 and 10, a
session at step 10 has date, start time, party size, event type and email all non-null
and non-empty, and every booking a request hands to `saveBooking` has these five fields
non-null and non-empty. -/
theorem persistence_complete (store : Store) (h : Reachable store) :
    (∀ id s, store id = some s →
      s.step ≤ 10 ∧ (s.step = 10 → s.booking.Complete)) ∧
    (∀ env req b, b ∈ (apiAssistant env store req).saved → b.Complete) := by
  have hinv := reachable_inv h
  refine ⟨fun id s hs => ⟨(hinv id s hs).1, (hinv id s hs).complete⟩, ?_⟩
  intro env req b hb
  rcases apiAssistant_cases env store req with ⟨-, hsv⟩ | ⟨m, hc, hm, hk⟩
  · rw [hsv] at hb; cases hb
  · rw [apiAssistant_eq env store req m hc hm hk] at hb
    obtain ⟨h10, rfl⟩ := turn_saved _ _ _ _ _ hb
    exact (inv_getD store hinv _).complete h10

/-- Witness of C3: the state after the booking request of a new client. -/
theorem persistence_complete_witness :
    (∀ id s, (apiAssistant sampleEnv (fun _ => none)
        ⟨none, .str "I want to book a birthday party".toList⟩).store id = some s →
      s.step ≤ 10 ∧ (s.step = 10 → s.booking.Complete)) ∧
    (∀ env req b, b ∈ (apiAssistant env (apiAssistant sampleEnv (fun _ => none)
        ⟨none, .str "I want to book a birthday party".toList⟩).store req).saved → b.Complete) :=
  persistence_complete _ (Reachable.request sampleEnv _ _ Reachable.start)


theorem runRequests_reachable (env : Env) (reqs : List Request) :
    ∀ store, Reachable store → Reachable (runRequests env store reqs) := by
  induction reqs with
  | nil => intro store h; exact h
  | cons r rs ih => intro store h; exact ih _ (Reachable.request env store r h)

set_option maxRecDepth 100000 in
theorem sampleConversation_result :
    runRequests sampleEnv (fun _ => none) sampleConversation "session-1".toList =
      some ⟨10, sampleBooking, [systemMessage], prompt 10⟩ := by
  decide


theorem requestId_some (env : Env) (id : Str) (fld : Field) (h : id ≠ []) :
    requestId env ⟨some id, fld⟩ = id := by
  cases id with
  | nil => exact absurd rfl h
  | cons c cs => rfl

theorem turn_negation (env : Env) (id : Str) (b : Booking) (h : List Message) (l m : Str)
    (hneg : isNegation m = true) :
    turn env id ⟨10, b, h, l⟩ m = ⟨makeNewSession, streamText id (confirmMsg b), [b], []⟩ := by
  show (if isNegation m then _ else _ : Turn) = _
  rw [if_pos hneg]
  rfl

theorem turn_extras (env : Env) (id : Str) (b : Booking) (h : List Message) (l m : Str)
    (hneg : isNegation m = false) :
    turn env id ⟨10, b, h, l⟩ m = ⟨makeNewSession, streamText id (extrasMsg m), [], []⟩ := by
  show (if isNegation m then _ else _ : Turn) = _
  rw [if_neg (by simp [hneg])]

/-- C4: at step 10, a message whose lower-cased text contains a negation keyword makes the
handler call `saveBooking` exactly once, with the booking of the session, and leaves a
fresh `makeNewSession()` value stored under the same identifier; the other sessions are
untouched.  This holds in every environment, so both when `saveBooking` succeeds and
when it throws. -/
theorem closing_resets (env : Env) (store : Store) (id raw : Str) (s : Session)
    (hid : id ≠ []) (hs : store id = some s) (h10 : s.step = 10)
    (hneg : isNegation (cleanText (trim raw)) = true) :
    (apiAssistant env store ⟨some id, .str raw⟩).saved = [s.booking] ∧
    (apiAssistant env store ⟨some id, .str raw⟩).store id = some makeNewSession ∧
    (∀ k, k ≠ id → (apiAssistant env store ⟨some id, .str raw⟩).store k = store k) ∧
    (apiAssistant env store ⟨some id, .str raw⟩).frames =
      sessionFrame id :: streamText id (confirmMsg s.booking) := by
  have hm : cleanText (trim raw) ≠ [] := by
    intro h0
    rw [h0] at hneg
    exact absurd hneg (by decide)
  have hr := requestId_some env id (.str raw) hid
  rw [apiAssistant_eq env store ⟨some id, .str raw⟩ _ rfl hm
    (stored_not_inherited store _ s (by rw [hr]; exact hs))]
  simp only [hr, hs, Option.getD_some]
  obtain ⟨step, b, h, l⟩ := s
  simp only at h10
  subst h10
  rw [turn_negation env id b h l _ hneg]
  exact ⟨rfl, Store.set_same _ _ _, fun k hk => Store.set_other _ _ _ _ hk, rfl⟩

set_option maxRecDepth 100000 in
/-- Witness of C4: the message `no that's it` after the sample conversation, once with a
spreadsheet that accepts the row and once with one that fails. -/
theorem closing_resets_witness :
    (saveBooking sampleEnv sampleBooking).threw = false ∧
    (saveBooking failingEnv sampleBooking).threw = true ∧
    (apiAssistant sampleEnv (runRequests sampleEnv (fun _ => none) sampleConversation)
        ⟨some "session-1".toList, .str "no that's it".toList⟩).saved = [sampleBooking] ∧
    (apiAssistant sampleEnv (runRequests sampleEnv (fun _ => none) sampleConversation)
        ⟨some "session-1".toList, .str "no that's it".toList⟩).store "session-1".toList =
      some makeNewSession ∧
    (apiAssistant failingEnv (runRequests sampleEnv (fun _ => none) sampleConversation)
        ⟨some "session-1".toList, .str "no that's it".toList⟩).saved = [sampleBooking] ∧
    (apiAssistant failingEnv (runRequests sampleEnv (fun _ => none) sampleConversation)
        ⟨some "session-1".toList, .str "no that's it".toList⟩).store "session-1".toList =
      some makeNewSession := by
  have a := closing_resets sampleEnv _ "session-1".toList "no that's it".toList _ (by decide)
    sampleConversation_result rfl (by decide)
  have b := closing_resets failingEnv _ "session-1".toList "no that's it".toList _ (by decide)
    sampleConversation_result rfl (by decide)
  exact ⟨by decide, by decide, a.1, a.2.1, b.1, b.2.1⟩

/-- C5, the code at the failing input: at step 10 the message `extra chairs`, which holds no
negation keyword, leads to no call of `saveBooking` at all, and the session is replaced
by a fresh one, so the booking and the extras are lost. -/
theorem extras_never_saved (env : Env) (store : Store) (s : Session) :
    (apiAssistant env (store.set "session-1".toList { s with step := 10 })
        ⟨some "session-1".toList, .str "extra chairs".toList⟩).saved = [] ∧
    (apiAssistant env (store.set "session-1".toList { s with step := 10 })
        ⟨some "session-1".toList, .str "extra chairs".toList⟩).store "session-1".toList =
      some makeNewSession := by
  have hc : cleanedMessage (.str "extra chairs".toList) = some "extra chairs".toList := by decide
  rw [apiAssistant_eq env _ ⟨some "session-1".toList, .str "extra chairs".toList⟩ _ hc (by decide)
    (stored_not_inherited _ "session-1".toList _ (Store.set_same _ _ _))]
  have hr : requestId env ⟨some "session-1".toList, .str "extra chairs".toList⟩ = "session-1".toList := rfl
  simp only [hr, Store.set_same, Option.getD_some]
  rw [turn_extras env _ _ _ _ _ (by decide)]
  exact ⟨rfl, rfl⟩

/-- C1, the code at the failing input: the message `john@example.com` is cleaned to
`john@example. com` before step 7 looks for an address; the pattern, which finds the
address in the raw message, finds nothing in the cleaned one, and the email field becomes
`john@example. com`. -/
theorem email_step_on_sample (env : Env) (store : Store) (s : Session) :
    cleanedMessage (.str "john@example.com".toList) = some "john@example. com".toList ∧
    exec true reEmail "john@example.com".toList =
      some ⟨0, "john@example.com".toList, []⟩ ∧
    exec true reEmail "john@example. com".toList = none ∧
    ((apiAssistant env (store.set "session-1".toList { s with step := 7 })
        ⟨some "session-1".toList, .str "john@example.com".toList⟩).store "session-1".toList).map
          (fun s' => s'.booking.email) = some (some "john@example. com".toList) := by
  have hc : cleanedMessage (.str "john@example.com".toList) = some "john@example. com".toList := by
    decide
  have he : exec true reEmail "john@example. com".toList = none := by decide
  refine ⟨hc, by decide, he, ?_⟩
  rw [apiAssistant_eq env _ ⟨some "session-1".toList, .str "john@example.com".toList⟩ _ hc (by decide)
    (stored_not_inherited _ "session-1".toList _ (Store.set_same _ _ _))]
  have hr : requestId env ⟨some "session-1".toList, .str "john@example.com".toList⟩ = "session-1".toList := rfl
  simp only [hr, Store.set_same, Option.getD_some, Option.map_some', turn_email, he]


theorem turn_greeting (env : Env) (id : Str) (s : Session) (m : Str) (h0 : s.step = 0) :
    turn env id s m =
      if isBookingIntent m then
        ⟨{ s with step := 2, lastServerPrompt := prompt 2 }, streamText id (prompt 2), [], []⟩
      else
        ⟨{ s with step := 1, lastServerPrompt := prompt 0 }, streamText id (prompt 0), [], []⟩ := by
  unfold turn
  simp only [h0, if_true]
  rfl

theorem turn_chat (env : Env) (id : Str) (s : Session) (m : Str) (h1 : s.step = 1)
    (hb : isBookingIntent m = true) :
    turn env id s m =
      ⟨{ s with step := 2, lastServerPrompt := prompt 2 }, streamText id (prompt 2), [], []⟩ := by
  unfold turn
  simp only [h1, if_true, one_ne_zero, if_false, hb]

set_option maxRecDepth 100000 in
theorem prompt_streams :
    ∀ n ∈ [0, 2, 3, 4, 5, 6, 7, 8, 9, 10],
      (chunks 40 (cleanText (prompt n))).flatten = cleanText (prompt n) := by
  decide

set_option maxRecDepth 100000 in
theorem prompt_clean : cleanText (prompt 0) = prompt 0 ∧ cleanText (prompt 2) = prompt 2 := by
  decide

theorem isBookingIntent_iff (m : Str) :
    isBookingIntent m = true ↔
      ∃ kw ∈ bookingKeywords, includes (toLowerCase m) kw = true := by
  simp [isBookingIntent, bookingKeywords, or_assoc]

theorem isBookingIntent_false_iff (m : Str) :
    isBookingIntent m = false ↔
      ∀ kw ∈ bookingKeywords, includes (toLowerCase m) kw = false := by
  simp [isBookingIntent, bookingKeywords, and_assoc]

theorem not_inherited_of (store : Store) (id : Str)
    (h : store id = none → id ∉ inheritedNames) :
    ((store id).isNone && inheritedNames.contains id) = false := by
  cases hs : store id with
  | some s => rfl
  | none =>
    have := h hs
    simpa using this

/-- C6: take a request with a message that is not empty after cleaning, whose session is
either stored or made for it (the identifier is then no inherited property name of
`conversationContext`).  At step 0, if the lower-cased message contains one of `book`,
`banquet`, `reserve`, `party`, `event`, the session moves to step 2 and the date request
is streamed; if it contains none of them, the session moves to step 1 and the greeting
is streamed.  At step 1 a message with one of the keywords moves the session to step 2
and streams the date request.  Only `step` and `lastServerPrompt` change, so the booking
record is unchanged. -/
theorem greeting_steps (env : Env) (store : Store) (req : Request) (raw : Str)
    (hmsg : req.message = .str raw) (hm : cleanText (trim raw) ≠ [])
    (hid : store (requestId env req) = none → requestId env req ∉ inheritedNames) :
    (((store (requestId env req)).getD makeNewSession).step = 0 →
      (∃ kw ∈ bookingKeywords, includes (toLowerCase (cleanText (trim raw))) kw = true) →
        (apiAssistant env store req).store (requestId env req) =
          some { (store (requestId env req)).getD makeNewSession with
                  step := 2, lastServerPrompt := prompt 2 } ∧
        (apiAssistant env store req).frames =
          [sessionFrame (requestId env req), sessionFrame (requestId env req)] ++
            chunks 40 (prompt 2) ++ [doneFrame]) ∧
    (((store (requestId env req)).getD makeNewSession).step = 0 →
      (∀ kw ∈ bookingKeywords, includes (toLowerCase (cleanText (trim raw))) kw = false) →
        (apiAssistant env store req).store (requestId env req) =
          some { (store (requestId env req)).getD makeNewSession with
                  step := 1, lastServerPrompt := prompt 0 } ∧
        (apiAssistant env store req).frames =
          [sessionFrame (requestId env req), sessionFrame (requestId env req)] ++
            chunks 40 (prompt 0) ++ [doneFrame]) ∧
    (((store (requestId env req)).getD makeNewSession).step = 1 →
      (∃ kw ∈ bookingKeywords, includes (toLowerCase (cleanText (trim raw))) kw = true) →
        (apiAssistant env store req).store (requestId env req) =
          some { (store (requestId env req)).getD makeNewSession with
                  step := 2, lastServerPrompt := prompt 2 } ∧
        (apiAssistant env store req).frames =
          [sessionFrame (requestId env req), sessionFrame (requestId env req)] ++
            chunks 40 (prompt 2) ++ [doneFrame]) ∧
    (chunks 40 (prompt 2)).flatten = prompt 2 ∧ (chunks 40 (prompt 0)).flatten = prompt 0 ∧
    prompt 2 = "Wonderful — what date would you like to book your banquet for?".toList ∧
    prompt 0 = "Hi there! I'm your Salvatore AI assistant — I can help you book a banquet or answer any questions! Would you like to book a banquet or ask a general question?".toList := by
  have hc : cleanedMessage req.message = some (cleanText (trim raw)) := by rw [hmsg]; rfl
  have e := apiAssistant_eq env store req _ hc hm (not_inherited_of store _ hid)
  have p0 := prompt_clean.1
  have p2 := prompt_clean.2
  have f0 := prompt_streams 0 (by simp)
  have f2 := prompt_streams 2 (by simp)
  rw [p0] at f0
  rw [p2] at f2
  refine ⟨?_, ?_, ?_, f2, f0, rfl, rfl⟩
  · intro h0 hk
    have hb := (isBookingIntent_iff _).mpr hk
    rw [e, turn_greeting env _ _ _ h0, if_pos hb]
    exact ⟨Store.set_same _ _ _, by simp [streamText, p2]⟩
  · intro h0 hk
    have hb := (isBookingIntent_false_iff _).mpr hk
    rw [e, turn_greeting env _ _ _ h0, if_neg (by simp [hb])]
    exact ⟨Store.set_same _ _ _, by simp [streamText, p0]⟩
  · intro h1 hk
    have hb := (isBookingIntent_iff _).mpr hk
    rw [e, turn_chat env _ _ _ h1 hb]
    exact ⟨Store.set_same _ _ _, by simp [streamText, p2]⟩

set_option maxRecDepth 100000 in
/-- Witness of C6: from a new client, `I want to book a birthday party` gives step 2 and
`hello` gives step 1. -/
theorem greeting_steps_witness :
    (apiAssistant sampleEnv (fun _ => none)
        ⟨none, .str "I want to book a birthday party".toList⟩).store "session-1".toList =
      some { makeNewSession with step := 2, lastServerPrompt := prompt 2 } ∧
    (apiAssistant sampleEnv (fun _ => none) ⟨none, .str "hello".toList⟩).store
        "session-1".toList =
      some { makeNewSession with step := 1, lastServerPrompt := prompt 0 } :=
  ⟨((greeting_steps sampleEnv (fun _ => none) ⟨none, .str "I want to book a birthday party".toList⟩
      "I want to book a birthday party".toList rfl (by decide) (fun _ => by decide)).1 rfl
        ⟨"book".toList, by decide, by decide⟩).1,
   ((greeting_steps sampleEnv (fun _ => none) ⟨none, .str "hello".toList⟩
      "hello".toList rfl (by decide) (fun _ => by decide)).2.1 rfl (by decide)).1⟩


/-- C7: for a session of a reachable state at step `k` with `2 ≤ k ≤ 9` and a non-empty
message, afterwards the step is `k + 1`, `lastServerPrompt` is the prompt of step `k + 1`,
the text streamed is `cleanText` of that prompt, the history is unchanged and the booking
differs at most in the field(s) of step `k`.  At step 2 the date is the parsed date when
the date parser gives one and the cleaned message when it finds none. -/
theorem ask_steps (env : Env) (store : Store) (req : Request) (raw : Str) (s : Session) (k : Nat)
    (hreach : Reachable store) (hmsg : req.message = .str raw)
    (hm : cleanText (trim raw) ≠ []) (hs : store (requestId env req) = some s)
    (hstep : s.step = k) (h2 : 2 ≤ k) (h9 : k ≤ 9) :
    ∃ s', (apiAssistant env store req).store (requestId env req) = some s' ∧
      s'.step = k + 1 ∧ s'.lastServerPrompt = prompt (k + 1) ∧ s'.history = s.history ∧
      eraseStep k s'.booking = eraseStep k s.booking ∧
      (apiAssistant env store req).frames =
        [sessionFrame (requestId env req), sessionFrame (requestId env req)] ++
          chunks 40 (cleanText (prompt (k + 1))) ++ [doneFrame] ∧
      (chunks 40 (cleanText (prompt (k + 1)))).flatten = cleanText (prompt (k + 1)) ∧
      (k = 2 →
        (∀ d, (parseMessageDate env (cleanText (trim raw))).1 = some d → d ≠ [] →
          s'.booking.date = some d) ∧
        (env.chronoParse (cleanText (trim raw)) = none →
          s'.booking.date = some (cleanText (trim raw)))) := by
  have hc : cleanedMessage req.message = some (cleanText (trim raw)) := by rw [hmsg]; rfl
  have e := apiAssistant_eq env store req _ hc hm (stored_not_inherited store _ s hs)
  have hinv := reachable_inv hreach _ s hs
  obtain ⟨step, b, h, l⟩ := s
  simp only at hstep
  subst hstep
  have ha := turn_ask env (requestId env req) step b h l (cleanText (trim raw)) h2 h9
  have hf := turn_frame env (requestId env req) step b h l (cleanText (trim raw)) h2 h9
  refine ⟨(turn env (requestId env req) ⟨step, b, h, l⟩ (cleanText (trim raw))).session,
    ?_, ha.1, ha.2.2.1, ha.2.1, hf, ?_, ?_, ?_⟩
  · rw [e, hs]; exact Store.set_same _ _ _
  · rw [e, hs]
    simp only [Option.getD_some, ha.2.2.2.1, streamText, List.cons_append, List.nil_append,
      List.append_assoc]
  · apply prompt_streams
    interval_cases step <;> simp
  · intro hk
    subst hk
    have hb : b = makeNewSession.booking := hinv.2.1 (by simp)
    have hd : truthy b.date = false := by rw [hb]; rfl
    rw [turn_date]
    simp only [hd, Bool.not_false, Bool.true_and, if_true]
    constructor
    · intro d hd1 hd2
      have ht : truthy (parseMessageDate env (cleanText (trim raw))).1 = true := by
        rw [hd1]; exact truthy_of_filled (filled_some hd2)
      rw [if_pos ht]
      exact hd1
    · intro hn
      have hp : (parseMessageDate env (cleanText (trim raw))).1 = none := by
        simp [parseMessageDate, hn]
      rw [hp]
      rfl

theorem sampleStart_result :
    (apiAssistant sampleEnv (fun _ => none)
        ⟨none, .str "I want to book a birthday party".toList⟩).store "session-1".toList =
      some { makeNewSession with step := 2, lastServerPrompt := prompt 2 } := by
  decide

/-- Witness of C7: `November 1st` at step 2 sets the date to `2027-11-01` and moves to
step 3. -/
theorem ask_steps_witness :
    ∃ s', (apiAssistant sampleEnv
        (apiAssistant sampleEnv (fun _ => none)
          ⟨none, .str "I want to book a birthday party".toList⟩).store
        ⟨some "session-1".toList, .str "November 1st".toList⟩).store "session-1".toList = some s' ∧
      s'.step = 3 ∧ s'.booking.date = some "2027-11-01".toList := by
  obtain ⟨s', h1, h2, -, -, -, -, -, h3⟩ :=
    ask_steps sampleEnv _ ⟨some "session-1".toList, .str "November 1st".toList⟩
      "November 1st".toList _ 2 (Reachable.request sampleEnv _ _ Reachable.start) rfl
      (by decide) sampleStart_result rfl (by decide) (by decide)
  exact ⟨s', h1, h2, (h3 rfl).1 _ (by decide) (by decide)⟩


/-- C10: when the start and end texts of a booking parse to instants `s` and `e`, the event
built by `saveBooking` starts at `s` and ends at an instant strictly after `s`: at
`s + 3600000` when `e ≤ s`, at `e` otherwise. -/
theorem saveBooking_span (env : Env) (b : Booking) (date : Str) (s e : Int)
    (hd : saveDate env b.date = some date)
    (hs : env.dateParse
      (date ++ ['T'] ++ normalizeTime (some (orDefault b.startTime "12:00".toList))) = some s)
    (he : env.dateParse
      (date ++ ['T'] ++ normalizeTime (some (orDefault b.endTime "13:00".toList))) = some e) :
    ∃ e', eventSpan env date b.startTime b.endTime = (some s, some e') ∧
      s < e' ∧ (e ≤ s → e' = s + 3600000) ∧ (s < e → e' = e) ∧
      (saveBooking env b).event.map (fun ev => (ev.startDateTime, ev.endDateTime)) =
        some (isoText env s, isoText env e') := by
  by_cases hle : e ≤ s
  · have hspan : eventSpan env date b.startTime b.endTime = (some s, some (s + 3600000)) := by
      simp only [eventSpan, hs, he, if_pos hle]
      norm_num
    refine ⟨s + 3600000, hspan, by omega, fun _ => rfl, fun h => by omega, ?_⟩
    simp only [saveBooking, hd, hspan, Option.map_some']
  · have hspan : eventSpan env date b.startTime b.endTime = (some s, some e) := by
      simp only [eventSpan, hs, he, if_neg hle]
    refine ⟨e, hspan, by omega, fun h => absurd h hle, fun _ => rfl, ?_⟩
    simp only [saveBooking, hd, hspan, Option.map_some']

set_option maxRecDepth 100000 in
/-- Witness of C10: a booking from 6pm to 5pm ends one hour after its start. -/
theorem saveBooking_span_witness :
    ∃ e', eventSpan sampleEnv "2027-11-01".toList (some "6pm".toList) (some "5pm".toList) =
        (some 1825106400000, some e') ∧
      (1825106400000 : Int) < e' ∧ e' = 1825106400000 + 3600000 := by
  obtain ⟨e', h1, h2, h3, -, -⟩ :=
    saveBooking_span sampleEnv { sampleBooking with endTime := some "5pm".toList }
      "2027-11-01".toList 1825106400000 1825102800000 (by decide) (by decide) (by decide)
  exact ⟨e', h1, h2, h3 (by decide)⟩

end Server

/-! ## The extraction variant -/

namespace Server2

theorem get_ne_null {v : Value} (h : v.truthy = true) : v ≠ .null := by
  intro h0; rw [h0] at h; cases h

theorem extractFromReply_some {env : Env} {content : Option Str} {booking : Record}
    (h : extractFromReply env content = some booking) :
    (booking.get "date").truthy = true ∧ (booking.get "startTime").truthy = true ∧
    (booking.get "partySize").truthy = true ∧ (booking.get "email").truthy = true ∧
    (booking.get "eventType").truthy = true := by
  unfold extractFromReply at h
  split at h
  · cases h
  · cases h
  · simp only at h
    split at h
    · cases h
    · cases h
    · cases h
    · split at h
      · rename_i hreq
        simp only [Option.some.injEq] at h
        subst h
        simpa [Bool.and_eq_true, and_assoc] using hreq
      · cases h

theorem extractBookingDetails_some {env : Env} {history : List Entry} {booking : Record}
    (h : extractBookingDetails env history = some booking) :
    ∃ content, extractFromReply env content = some booking := by
  unfold extractBookingDetails at h
  split at h
  · cases h
  · exact ⟨_, h⟩

theorem apiAssistant_saved {env : Env} {req : Request} {booking : Record}
    (h : booking ∈ (apiAssistant env req).saved) :
    ∃ history, extractBookingDetails env history = some booking := by
  unfold apiAssistant at h
  split at h
  · simp at h
  · simp at h
  · simp at h
  · dsimp only at h
    split at h
    · simp at h
    · split at h
      · simp at h
      · split at h
        · simp at h
        · split at h
          · simp at h
          · split at h
            · rename_i hx
              simp only [List.mem_singleton] at h
              subst h
              exact ⟨_, hx⟩
            · simp at h


theorem extractFromReply_record {env : Env} {content : Str} {fields : Record}
    (hne : trim content ≠ [])
    (hp : env.jsonParse (stripFences (trim content)) = some (.record fields)) :
    extractFromReply env (some content) =
      if (fields.get "date").truthy && (fields.get "startTime").truthy &&
          (fields.get "partySize").truthy && (fields.get "email").truthy &&
          (fields.get "eventType").truthy
      then some fields else none := by
  unfold extractFromReply
  cases ht : trim content with
  | nil => exact absurd ht hne
  | cons c cs =>
    rw [ht] at hp
    simp only [Option.map_some', ht, hp]

/-- C2: `extractBookingDetails` returns a record only with date, start time, party size,
email and event type all non-null; it returns `null` when the completion call fails, when
the reply is missing or empty, when the reply does not parse after the code fences are
stripped, and when one of the five fields is missing or `null`; and the handler hands to
`saveBooking` only a record that `extractBookingDetails` returned. -/
theorem extraction_gate (env : Env) :
    (∀ history booking, extractBookingDetails env history = some booking →
      ∀ key ∈ requiredFields, booking.get key ≠ .null) ∧
    (∀ history e, env.extraction (conversationText history) = .error e →
      extractBookingDetails env history = none) ∧
    (∀ content, content.map trim = none ∨ content.map trim = some [] →
      extractFromReply env content = none) ∧
    (∀ content, env.jsonParse (stripFences (trim content)) = none →
      extractFromReply env (some content) = none) ∧
    (∀ content (fields : Record),
      env.jsonParse (stripFences (trim content)) = some (.record fields) →
      (∃ key ∈ requiredFields, fields.get key = .null) →
      extractFromReply env (some content) = none) ∧
    (∀ req booking, booking ∈ (apiAssistant env req).saved →
      ∃ history, extractBookingDetails env history = some booking) := by
  refine ⟨?_, ?_, ?_, ?_, ?_, ?_⟩
  · intro history booking h key hkey
    obtain ⟨content, hc⟩ := extractBookingDetails_some h
    obtain ⟨h1, h2, h3, h4, h5⟩ := extractFromReply_some hc
    simp only [requiredFields, List.mem_cons, List.mem_singleton, List.not_mem_nil, or_false] at hkey
    rcases hkey with rfl | rfl | rfl | rfl | rfl
    · exact get_ne_null h1
    · exact get_ne_null h2
    · exact get_ne_null h3
    · exact get_ne_null h4
    · exact get_ne_null h5
  · intro history e h
    simp only [extractBookingDetails, h]
  · intro content h
    unfold extractFromReply
    rcases h with h | h <;> simp only [h]
  · intro content h
    unfold extractFromReply
    cases ht : trim content with
    | nil => simp only [Option.map_some', ht]
    | cons c cs =>
      rw [ht] at h
      simp only [Option.map_some', ht, h]
  · intro content fields hp ⟨key, hkey, hnull⟩
    by_cases hne : trim content = []
    · unfold extractFromReply
      simp only [Option.map_some', hne]
    · rw [extractFromReply_record hne hp]
      simp only [requiredFields, List.mem_cons, List.mem_singleton, List.not_mem_nil,
        or_false] at hkey
      rcases hkey with rfl | rfl | rfl | rfl | rfl <;> simp [hnull, Value.truthy]
  · intro req booking h
    exact apiAssistant_saved h

set_option maxRecDepth 100000 in
/-- Witness of C2: the sample reply gives the sample record, `not json` gives nothing. -/
theorem extraction_gate_witness :
    extractBookingDetails sampleEnv [] = some sampleRecord ∧
    (∀ key ∈ requiredFields, sampleRecord.get key ≠ .null) ∧
    extractFromReply sampleEnv (some "not json".toList) = none ∧
    (apiAssistant sampleEnv ⟨none, .str "hello".toList⟩).saved = [sampleRecord] := by
  have h : extractBookingDetails sampleEnv [] = some sampleRecord := by decide
  exact ⟨h, (extraction_gate sampleEnv).1 [] sampleRecord h,
    (extraction_gate sampleEnv).2.2.2.1 "not json".toList (by decide), by decide⟩

end Server2

/-! ## Persistence and framing in the extraction variant -/

namespace Server2

theorem saveBooking_times (env : Env) (booking : Record) (a b : Str)
    (hs : timeText (booking.get "startTime") = some a)
    (he : timeText (if (booking.get "endTime").truthy then booking.get "endTime"
                    else booking.get "startTime") = some b) :
    (saveBooking env booking).event.map (fun ev => (ev.startDateTime, ev.endDateTime)) =
      some ((booking.get "date").text env ++ ['T'] ++ a,
            (booking.get "date").text env ++ ['T'] ++ b) := by
  simp only [saveBooking, hs, he]
  split
  · split <;> rfl
  · rfl

set_option maxRecDepth 100000 in
/-- C11, the code at the failing inputs: for the sample record, which has no end time, the
event ends at the very text it starts at, and for the same record with the end time
`1:00 PM` the event ends an hour before it starts.  In neither case is the end after the
start. -/
theorem saveBooking_span_not_ordered (env : Env) :
    (saveBooking env sampleRecord).event.map (fun ev => (ev.startDateTime, ev.endDateTime)) =
      some ("2025-11-01T14:00:00".toList, "2025-11-01T14:00:00".toList) ∧
    (saveBooking env earlyEndRecord).event.map (fun ev => (ev.startDateTime, ev.endDateTime)) =
      some ("2025-11-01T14:00:00".toList, "2025-11-01T13:00:00".toList) :=
  ⟨saveBooking_times env sampleRecord "14:00:00".toList "14:00:00".toList (by decide) (by decide),
   saveBooking_times env earlyEndRecord "14:00:00".toList "13:00:00".toList (by decide) (by decide)⟩

/-- C14, the code at the failing input: with a configured sheet id and a calendar insert
that fails, `saveBooking` returns `false` and no spreadsheet append is attempted. -/
theorem calendar_failure_skips_sheet (env : Env) (booking : Record) (sheet : Str) :
    (saveBooking { env with calendarInsert := fun _ => false, sheetId := some sheet } booking).row
      = none ∧
    (saveBooking { env with calendarInsert := fun _ => false, sheetId := some sheet } booking).ok
      = false := by
  unfold saveBooking
  split <;> simp

set_option maxRecDepth 100000 in
/-- C16, the code at the failing inputs: when the chat completion fails the response is the
session frame and an error payload, when the session file cannot be read it is the error
payload alone; in both cases the last payload is not `[DONE]`. -/
theorem stream_ends_without_done :
    (apiAssistant failingChatEnv ⟨none, .str "hello".toList⟩).reply.frames =
      [sessionFrame "session-1".toList, errorFrame "upstream down".toList] ∧
    (apiAssistant failingReadEnv ⟨none, .str "hello".toList⟩).reply.frames =
      [errorFrame "bad file".toList] ∧
    (apiAssistant failingChatEnv ⟨none, .str "hello".toList⟩).reply.frames.getLast? ≠
      some "[DONE]".toList ∧
    (apiAssistant failingReadEnv ⟨none, .str "hello".toList⟩).reply.frames.getLast? ≠
      some "[DONE]".toList := by
  decide

end Server2

/-! ## The terminal step and the chat step -/

theorem isPrefixOf_append_left {a b : Str} : ∀ {t : Str}, (a ++ b).isPrefixOf t = true → a.isPrefixOf t = true := by
  induction a with
  | nil => intro t _; simp
  | cons x xs ih =>
    intro t h
    cases t with
    | nil => simp at h
    | cons y ys =>
      simp only [List.cons_append, List.isPrefixOf, Bool.and_eq_true] at h ⊢
      exact ⟨h.1, ih h.2⟩

theorem includes_append_left {a b : Str} : ∀ {s : Str}, includes s (a ++ b) = true → includes s a = true := by
  intro s
  induction s with
  | nil =>
    intro h
    cases a with
    | nil => rfl
    | cons x xs => simp [includes] at h
  | cons c cs ih =>
    intro h
    simp only [includes, Bool.or_eq_true] at h ⊢
    rcases h with h | h
    · exact Or.inl (isPrefixOf_append_left h)
    · exact Or.inr (ih h)

namespace Server

theorem isNegation_eq (m : Str) :
    isNegation m =
      (includes (toLowerCase m) "no".toList || includes (toLowerCase m) "that's it".toList ||
        includes (toLowerCase m) "thats it".toList) := by
  unfold isNegation
  simp only
  cases hn : includes (toLowerCase m) "nope".toList with
  | false => simp
  | true =>
    have : includes (toLowerCase m) "no".toList = true :=
      includes_append_left (a := "no".toList) (b := "pe".toList) hn
    rw [this]
    simp

theorem turn_keeps_extras (env : Env) (id : Str) (s : Session) (m : Str) (hs : Inv s)
    (he : s.booking.extras = none) : (turn env id s m).session.booking.extras = none := by
  obtain ⟨step, b, h, l⟩ := s
  have h10 : step ≤ 10 := hs.1
  simp only at he
  by_cases hlow : step ≤ 1
  · interval_cases step
    · rw [turn_greeting env id _ m rfl]; split <;> exact he
    · unfold turn
      simp only [one_ne_zero, if_false, if_true]
      split <;> exact he
  by_cases hten : step = 10
  · subst hten
    rw [turn_close]; rfl
  have hf := congrArg Booking.extras (turn_frame env id step b h l m (by omega) (by omega))
  interval_cases step <;> first | omega | (simp only [eraseStep] at hf; rw [hf]; exact he)

theorem reachable_extras {store : Store} (h : Reachable store) :
    ∀ id s, store id = some s → s.booking.extras = none := by
  induction h with
  | start => intro id s hs; cases hs
  | request env store req hr ih =>
    have hinv := reachable_inv hr
    rcases apiAssistant_cases env store req with ⟨hst, -⟩ | ⟨m, hc, hm, hk⟩
    · rw [hst]; exact ih
    · rw [apiAssistant_eq env store req m hc hm hk]
      intro id s hs
      simp only [Store.set] at hs
      split at hs
      · simp only [Option.some.injEq] at hs
        subst hs
        apply turn_keeps_extras _ _ _ _ (inv_getD store hinv _)
        cases hg : store (requestId env req) with
        | none => rfl
        | some s0 => exact ih _ s0 hg
      · exact ih id s hs

theorem closing_branch (env : Env) (store : Store) (id raw : Str) (s : Session)
    (hid : id ≠ []) (hs : store id = some s) (h10 : s.step = 10)
    (hneg : isNegation (cleanText (trim raw)) = true) :
    (apiAssistant env store ⟨some id, .str raw⟩).saved = [s.booking] ∧
    (apiAssistant env store ⟨some id, .str raw⟩).store id = some makeNewSession := by
  have hm : cleanText (trim raw) ≠ [] := by
    intro h0
    rw [h0] at hneg
    exact absurd hneg (by decide)
  have hr := requestId_some env id (.str raw) hid
  rw [apiAssistant_eq env store ⟨some id, .str raw⟩ _ rfl hm
    (stored_not_inherited store _ s (by rw [hr]; exact hs))]
  simp only [hr, hs, Option.getD_some]
  obtain ⟨step, b, h, l⟩ := s
  simp only at h10
  subst h10
  rw [turn_negation env id b h l _ hneg]
  exact ⟨rfl, Store.set_same _ _ _⟩

/-- C20: at step 10 of a reachable state, a message whose cleaned, lower-cased text contains
`no` anywhere makes the handler take the closing branch: the booking is handed to
`saveBooking` with `extras` still `null`, and the session is replaced by a fresh one, so
the message is recorded nowhere.  The keyword `nope` adds nothing to the test, since every
text that contains it contains `no`. -/
theorem no_inside_word_closes (env : Env) (store : Store) (id raw : Str) (s : Session)
    (hreach : Reachable store) (hid : id ≠ []) (hs : store id = some s) (h10 : s.step = 10)
    (hno : includes (toLowerCase (cleanText (trim raw))) "no".toList = true) :
    (apiAssistant env store ⟨some id, .str raw⟩).saved = [s.booking] ∧
    s.booking.extras = none ∧
    (apiAssistant env store ⟨some id, .str raw⟩).store id = some makeNewSession ∧
    (∀ m, isNegation m =
      (includes (toLowerCase m) "no".toList || includes (toLowerCase m) "that's it".toList ||
        includes (toLowerCase m) "thats it".toList)) ∧
    (∀ m, includes (toLowerCase m) "nope".toList = true →
      includes (toLowerCase m) "no".toList = true) := by
  have hneg : isNegation (cleanText (trim raw)) = true := by
    rw [isNegation_eq, hno]; rfl
  have hc := closing_branch env store id raw s hid hs h10 hneg
  exact ⟨hc.1, reachable_extras hreach id s hs, hc.2, isNegation_eq,
    fun m h => includes_append_left (a := "no".toList) (b := "pe".toList) h⟩

set_option maxRecDepth 100000 in
/-- Witness of C20: `Can we have a piano?` and `I would like to know the price` after the
sample conversation. -/
theorem no_inside_word_closes_witness :
    (apiAssistant sampleEnv (runRequests sampleEnv (fun _ => none) sampleConversation)
        ⟨some "session-1".toList, .str "Can we have a piano?".toList⟩).saved = [sampleBooking] ∧
    sampleBooking.extras = none ∧
    (apiAssistant sampleEnv (runRequests sampleEnv (fun _ => none) sampleConversation)
        ⟨some "session-1".toList, .str "I would like to know the price".toList⟩).saved =
      [sampleBooking] ∧
    (apiAssistant sampleEnv (runRequests sampleEnv (fun _ => none) sampleConversation)
        ⟨some "session-1".toList, .str "I would like to know the price".toList⟩).store
        "session-1".toList = some makeNewSession := by
  have hr := runRequests_reachable sampleEnv sampleConversation _ Reachable.start
  have a := no_inside_word_closes sampleEnv _ "session-1".toList "Can we have a piano?".toList _
    hr (by decide) sampleConversation_result rfl (by decide)
  have b := no_inside_word_closes sampleEnv _ "session-1".toList
    "I would like to know the price".toList _ hr (by decide) sampleConversation_result rfl
    (by decide)
  exact ⟨a.1, a.2.1, b.1, b.2.2.1⟩

theorem turn_idle_chat (env : Env) (id : Str) (s : Session) (m : Str) (h1 : s.step = 1)
    (hb : isBookingIntent m = false) :
    turn env id s m =
      ⟨{ s with
          history := s.history ++ [⟨"user".toList, m⟩] ++ [⟨"assistant".toList, []⟩]
          lastServerPrompt := buildPrompt (s.history ++ [⟨"user".toList, m⟩]) },
       [doneFrame], [], []⟩ := by
  unfold turn
  simp only [h1, if_true, one_ne_zero, if_false, hb, Bool.false_eq_true]

theorem turn_prompts (env : Env) (id : Str) (s : Session) (m : Str) (h : s.step ≤ 10) :
    (turn env id s m).prompts = [] := by
  obtain ⟨step, b, hist, l⟩ := s
  simp only at h
  by_cases hlow : step ≤ 1
  · interval_cases step
    · rw [turn_greeting env id _ m rfl]; split <;> rfl
    · unfold turn
      simp only [one_ne_zero, if_false, if_true]
      split <;> rfl
  by_cases hten : step = 10
  · subst hten
    show (if isNegation m then _ else _ : Turn).prompts = _
    split <;> rfl
  interval_cases step <;> first | omega | rfl

theorem apiAssistant_prompts (env : Env) (store : Store) (req : Request)
    (h : ∀ id s, store id = some s → Inv s) : (apiAssistant env store req).prompts = [] := by
  cases hc : cleanedMessage req.message with
  | none => simp [apiAssistant, hc]
  | some m =>
    by_cases hm : m = []
    · subst hm; simp [apiAssistant, hc]
    · cases hk : ((store (requestId env req)).isNone &&
          inheritedNames.contains (requestId env req)) with
      | true => rw [apiAssistant_inherited env store req m hc hm hk]
      | false =>
        rw [apiAssistant_eq env store req m hc hm hk]
        exact turn_prompts _ _ _ _ (inv_getD store h _).1

/-- C19: at step 1 of a reachable state, a non-empty message without booking keyword hands
no prompt to the language model, leaves the step at 1 and the booking unchanged, appends
the user message and an assistant entry with empty content to the history, and the
response is the session frame followed by `[DONE]`.  In a reachable state no request at all
hands a prompt to the language model. -/
theorem chat_step_idle (env : Env) (store : Store) (req : Request) (raw : Str) (s : Session)
    (hreach : Reachable store) (hmsg : req.message = .str raw)
    (hm : cleanText (trim raw) ≠ []) (hs : store (requestId env req) = some s)
    (h1 : s.step = 1) (hb : isBookingIntent (cleanText (trim raw)) = false) :
    (apiAssistant env store req).prompts = [] ∧
    (∃ s', (apiAssistant env store req).store (requestId env req) = some s' ∧
      s'.step = 1 ∧ s'.booking = s.booking ∧
      s'.history = s.history ++
        [⟨"user".toList, cleanText (trim raw)⟩, ⟨"assistant".toList, []⟩]) ∧
    (apiAssistant env store req).frames = [sessionFrame (requestId env req), doneFrame] ∧
    (∀ env' req', (apiAssistant env' store req').prompts = []) := by
  have hinv := reachable_inv hreach
  have hc : cleanedMessage req.message = some (cleanText (trim raw)) := by rw [hmsg]; rfl
  have e := apiAssistant_eq env store req _ hc hm (stored_not_inherited store _ s hs)
  rw [hs, Option.getD_some, turn_idle_chat env _ s _ h1 hb] at e
  refine ⟨apiAssistant_prompts env store req hinv, ?_, ?_, fun env' req' =>
    apiAssistant_prompts env' store req' hinv⟩
  · rw [e]
    exact ⟨_, Store.set_same _ _ _, h1, rfl, by simp⟩
  · rw [e]

set_option maxRecDepth 100000 in
theorem sampleChat_result :
    (apiAssistant sampleEnv (fun _ => none) ⟨none, .str "hello".toList⟩).store
        "session-1".toList =
      some { makeNewSession with step := 1, lastServerPrompt := prompt 0 } := by
  decide

set_option maxRecDepth 100000 in
/-- Witness of C19: `what are your hours?` after a greeting. -/
theorem chat_step_idle_witness :
    (apiAssistant sampleEnv
        (apiAssistant sampleEnv (fun _ => none) ⟨none, .str "hello".toList⟩).store
        ⟨some "session-1".toList, .str "what are your hours?".toList⟩).prompts = [] ∧
    (apiAssistant sampleEnv
        (apiAssistant sampleEnv (fun _ => none) ⟨none, .str "hello".toList⟩).store
        ⟨some "session-1".toList, .str "what are your hours?".toList⟩).frames =
      [sessionFrame "session-1".toList, doneFrame] := by
  have h := chat_step_idle sampleEnv _ ⟨some "session-1".toList, .str "what are your hours?".toList⟩
    "what are your hours?".toList _ (Reachable.request sampleEnv _ _ Reachable.start) rfl
    (by decide) sampleChat_result rfl (by decide)
  exact ⟨h.1, h.2.2.1⟩

end Server

theorem replaceGo_skip (ic : Bool) (re : Re) (repl : Match → Str) (w : Str) :
    ∀ (before rest : Str),
      replaceGo ic re repl w.length before (w ++ rest) =
        replaceGo ic re repl 0 (w.reverse ++ before) rest := by
  induction w with
  | nil => intro before rest; rfl
  | cons c w ih =>
    intro before rest
    simp only [List.length_cons, List.cons_append, replaceGo, List.reverse_cons, List.append_assoc,
      List.singleton_append]
    exact ih (c :: before) rest

theorem replaceGo_miss (ic : Bool) (re : Re) (repl : Match → Str) (before : Str) (c : Char)
    (cs : Str) (h : matchAt ic re before (c :: cs) = none) :
    replaceGo ic re repl 0 before (c :: cs) = c :: replaceGo ic re repl 0 (c :: before) cs := by
  simp only [replaceGo, h]

theorem replaceGo_hit (ic : Bool) (re : Re) (repl : Match → Str) (before w rest : Str)
    (mt : Match) (hw : w ≠ []) (h : matchAt ic re before (w ++ rest) = some mt)
    (ht : mt.text = w) :
    replaceGo ic re repl 0 before (w ++ rest) =
      repl mt ++ replaceGo ic re repl 0 (w.reverse ++ before) rest := by
  cases w with
  | nil => exact absurd rfl hw
  | cons c w =>
    have hlen : mt.text.length = w.length + 1 := by rw [ht]; rfl
    simp only [List.cons_append] at h ⊢
    simp only [replaceGo, h, hlen, Nat.add_one_ne_zero, if_false, Nat.add_sub_cancel]
    rw [replaceGo_skip]
    simp

/-- Greedy repetition takes the whole run when the continuation accepts there. -/
theorem repGo_run (p : Char → Bool) (k : Str → Str → Option MState) (res : MState) :
    ∀ (rest : Str) (mn : Nat) (before : Str),
      mn ≤ (rest.takeWhile p).length →
      k ((rest.takeWhile p).reverse ++ before) (rest.dropWhile p) = some res →
      repGo p k mn none before rest = some res := by
  intro rest
  induction rest with
  | nil =>
    intro mn before hmn hk
    simp only [List.takeWhile_nil, List.length_nil, Nat.le_zero_eq] at hmn
    simpa [repGo, hmn] using hk
  | cons c cs ih =>
    intro mn before hmn hk
    by_cases hc : p c = true
    · simp only [List.takeWhile_cons, hc, if_true, List.length_cons, List.dropWhile_cons,
        List.reverse_cons, List.append_assoc, List.singleton_append] at hmn hk
      have := ih (mn - 1) (c :: before) (by omega) hk
      simp [repGo, hc, this, orElse]
    · simp only [List.takeWhile_cons, hc, if_false, List.length_nil, Nat.le_zero_eq,
        List.dropWhile_cons, List.reverse_nil, List.nil_append, Bool.false_eq_true] at hmn hk
      simp [repGo, hc, hmn, hk]

/-- Greedy repetition fails when the run is too short. -/
theorem repGo_short (p : Char → Bool) (k : Str → Str → Option MState) :
    ∀ (rest : Str) (mn : Nat) (before : Str),
      (rest.takeWhile p).length < mn → repGo p k mn none before rest = none := by
  intro rest
  induction rest with
  | nil =>
    intro mn before hmn
    simp only [List.takeWhile_nil, List.length_nil] at hmn
    simp [repGo, Nat.pos_iff_ne_zero.mp hmn]
  | cons c cs ih =>
    intro mn before hmn
    have h0 : mn ≠ 0 := by omega
    by_cases hc : p c = true
    · simp only [List.takeWhile_cons, hc, if_true, List.length_cons] at hmn
      have := ih (mn - 1) (c :: before) (by omega)
      simp [repGo, hc, this, orElse, h0]
    · simp [repGo, hc, h0]

/-- Greedy repetition with a continuation that never accepts in front of a character of
the run: only the whole run is tried with success. -/
theorem repGo_strict (p : Char → Bool) (k : Str → Str → Option MState)
    (hk : ∀ b c cs, p c = true → k b (c :: cs) = none) :
    ∀ (rest : Str) (mn : Nat) (before : Str),
      mn ≤ (rest.takeWhile p).length →
      repGo p k mn none before rest =
        k ((rest.takeWhile p).reverse ++ before) (rest.dropWhile p) := by
  intro rest
  induction rest with
  | nil =>
    intro mn before hmn
    simp only [List.takeWhile_nil, List.length_nil, Nat.le_zero_eq] at hmn
    simp [repGo, hmn]
  | cons c cs ih =>
    intro mn before hmn
    by_cases hc : p c = true
    · simp only [List.takeWhile_cons, hc, if_true, List.length_cons] at hmn
      have := ih (mn - 1) (c :: before) (by omega)
      simp only [repGo, hc, Bool.true_and, bne_iff_ne, ne_eq, not_false_eq_true,
        if_true, Option.map_none', this, hk before c cs hc, reduceCtorEq]
      simp only [List.takeWhile_cons, hc, if_true, List.dropWhile_cons, List.reverse_cons,
        List.append_assoc, List.singleton_append]
      cases k ((cs.takeWhile p).reverse ++ c :: before) (cs.dropWhile p) <;> simp [orElse]
    · simp only [List.takeWhile_cons, hc, if_false, List.length_nil, Nat.le_zero_eq,
        Bool.false_eq_true] at hmn
      simp [repGo, hc, hmn]

theorem classTest_punct (c : Char) : classTest false false Server.punct c = isPunct c := by
  simp [classTest, Server.punct, Item.test, isPunct, Bool.or_assoc]

theorem classTest_space (c : Char) : classTest false false [.space] c = isSpace c := by
  simp [classTest, Item.test]

theorem classTest_notSpace (c : Char) : classTest false true [.space] c = !isSpace c := by
  simp [classTest, Item.test]

theorem isPunct_not_space {c : Char} (h : isPunct c = true) : isSpace c = false := by
  simp only [isPunct, Bool.or_eq_true, beq_iff_eq] at h
  rcases h with ((rfl | rfl) | rfl) | rfl <;> decide

theorem consumed_append (before rest w rest' : Str) (caps caps' : List (Nat × Str)) :
    consumed ⟨before, rest, caps⟩ ⟨w.reverse ++ before, rest', caps'⟩ = w := by
  simp [consumed]

/-- The pattern of a run of at least two characters of one class. -/
theorem matchAt_run (neg : Bool) (items : List Item) (before rest : Str) :
    matchAt false (.rep neg items 2 none) before rest =
      if 2 ≤ (rest.takeWhile (classTest false neg items)).length then
        some ⟨before.length, rest.takeWhile (classTest false neg items), []⟩
      else none := by
  unfold matchAt
  simp only [Re.m]
  split_ifs with h
  · rw [repGo_run _ _ ⟨(rest.takeWhile (classTest false neg items)).reverse ++ before,
      rest.dropWhile (classTest false neg items), []⟩ rest 2 before h rfl]
    simp [consumed]
  · rw [repGo_short _ _ rest 2 before (by omega)]

theorem collapse_true (p : Char → Bool) :
    ∀ s, collapse p true s = collapse p false (s.dropWhile p) := by
  intro s
  induction s with
  | nil => rfl
  | cons c cs ih =>
    by_cases hc : p c = true
    · simp [collapse, hc, ih, List.dropWhile_cons]
    · simp [collapse, hc, List.dropWhile_cons]

theorem takeWhile_length_two {p : Char → Bool} {c : Char} {cs : Str} :
    2 ≤ ((c :: cs).takeWhile p).length ↔ p c = true ∧ (cs.head?.map p).getD false = true := by
  cases cs with
  | nil => by_cases hc : p c = true <;> simp [List.takeWhile_cons, hc]
  | cons d ds =>
    by_cases hc : p c = true <;> by_cases hd : p d = true <;>
      simp [List.takeWhile_cons, hc, hd]

theorem replaceGo_collapse (neg : Bool) (items : List Item) :
    ∀ (n : Nat) (s before : Str), s.length ≤ n →
      replaceGo false (.rep neg items 2 none) (fun _ => [' ']) 0 before s =
        collapse (classTest false neg items) false s := by
  intro n
  induction n with
  | zero =>
    intro s before hn
    have : s = [] := List.length_eq_zero.mp (by omega)
    subst this
    simp [replaceGo, matchAt_run, collapse]
  | succ n ih =>
    intro s before hn
    cases s with
    | nil => simp [replaceGo, matchAt_run, collapse]
    | cons c cs =>
      have hm := matchAt_run neg items before (c :: cs)
      by_cases h2 : 2 ≤ ((c :: cs).takeWhile (classTest false neg items)).length
      · rw [if_pos h2] at hm
        have hsplit : c :: cs = (c :: cs).takeWhile (classTest false neg items) ++
            (c :: cs).dropWhile (classTest false neg items) :=
          (List.takeWhile_append_dropWhile _ _).symm
        have hne : (c :: cs).takeWhile (classTest false neg items) ≠ [] := by
          intro h0; rw [h0] at h2; simp at h2
        have hlen : ((c :: cs).dropWhile (classTest false neg items)).length ≤ n := by
          have := congrArg List.length hsplit
          simp only [List.length_append, List.length_cons] at this hn
          omega
        have hit := replaceGo_hit false (.rep neg items 2 none) (fun _ => [' ']) before
          ((c :: cs).takeWhile (classTest false neg items))
          ((c :: cs).dropWhile (classTest false neg items)) _ hne (by rw [← hsplit]; exact hm) rfl
        rw [← hsplit] at hit
        rw [hit, ih _ _ hlen]
        obtain ⟨hc, hd⟩ := takeWhile_length_two.mp h2
        simp [collapse, hc, hd, collapse_true, List.dropWhile_cons]
      · rw [if_neg h2] at hm
        rw [replaceGo_miss _ _ _ _ _ _ hm, ih cs _ (by simpa using hn)]
        have := mt takeWhile_length_two.mpr h2
        by_cases hc : classTest false neg items c = true
        · have hd : (cs.head?.map (classTest false neg items)).getD false = false := by
            simpa [hc] using this
          simp [collapse, hc, hd]
        · simp [collapse, hc]

theorem matchAt_spaceBeforePunct (before rest : Str) :
    matchAt false Server.reSpaceBeforePunct before rest =
      match rest.dropWhile isSpace with
      | c :: _ =>
          if 1 ≤ (rest.takeWhile isSpace).length ∧ isPunct c = true then
            some ⟨before.length, rest.takeWhile isSpace ++ [c], [(1, [c])]⟩
          else none
      | [] => none := by
  have hcls : classTest false false [.space] = isSpace := funext classTest_space
  unfold matchAt
  simp only [Server.reSpaceBeforePunct, Re.m, hcls, classTest_punct]
  by_cases h1 : 1 ≤ (rest.takeWhile isSpace).length
  · rw [repGo_strict isSpace _ ?_ rest 1 before h1]
    · cases hd : rest.dropWhile isSpace with
      | nil => simp
      | cons c cs =>
        by_cases hp : isPunct c = true
        · simp only [hp, h1, consumed, if_true, and_self]
          have e : (c :: ((rest.takeWhile isSpace).reverse ++ before)).length - before.length =
              (c :: (rest.takeWhile isSpace).reverse).length := by
            simp only [List.length_cons, List.length_append, List.length_reverse]
            omega
          rw [e, ← List.cons_append, List.take_left' rfl]
          simp
        · simp [hp]
    · intro b c cs hc
      have : isPunct c = false := by
        cases hp : isPunct c with
        | false => rfl
        | true => rw [isPunct_not_space hp] at hc; cases hc
      simp [this]
  · rw [repGo_short isSpace _ rest 1 before (by omega)]
    cases rest.dropWhile isSpace with
    | nil => rfl
    | cons c cs => simp [h1]

theorem dropBefore_run (run : Str) (c : Char) (rest : Str) (hrun : ∀ x ∈ run, isSpace x = true)
    (hc : isPunct c = true) : dropBefore (run ++ c :: rest) = c :: dropBefore rest := by
  have hcs : isSpace c = false := isPunct_not_space hc
  induction run with
  | nil => simp [dropBefore, hcs]
  | cons x xs ih =>
    have hx : isSpace x = true := hrun x (List.mem_cons_self _ _)
    have hxs : ∀ y ∈ xs, isSpace y = true := fun y hy => hrun y (List.mem_cons_of_mem _ hy)
    have hd : (xs ++ c :: rest).dropWhile isSpace = c :: rest := by
      rw [List.dropWhile_append_of_pos hxs]  
      simp [List.dropWhile_cons, hcs]
    simp [dropBefore, hx, nextIsPunct, hd, hc, ih hxs]

theorem replaceGo_dropBefore :
    ∀ (n : Nat) (s before : Str), s.length ≤ n →
      replaceGo false Server.reSpaceBeforePunct (fun mt => mt.sub 1) 0 before s = dropBefore s := by
  intro n
  induction n with
  | zero =>
    intro s before hn
    have : s = [] := List.length_eq_zero.mp (by omega)
    subst this
    simp [replaceGo, matchAt_spaceBeforePunct, dropBefore]
  | succ n ih =>
    intro s before hn
    cases s with
    | nil => simp [replaceGo, matchAt_spaceBeforePunct, dropBefore]
    | cons c cs =>
      have hm := matchAt_spaceBeforePunct before (c :: cs)
      have hsplit : c :: cs = (c :: cs).takeWhile isSpace ++ (c :: cs).dropWhile isSpace :=
        (List.takeWhile_append_dropWhile _ _).symm
      cases hd : (c :: cs).dropWhile isSpace with
      | nil =>
        rw [hd] at hm
        simp only at hm
        rw [replaceGo_miss _ _ _ _ _ _ hm, ih cs _ (by simpa using hn)]
        by_cases hc : isSpace c = true
        · have : cs.dropWhile isSpace = [] := by simpa [List.dropWhile_cons, hc] using hd
          simp [dropBefore, nextIsPunct, this]
        · simp [dropBefore, hc]
      | cons p rest' =>
        rw [hd] at hm hsplit
        simp only at hm
        by_cases hcond : 1 ≤ ((c :: cs).takeWhile isSpace).length ∧ isPunct p = true
        · rw [if_pos hcond] at hm
          have hw : (c :: cs).takeWhile isSpace ++ [p] ≠ [] := by simp
          have hs2 : c :: cs = ((c :: cs).takeWhile isSpace ++ [p]) ++ rest' := by
            rw [List.append_assoc]; exact hsplit
          have hlen : rest'.length ≤ n := by
            have := congrArg List.length hs2
            simp only [List.length_append, List.length_cons, List.length_nil] at this hn
            omega
          have hit := replaceGo_hit false Server.reSpaceBeforePunct (fun mt => mt.sub 1) before
            ((c :: cs).takeWhile isSpace ++ [p]) rest' _ hw (by rw [← hs2]; exact hm) rfl
          rw [← hs2] at hit
          rw [hit, ih _ _ hlen]
          have hrun : ∀ x ∈ (c :: cs).takeWhile isSpace, isSpace x = true :=
            fun x hx => List.mem_takeWhile_imp hx
          conv_rhs => rw [hsplit, dropBefore_run _ p rest' hrun hcond.2]
          simp [Match.sub, Match.cap]
        · rw [if_neg hcond] at hm
          rw [replaceGo_miss _ _ _ _ _ _ hm, ih cs _ (by simpa using hn)]
          by_cases hc : isSpace c = true
          · have hd' : cs.dropWhile isSpace = p :: rest' := by
              simpa [List.dropWhile_cons, hc] using hd
            have hp : isPunct p = false := by
              cases hp : isPunct p with
              | false => rfl
              | true =>
                exact absurd ⟨by simp [List.takeWhile_cons, hc], hp⟩ hcond
            simp [dropBefore, nextIsPunct, hd', hp]
          · simp [dropBefore, hc]

theorem matchAt_punctBeforeText (before : Str) (c : Char) (cs : Str) :
    matchAt false Server.rePunctBeforeText before (c :: cs) =
      if isPunct c && (cs.head?.map (fun d => !isSpace d)).getD false then
        some ⟨before.length, [c], [(1, [c])]⟩
      else none := by
  unfold matchAt
  cases cs with
  | nil =>
    by_cases hp : isPunct c = true <;>
      simp [Server.rePunctBeforeText, Re.m, classTest_punct, hp]
  | cons d ds =>
    by_cases hp : isPunct c = true <;> by_cases hd : isSpace d = true <;>
      simp [Server.rePunctBeforeText, Re.m, classTest_punct, classTest_notSpace, hp, hd, consumed]

theorem matchAt_punctBeforeText_nil (before : Str) :
    matchAt false Server.rePunctBeforeText before [] = none := by
  simp [matchAt, Server.rePunctBeforeText, Re.m]

theorem replaceGo_spaceAfter :
    ∀ (s before : Str),
      replaceGo false Server.rePunctBeforeText (fun mt => mt.sub 1 ++ [' ']) 0 before s =
        spaceAfter s := by
  intro s
  induction s with
  | nil => intro before; simp [replaceGo, matchAt_punctBeforeText_nil, spaceAfter]
  | cons c cs ih =>
    intro before
    have hm := matchAt_punctBeforeText before c cs
    by_cases hcond : (isPunct c && (cs.head?.map (fun d => !isSpace d)).getD false) = true
    · rw [if_pos hcond] at hm
      have hit := replaceGo_hit false Server.rePunctBeforeText (fun mt => mt.sub 1 ++ [' ']) before
        [c] cs _ (by simp) hm rfl
      simp only [List.singleton_append] at hit
      rw [hit, ih]
      simp [spaceAfter, hcond, Match.sub, Match.cap]
    · rw [if_neg hcond] at hm
      rw [replaceGo_miss _ _ _ _ _ _ hm, ih]
      simp [spaceAfter, hcond]

/-- The four passes and the trimming of `cleanText`, in plain list terms. -/
theorem cleanText_eq (text : Str) :
    Server.cleanText text =
      trim (collapse isSpace false (spaceAfter (dropBefore
        (collapse (fun c => c == ' ') false text)))) := by
  have h1 : classTest false false [.ch ' '] = fun c => c == ' ' := by
    funext c; simp [classTest, Item.test]
  have h4 : classTest false false [.space] = isSpace := funext classTest_space
  unfold Server.cleanText replaceAll
  rw [show Server.reSpaces = Re.rep false [.ch ' '] 2 none from rfl,
    show Server.reBlanks = Re.rep false [.space] 2 none from rfl,
    replaceGo_collapse false [.ch ' '] _ _ _ (Nat.le_refl _), h1,
    replaceGo_dropBefore _ _ _ (Nat.le_refl _), replaceGo_spaceAfter,
    replaceGo_collapse false [.space] _ _ _ (Nat.le_refl _), h4]

theorem dec_pushSpace (c : Char) (e : List Piece × Str) :
    dec (pushSpace c e).1 (pushSpace c e).2 = c :: dec e.1 e.2 := by
  obtain ⟨ts, tl⟩ := e
  cases ts with
  | nil => rfl
  | cons t ts => obtain ⟨w, d⟩ := t; rfl

theorem valid_pushSpace (c : Char) (e : List Piece × Str) (hc : isSpace c = true)
    (h : Valid e.1 ∧ Blank e.2) : Valid (pushSpace c e).1 ∧ Blank (pushSpace c e).2 := by
  obtain ⟨ts, tl⟩ := e
  obtain ⟨hv, hb⟩ := h
  cases ts with
  | nil =>
    refine ⟨fun t ht => (by cases ht), fun x hx => ?_⟩
    rcases List.mem_cons.mp hx with rfl | hx
    · exact hc
    · exact hb x hx
  | cons t ts =>
    obtain ⟨w, d⟩ := t
    refine ⟨fun t ht => ?_, hb⟩
    rcases List.mem_cons.mp ht with rfl | ht
    · have := hv (w, d) (List.mem_cons_self _ _)
      refine ⟨fun x hx => ?_, this.2⟩
      rcases List.mem_cons.mp hx with rfl | hx
      · exact hc
      · exact this.1 x hx
    · exact hv t (List.mem_cons_of_mem _ ht)

theorem dec_enc (s : Str) : dec (enc s).1 (enc s).2 = s := by
  induction s with
  | nil => rfl
  | cons c cs ih =>
    by_cases hc : isSpace c = true
    · rw [show enc (c :: cs) = pushSpace c (enc cs) from by simp [enc, hc], dec_pushSpace, ih]
    · rw [show enc (c :: cs) = (([], c) :: (enc cs).1, (enc cs).2) from by simp [enc, hc]]
      simp only [dec, List.nil_append, ih]

theorem valid_enc (s : Str) : Valid (enc s).1 ∧ Blank (enc s).2 := by
  induction s with
  | nil => exact ⟨fun t ht => (by cases ht), fun x hx => (by cases hx)⟩
  | cons c cs ih =>
    by_cases hc : isSpace c = true
    · rw [show enc (c :: cs) = pushSpace c (enc cs) from by simp [enc, hc]]
      exact valid_pushSpace c _ hc ih
    · rw [show enc (c :: cs) = (([], c) :: (enc cs).1, (enc cs).2) from by simp [enc, hc]]
      refine ⟨fun t ht => ?_, ih.2⟩
      rcases List.mem_cons.mp ht with rfl | ht
      · exact ⟨fun x hx => (by cases hx), by simpa using hc⟩
      · exact ih.1 t ht

theorem collapse_cons_neg (p : Char → Bool) (b : Bool) (c : Char) (cs : Str) (hc : p c = false) :
    collapse p b (c :: cs) = c :: collapse p false cs := by
  simp [collapse, hc]

theorem collapse_cons_run (p : Char → Bool) (c : Char) (cs : Str) (hc : p c = true) :
    collapse p true (c :: cs) = collapse p true cs := by
  simp [collapse, hc]

theorem collapse_cons_start (p : Char → Bool) (c : Char) (cs : Str) (hc : p c = true)
    (hd : (cs.head?.map p).getD false = true) :
    collapse p false (c :: cs) = ' ' :: collapse p true cs := by
  simp [collapse, hc, hd]

theorem collapse_cons_single (p : Char → Bool) (c : Char) (cs : Str) (hc : p c = true)
    (hd : (cs.head?.map p).getD false = false) :
    collapse p false (c :: cs) = c :: collapse p false cs := by
  simp [collapse, hc, hd]

theorem collapse_ink (p : Char → Bool) (c : Char) (rest : Str) (hc : p c = false) :
    ∀ (w : Str) (b : Bool),
      collapse p b (w ++ c :: rest) = collapse p b w ++ c :: collapse p false rest := by
  intro w
  induction w with
  | nil => intro b; rw [List.nil_append, collapse_cons_neg p b c rest hc]; simp [collapse]
  | cons x xs ih =>
    intro b
    rw [List.cons_append]
    by_cases hx : p x = true
    · cases b with
      | true => rw [collapse_cons_run p x _ hx, collapse_cons_run p x _ hx, ih]
      | false =>
        by_cases hd : (xs.head?.map p).getD false = true
        · have hd' : (((xs ++ c :: rest).head?).map p).getD false = true := by
            cases xs with
            | nil => simp at hd
            | cons y ys => simpa using hd
          rw [collapse_cons_start p x _ hx hd', collapse_cons_start p x _ hx hd, ih]
          rfl
        · have hd0 : (xs.head?.map p).getD false = false := by simpa using hd
          have hd' : (((xs ++ c :: rest).head?).map p).getD false = false := by
            cases xs with
            | nil => simpa using hc
            | cons y ys => simpa using hd0
          rw [collapse_cons_single p x _ hx hd', collapse_cons_single p x _ hx hd0, ih]
          rfl
    · have hx0 : p x = false := by simpa using hx
      rw [collapse_cons_neg p b x _ hx0, collapse_cons_neg p b x _ hx0, ih]
      rfl

theorem collapse_dec (p : Char → Bool) (tl : Str) :
    ∀ (ts : List Piece), (∀ t ∈ ts, p t.2 = false) →
      collapse p false (dec ts tl) =
        dec (ts.map fun t => (collapse p false t.1, t.2)) (collapse p false tl) := by
  intro ts
  induction ts with
  | nil => intro _; rfl
  | cons t ts ih =>
    intro h
    obtain ⟨w, c⟩ := t
    simp only [dec, List.map_cons]
    rw [collapse_ink p c _ (h (w, c) (List.mem_cons_self _ _)),
      ih (fun t ht => h t (List.mem_cons_of_mem _ ht))]

theorem collapse_all_true (p : Char → Bool) (w : Str) (h : ∀ x ∈ w, p x = true) :
    collapse p true w = [] := by
  rw [collapse_true, List.dropWhile_eq_nil_iff.mpr h]
  rfl

theorem collapse_blank (p : Char → Bool) (w : Str) (h : ∀ x ∈ w, p x = true) :
    collapse p false w = if 2 ≤ w.length then [' '] else w := by
  cases w with
  | nil => rfl
  | cons x xs =>
    have hx := h x (List.mem_cons_self _ _)
    cases xs with
    | nil => simp [collapse, hx]
    | cons y ys =>
      have hy := h y (List.mem_cons_of_mem _ (List.mem_cons_self _ _))
      have := collapse_all_true p (y :: ys) (fun z hz => h z (List.mem_cons_of_mem _ hz))
      rw [collapse_cons_start p x _ hx (by simpa using hy), this]
      simp

theorem collapse_short (p : Char → Bool) (w : Str) (h : w.length ≤ 1) :
    collapse p false w = w := by
  cases w with
  | nil => rfl
  | cons x xs =>
    cases xs with
    | nil => by_cases hx : p x = true <;> simp [collapse, hx]
    | cons y ys => simp at h

theorem collapse_mem (p : Char → Bool) :
    ∀ (w : Str) (b : Bool) (x : Char), x ∈ collapse p b w → x ∈ w ∨ x = ' ' := by
  intro w
  induction w with
  | nil => intro b x hx; simp [collapse] at hx
  | cons c cs ih =>
    intro b x hx
    simp only [collapse] at hx
    split at hx
    · split at hx
      · rcases ih _ _ hx with h | h
        · exact Or.inl (List.mem_cons_of_mem _ h)
        · exact Or.inr h
      · split at hx
        · rcases List.mem_cons.mp hx with rfl | hx
          · exact Or.inr rfl
          · rcases ih _ _ hx with h | h
            · exact Or.inl (List.mem_cons_of_mem _ h)
            · exact Or.inr h
        · rcases List.mem_cons.mp hx with rfl | hx
          · exact Or.inl (List.mem_cons_self _ _)
          · rcases ih _ _ hx with h | h
            · exact Or.inl (List.mem_cons_of_mem _ h)
            · exact Or.inr h
    · rcases List.mem_cons.mp hx with rfl | hx
      · exact Or.inl (List.mem_cons_self _ _)
      · rcases ih _ _ hx with h | h
        · exact Or.inl (List.mem_cons_of_mem _ h)
        · exact Or.inr h

theorem dropBefore_cons_drop (c : Char) (cs : Str) (hc : isSpace c = true)
    (hn : nextIsPunct cs = true) : dropBefore (c :: cs) = dropBefore cs := by
  simp [dropBefore, hc, hn]

theorem dropBefore_cons_keep (c : Char) (cs : Str) (h : (isSpace c && nextIsPunct cs) = false) :
    dropBefore (c :: cs) = c :: dropBefore cs := by
  simp only [dropBefore, h, Bool.false_eq_true, if_false]

theorem nextIsPunct_piece (w : Str) (c : Char) (rest : Str) (hw : Blank w)
    (hc : isSpace c = false) : nextIsPunct (w ++ c :: rest) = isPunct c := by
  unfold nextIsPunct
  rw [List.dropWhile_append_of_pos hw]
  simp [List.dropWhile_cons, hc]

theorem dropBefore_piece (c : Char) (rest : Str) (hc : isSpace c = false) :
    ∀ (w : Str), Blank w →
      dropBefore (w ++ c :: rest) = (if isPunct c then [] else w) ++ c :: dropBefore rest := by
  intro w
  induction w with
  | nil =>
    intro _
    rw [List.nil_append, dropBefore_cons_keep c rest (by simp [hc])]
    split <;> rfl
  | cons x xs ih =>
    intro hw
    have hx : isSpace x = true := hw x (List.mem_cons_self _ _)
    have hxs : Blank xs := fun y hy => hw y (List.mem_cons_of_mem _ hy)
    have hn := nextIsPunct_piece xs c rest hxs hc
    rw [List.cons_append]
    by_cases hp : isPunct c = true
    · rw [dropBefore_cons_drop x _ hx (by rw [hn, hp]), ih hxs]
      simp [hp]
    · have hp0 : isPunct c = false := by simpa using hp
      rw [dropBefore_cons_keep x _ (by rw [hn, hp0]; simp), ih hxs]
      simp [hp0]

theorem dropBefore_blank : ∀ (tl : Str), Blank tl → dropBefore tl = tl := by
  intro tl
  induction tl with
  | nil => intro _; rfl
  | cons x xs ih =>
    intro h
    have hxs : Blank xs := fun y hy => h y (List.mem_cons_of_mem _ hy)
    have hn : nextIsPunct xs = false := by
      unfold nextIsPunct
      rw [List.dropWhile_eq_nil_iff.mpr hxs]
    rw [dropBefore_cons_keep x xs (by rw [hn]; simp), ih hxs]

theorem dropBefore_dec (tl : Str) (htl : Blank tl) :
    ∀ (ts : List Piece), Valid ts →
      dropBefore (dec ts tl) =
        dec (ts.map fun t => ((if isPunct t.2 then [] else t.1), t.2)) tl := by
  intro ts
  induction ts with
  | nil => intro _; exact dropBefore_blank tl htl
  | cons t ts ih =>
    intro hv
    obtain ⟨w, c⟩ := t
    have h := hv (w, c) (List.mem_cons_self _ _)
    simp only [dec, List.map_cons]
    rw [dropBefore_piece c _ h.2 w h.1, ih (fun t ht => hv t (List.mem_cons_of_mem _ ht))]

theorem spaceAfter_cons (c : Char) (r : Str) :
    spaceAfter (c :: r) = c :: spaceNext (isPunct c) r := rfl

theorem not_punct_of_space {c : Char} (h : isSpace c = true) : isPunct c = false := by
  cases hp : isPunct c with
  | false => rfl
  | true => rw [isPunct_not_space hp] at h; cases h

theorem spaceNext_space (b : Bool) (x : Char) (r : Str) (hx : isSpace x = true) :
    spaceNext b (x :: r) = x :: spaceNext false r := by
  unfold spaceNext
  simp only [List.head?_cons, Option.map_some', Option.getD_some, hx, Bool.not_true,
    Bool.and_false, Bool.false_eq_true, if_false, Bool.false_and]
  rw [spaceAfter_cons, not_punct_of_space hx]
  simp [spaceNext]

theorem spaceNext_blank (b : Bool) : ∀ (tl : Str), Blank tl → spaceNext b tl = tl := by
  intro tl
  induction tl generalizing b with
  | nil => intro _; simp [spaceNext, spaceAfter]
  | cons x xs ih =>
    intro h
    rw [spaceNext_space b x xs (h x (List.mem_cons_self _ _)),
      ih false (fun y hy => h y (List.mem_cons_of_mem _ hy))]

theorem spaceNext_piece (c : Char) (r : Str) (hc : isSpace c = false) :
    ∀ (w : Str) (b : Bool), Blank w →
      spaceNext b (w ++ c :: r) =
        (if b && w.isEmpty then [' '] else w) ++ c :: spaceNext (isPunct c) r := by
  intro w
  induction w with
  | nil =>
    intro b _
    cases b <;> simp [spaceNext, hc, spaceAfter_cons]
  | cons x xs ih =>
    intro b hw
    rw [List.cons_append, spaceNext_space b x _ (hw x (List.mem_cons_self _ _)),
      ih false (fun y hy => hw y (List.mem_cons_of_mem _ hy))]
    simp

theorem spaceNext_dec (tl : Str) (htl : Blank tl) :
    ∀ (ts : List Piece) (b : Bool), Valid ts →
      spaceNext b (dec ts tl) = dec (spaceEnc b ts) tl := by
  intro ts
  induction ts with
  | nil => intro b _; exact spaceNext_blank b tl htl
  | cons t ts ih =>
    intro b hv
    obtain ⟨w, c⟩ := t
    have h := hv (w, c) (List.mem_cons_self _ _)
    simp only [dec, spaceEnc]
    rw [spaceNext_piece c _ h.2 w b h.1, ih _ (fun t ht => hv t (List.mem_cons_of_mem _ ht))]

theorem spaceAfter_dec (tl : Str) (htl : Blank tl) (ts : List Piece) (hv : Valid ts) :
    spaceAfter (dec ts tl) = dec (spaceEnc false ts) tl := by
  rw [← spaceNext_dec tl htl ts false hv]
  simp [spaceNext]

theorem dec_tail (tl : Str) : ∀ (ts : List Piece), dec ts tl = dec ts [] ++ tl := by
  intro ts
  induction ts with
  | nil => rfl
  | cons t ts ih => obtain ⟨w, c⟩ := t; simp only [dec, ih]; simp

theorem dec_last : ∀ (ts : List Piece) (c : Char), Valid ts → isSpace c = false →
    ∃ x r, (c :: dec ts []).reverse = x :: r ∧ isSpace x = false := by
  intro ts
  induction ts with
  | nil => intro c _ hc; exact ⟨c, [], rfl, hc⟩
  | cons t ts ih =>
    intro c hv hc
    obtain ⟨w, d⟩ := t
    obtain ⟨x, r, hr, hx⟩ := ih d (fun t ht => hv t (List.mem_cons_of_mem _ ht))
      (hv (w, d) (List.mem_cons_self _ _)).2
    refine ⟨x, r ++ (c :: w).reverse, ?_, hx⟩
    have : c :: dec ((w, d) :: ts) [] = (c :: w) ++ (d :: dec ts []) := by simp [dec]
    rw [this, List.reverse_append, hr]
    rfl

theorem trim_dec (ts : List Piece) (tl : Str) (hv : Valid ts) (htl : Blank tl) :
    trim (dec ts tl) =
      match ts with
      | [] => []
      | (_, c) :: ts' => c :: dec ts' [] := by
  cases ts with
  | nil =>
    simp only [dec, trim]
    rw [List.dropWhile_eq_nil_iff.mpr htl]
    rfl
  | cons t ts' =>
    obtain ⟨w, c⟩ := t
    have h := hv (w, c) (List.mem_cons_self _ _)
    have hv' : Valid ts' := fun t ht => hv t (List.mem_cons_of_mem _ ht)
    obtain ⟨x, r, hr, hx⟩ := dec_last ts' c hv' h.2
    have h1 : (dec ((w, c) :: ts') tl).dropWhile isSpace = c :: dec ts' tl := by
      simp only [dec]
      rw [List.dropWhile_append_of_pos h.1]
      simp [List.dropWhile_cons, h.2]
    have h2 : (c :: dec ts' tl).reverse = tl.reverse ++ (x :: r) := by
      rw [dec_tail tl ts', ← List.cons_append, List.reverse_append, hr]
    have h3 : (tl.reverse ++ (x :: r)).dropWhile isSpace = x :: r := by
      rw [List.dropWhile_append_of_pos (fun y hy => htl y (List.mem_reverse.mp hy))]
      simp [List.dropWhile_cons, hx]
    simp only [trim]
    rw [h1, h2, h3, ← hr, List.reverse_reverse]

theorem blank_collapse (p : Char → Bool) (w : Str) (h : Blank w) : Blank (collapse p false w) := by
  intro x hx
  rcases collapse_mem p w false x hx with h1 | h1
  · exact h x h1
  · rw [h1]; rfl

theorem valid_collapse (p : Char → Bool) (ts : List Piece) (h : Valid ts) :
    Valid (ts.map fun t => (collapse p false t.1, t.2)) := by
  intro t ht
  obtain ⟨u, hu, rfl⟩ := List.mem_map.mp ht
  exact ⟨blank_collapse p u.1 (h u hu).1, (h u hu).2⟩

theorem valid_dropBefore (ts : List Piece) (h : Valid ts) :
    Valid (ts.map fun t => ((if isPunct t.2 then [] else t.1), t.2)) := by
  intro t ht
  obtain ⟨u, hu, rfl⟩ := List.mem_map.mp ht
  refine ⟨?_, (h u hu).2⟩
  dsimp only
  split
  · intro x hx; cases hx
  · exact (h u hu).1

theorem valid_spaceEnc : ∀ (ts : List Piece) (b : Bool), Valid ts → Valid (spaceEnc b ts) := by
  intro ts
  induction ts with
  | nil => intro b _ t ht; cases ht
  | cons t ts ih =>
    intro b hv
    obtain ⟨w, c⟩ := t
    have h := hv (w, c) (List.mem_cons_self _ _)
    intro u hu
    simp only [spaceEnc] at hu
    rcases List.mem_cons.mp hu with rfl | hu
    · refine ⟨?_, h.2⟩
      dsimp only
      split
      · intro x hx
        rw [List.mem_singleton.mp hx]; rfl
      · exact h.1
    · exact ih _ (fun t ht => hv t (List.mem_cons_of_mem _ ht)) u hu

theorem cleanEnc_eq : ∀ (ts : List Piece) (b : Bool),
    (spaceEnc b ((ts.map fun t => (collapse (fun x => x == ' ') false t.1, t.2)).map
        fun t => ((if isPunct t.2 then [] else t.1), t.2))).map
      (fun t => (collapse isSpace false t.1, t.2)) = cleanEnc b ts := by
  intro ts
  induction ts with
  | nil => intro b; rfl
  | cons t ts ih =>
    intro b
    obtain ⟨w, c⟩ := t
    simp only [List.map_cons, spaceEnc, cleanEnc, ih]
    rfl

theorem not_blankChar_of_ink {c : Char} (h : isSpace c = false) : (c == ' ') = false := by
  cases hc : c == ' ' with
  | false => rfl
  | true =>
    rw [beq_iff_eq] at hc
    rw [hc] at h
    cases h

theorem blank_of_spaces (w : Str) (h : ∀ x ∈ w, (x == ' ') = true) : Blank w := by
  intro x hx
  have := h x hx
  rw [beq_iff_eq] at this
  rw [this]; rfl

theorem cleanText_dec (ts : List Piece) (tl : Str) (hv : Valid ts) (htl : Blank tl) :
    Server.cleanText (dec ts tl) = cleanDec ts := by
  rw [cleanText_eq,
    collapse_dec _ tl ts (fun t ht => not_blankChar_of_ink (hv t ht).2),
    dropBefore_dec _ (blank_collapse _ tl htl) _ (valid_collapse _ ts hv),
    spaceAfter_dec _ (blank_collapse _ tl htl) _ (valid_dropBefore _ (valid_collapse _ ts hv)),
    collapse_dec _ _ _ (fun t ht =>
      (valid_spaceEnc _ false (valid_dropBefore _ (valid_collapse _ ts hv)) t ht).2),
    cleanEnc_eq,
    trim_dec _ _ ?_ (blank_collapse _ _ (blank_collapse _ tl htl))]
  · cases ts with
    | nil => rfl
    | cons t ts' => obtain ⟨w, c⟩ := t; rfl
  · rw [← cleanEnc_eq]
    exact valid_collapse _ _ (valid_spaceEnc _ false (valid_dropBefore _ (valid_collapse _ ts hv)))

theorem valid_cleanEnc (ts : List Piece) (b : Bool) (hv : Valid ts) : Valid (cleanEnc b ts) := by
  rw [← cleanEnc_eq]
  exact valid_collapse _ _ (valid_spaceEnc _ b (valid_dropBefore _ (valid_collapse _ ts hv)))

theorem collapse_blank_length (p : Char → Bool) (w : Str) (h : ∀ x ∈ w, p x = true) :
    (collapse p false w).length ≤ 1 := by
  rw [collapse_blank p w h]
  split
  · simp
  · omega

theorem collapse_eq_nil (p : Char → Bool) (w : Str) (h : collapse p false w = []) : w = [] := by
  cases w with
  | nil => rfl
  | cons c cs =>
    exfalso
    by_cases hc : p c = true
    · by_cases hd : (cs.head?.map p).getD false = true
      · rw [collapse_cons_start p c cs hc hd] at h; cases h
      · rw [collapse_cons_single p c cs hc (by simpa using hd)] at h; cases h
    · rw [collapse_cons_neg p false c cs (by simpa using hc)] at h; cases h

theorem blank_pad (b : Bool) (w : Str) (h : Blank w) :
    Blank (if b && w.isEmpty then [' '] else w) := by
  split
  · intro x hx; rw [List.mem_singleton.mp hx]; rfl
  · exact h

theorem cleanRun_def (b : Bool) (w : Str) (c : Char) :
    cleanRun b w c =
      collapse isSpace false
        (if b && (if isPunct c then [] else collapse (fun x => x == ' ') false w).isEmpty
         then [' '] else (if isPunct c then [] else collapse (fun x => x == ' ') false w)) := rfl

theorem cleanRun_length (b : Bool) (w : Str) (c : Char) (hw : Blank w) :
    (cleanRun b w c).length ≤ 1 := by
  unfold cleanRun
  apply collapse_blank_length
  have h0 : Blank (if isPunct c then [] else collapse (fun x => x == ' ') false w) := by
    split
    · intro x hx; cases hx
    · exact blank_collapse _ w hw
  exact blank_pad b _ h0

theorem cleanRun_idem (b : Bool) (w : Str) (c : Char) (hw : Blank w) :
    cleanRun b (cleanRun b w c) c = cleanRun b w c := by
  have hl := cleanRun_length b w c hw
  have e : cleanRun b (cleanRun b w c) c =
      collapse isSpace false
        (if b && (if isPunct c then [] else cleanRun b w c).isEmpty
         then [' '] else (if isPunct c then [] else cleanRun b w c)) := by
    rw [cleanRun_def b (cleanRun b w c) c, collapse_short _ (cleanRun b w c) hl]
  rw [e]
  by_cases hp : isPunct c = true
  · simp only [hp, if_true]
    unfold cleanRun
    simp only [hp, if_true]
  · have hp0 : isPunct c = false := by simpa using hp
    simp only [hp0, Bool.false_eq_true, if_false]
    by_cases hb : (b && (collapse (fun x => x == ' ') false w).isEmpty) = true
    · have hr : cleanRun b w c = [' '] := by
        unfold cleanRun
        simp only [hp0, Bool.false_eq_true, if_false, hb, if_true]
        rfl
      rw [hr]
      cases b <;> rfl
    · have hr : cleanRun b w c = collapse isSpace false (collapse (fun x => x == ' ') false w) := by
        unfold cleanRun
        simp only [hp0, Bool.false_eq_true, if_false, hb]
      have hne : (b && (cleanRun b w c).isEmpty) = false := by
        cases hbb : b with
        | false => rfl
        | true =>
          cases hrr : (cleanRun true w c).isEmpty with
          | false => rfl
          | true =>
            exfalso
            apply hb
            rw [hbb] at hr
            rw [List.isEmpty_iff] at hrr
            rw [hr] at hrr
            rw [hbb, collapse_eq_nil _ _ hrr]
            rfl
      simp only [hne, Bool.false_eq_true, if_false]
      exact collapse_short _ _ hl

theorem cleanEnc_idem : ∀ (ts : List Piece) (b : Bool), Valid ts →
    cleanEnc b (cleanEnc b ts) = cleanEnc b ts := by
  intro ts
  induction ts with
  | nil => intro b _; rfl
  | cons t ts ih =>
    intro b hv
    obtain ⟨w, c⟩ := t
    simp only [cleanEnc]
    rw [cleanRun_idem b w c (hv (w, c) (List.mem_cons_self _ _)).1,
      ih _ (fun t ht => hv t (List.mem_cons_of_mem _ ht))]

theorem dropWhile_head_not (p : Char → Bool) : ∀ (l : Str) (x : Char) (r : Str),
    l.dropWhile p = x :: r → p x = false := by
  intro l
  induction l with
  | nil => intro x r h; cases h
  | cons a t ih =>
    intro x r h
    by_cases ha : p a = true
    · rw [List.dropWhile_cons_of_pos ha] at h
      exact ih x r h
    · rw [List.dropWhile_cons_of_neg ha] at h
      cases h
      simpa using ha

theorem trim_ink (s : Str) (h : trim s ≠ []) : ∃ c ∈ trim s, isSpace c = false := by
  unfold trim at h ⊢
  cases hd : (s.dropWhile isSpace).reverse.dropWhile isSpace with
  | nil => rw [hd] at h; exact absurd rfl h
  | cons x r =>
    exact ⟨x, by simp, dropWhile_head_not isSpace _ x r hd⟩

theorem cleanText_ne_nil (s : Str) (c : Char) (hc : c ∈ s) (hi : isSpace c = false) :
    Server.cleanText s ≠ [] := by
  obtain ⟨hv, htl⟩ := valid_enc s
  have h1 := cleanText_dec (enc s).1 (enc s).2 hv htl
  rw [dec_enc] at h1
  have h2 := dec_enc s
  cases hts : (enc s).1 with
  | nil =>
    rw [hts] at h2
    simp only [dec] at h2
    rw [← h2] at hc
    rw [htl c hc] at hi
    cases hi
  | cons t ts =>
    obtain ⟨w, d⟩ := t
    rw [h1, hts]
    simp [cleanDec]

namespace Server

theorem streamText_last (id text : Str) :
    (streamText id text).getLast? = some doneFrame := by
  unfold streamText
  rw [List.getLast?_append]
  rfl

theorem aiFallback_last (env : Env) (s : Session) :
    (aiFallback env s).frames.getLast? = some doneFrame := by
  unfold aiFallback
  dsimp only
  split
  · rw [List.getLast?_append]; rfl
  · rw [List.getLast?_append]; rfl

theorem turn_last (env : Env) (id : Str) (s : Session) (m : Str) :
    (turn env id s m).frames.getLast? = some doneFrame := by
  obtain ⟨step, b, hist, l⟩ := s
  by_cases hlow : step ≤ 1
  · interval_cases step
    · rw [turn_greeting env id _ m rfl]; split <;> exact streamText_last _ _
    · unfold turn
      simp only [one_ne_zero, if_false, if_true]
      split
      · exact streamText_last _ _
      · rfl
  by_cases hten : step = 10
  · subst hten
    show (if isNegation m then _ else _ : Turn).frames.getLast? = _
    split <;> exact streamText_last _ _
  by_cases hhi : step ≤ 9
  · rw [(turn_ask env id step b hist l m (by omega) hhi).2.2.2.1]
    exact streamText_last _ _
  · have e : turn env id ⟨step, b, hist, l⟩ m = aiFallback env ⟨step, b, hist, l⟩ := by
      unfold turn
      have h0 : step ≠ 0 := by omega
      have h1 : step ≠ 1 := by omega
      simp only [h0, h1, if_false]
      split <;> first | omega | rfl
    rw [e]
    exact aiFallback_last env _

theorem getLast?_cons_of_last (a : Str) (l : List Str) (x : Str) (h : l.getLast? = some x) :
    (a :: l).getLast? = some x := by
  cases l with
  | nil => cases h
  | cons b t => rw [List.getLast?_cons_cons]; exact h

/-- C15: whatever the stored sessions and the request, the last payload written by the
handler of `server.js` is `[DONE]`; when the message is a string that is not empty after
trimming, the first payload is the session-identifier payload; when the message is missing
or empty after trimming, `[DONE]` is the only payload. -/
theorem stream_framing (env : Env) (store : Store) (req : Request) :
    (apiAssistant env store req).frames.getLast? = some doneFrame ∧
    (∀ raw, req.message = .str raw → trim raw ≠ [] →
      (apiAssistant env store req).frames.head? = some (sessionFrame (requestId env req))) ∧
    ((req.message = .absent ∨ ∃ raw, req.message = .str raw ∧ trim raw = []) →
      (apiAssistant env store req).frames = [doneFrame]) := by
  refine ⟨?_, ?_, ?_⟩
  · cases hc : cleanedMessage req.message with
    | none => unfold apiAssistant; rw [hc]; rfl
    | some m =>
      by_cases hm : m = []
      · subst hm; unfold apiAssistant; rw [hc]; rfl
      · cases hk : ((store (requestId env req)).isNone &&
            inheritedNames.contains (requestId env req)) with
        | true => rw [apiAssistant_inherited env store req m hc hm hk]; rfl
        | false =>
          rw [apiAssistant_eq env store req m hc hm hk]
          exact getLast?_cons_of_last _ _ _ (turn_last env _ _ m)
  · intro raw hraw ht
    obtain ⟨c, hc, hi⟩ := trim_ink raw ht
    have hm := cleanText_ne_nil (trim raw) c hc hi
    cases hk : ((store (requestId env req)).isNone &&
        inheritedNames.contains (requestId env req)) with
    | true =>
      rw [apiAssistant_inherited env store req (cleanText (trim raw)) (by rw [hraw]; rfl) hm hk]
      rfl
    | false =>
      rw [apiAssistant_eq env store req (cleanText (trim raw)) (by rw [hraw]; rfl) hm hk]
      rfl
  · intro h
    have hc : cleanedMessage req.message = some [] := by
      rcases h with h | ⟨raw, h, ht⟩
      · rw [h]; decide
      · rw [h]; show some (cleanText (trim raw)) = some []; rw [ht]; decide
    unfold apiAssistant
    rw [hc]
    rfl

theorem stream_framing_witness :
    trim "  hello ".toList ≠ [] ∧
    (apiAssistant sampleEnv (fun _ => none) ⟨none, .str "  hello ".toList⟩).frames.head? =
      some (sessionFrame (requestId sampleEnv ⟨none, .str "  hello ".toList⟩)) ∧
    (apiAssistant sampleEnv (fun _ => none) ⟨none, .str "  ".toList⟩).frames = [doneFrame] :=
  ⟨by decide,
   (stream_framing sampleEnv (fun _ => none) ⟨none, .str "  hello ".toList⟩).2.1 _ rfl (by decide),
   (stream_framing sampleEnv (fun _ => none) ⟨none, .str "  ".toList⟩).2.2
     (Or.inr ⟨_, rfl, by decide⟩)⟩

end Server

theorem matchAt_chr_hit (x : Char) (before rest : Str) :
    matchAt false (Re.chr x) before (x :: rest) = some ⟨before.length, [x], []⟩ := by
  simp [matchAt, Re.chr, Re.m, classTest, Item.test, consumed]

theorem matchAt_chr_miss (x c : Char) (before rest : Str) (h : c ≠ x) :
    matchAt false (Re.chr x) before (c :: rest) = none := by
  simp [matchAt, Re.chr, Re.m, classTest, Item.test, h]

theorem matchAt_chr_nil (x : Char) (before : Str) :
    matchAt false (Re.chr x) before [] = none := by
  simp [matchAt, Re.chr, Re.m]

theorem replaceGo_chr (x : Char) (r : Str) : ∀ (s before : Str),
    replaceGo false (Re.chr x) (fun _ => r) 0 before s = substChar x r s := by
  intro s
  induction s with
  | nil => intro before; simp [replaceGo, matchAt_chr_nil, substChar]
  | cons c cs ih =>
    intro before
    by_cases h : c = x
    · subst h
      have := replaceGo_hit false (Re.chr c) (fun _ => r) before [c] cs _ (by simp)
        (matchAt_chr_hit c before cs) rfl
      simp only [List.singleton_append] at this
      rw [this, ih]
      simp [substChar]
    · rw [replaceGo_miss false _ _ before c cs (matchAt_chr_miss x c before cs h), ih]
      simp [substChar, h]

theorem escapeBreaks_eq (c : Str) :
    Server2.escapeBreaks c =
      substChar (Char.ofNat 13) [Char.ofNat 92, 'r']
        (substChar (Char.ofNat 10) [Char.ofNat 92, 'n'] c) := by
  unfold Server2.escapeBreaks replaceAll
  rw [replaceGo_chr, replaceGo_chr]

theorem substChar_cons (x : Char) (r : Str) (c : Char) (s : Str) :
    substChar x r (c :: s) = (if c = x then r else [c]) ++ substChar x r s := by
  simp [substChar]

theorem substChar_absent (x : Char) (r : Str) : ∀ (s : Str), x ∉ s → substChar x r s = s := by
  intro s
  induction s with
  | nil => intro _; rfl
  | cons c cs ih =>
    intro h
    rw [substChar_cons, ih (fun hx => h (List.mem_cons_of_mem _ hx)),
      if_neg (fun hc => h (by rw [hc]; exact List.mem_cons_self _ _))]
    rfl

theorem mem_substChar (x : Char) (r : Str) (y : Char) : ∀ (s : Str),
    y ∈ substChar x r s → y ∈ r ∨ (y ∈ s ∧ y ≠ x) := by
  intro s
  induction s with
  | nil => intro h; simp [substChar] at h
  | cons c cs ih =>
    intro h
    rw [substChar_cons] at h
    rcases List.mem_append.mp h with h | h
    · by_cases hc : c = x
      · rw [if_pos hc] at h; exact Or.inl h
      · rw [if_neg hc] at h
        rw [List.mem_singleton.mp h]
        exact Or.inr ⟨List.mem_cons_self _ _, hc⟩
    · rcases ih h with h | h
      · exact Or.inl h
      · exact Or.inr ⟨List.mem_cons_of_mem _ h.1, h.2⟩

theorem matchAt_pair_hit (before rest : Str) :
    matchAt false Client.reEscapedBreak before (Char.ofNat 92 :: 'n' :: rest) =
      some ⟨before.length, [Char.ofNat 92, 'n'], []⟩ := by
  have e : before.length + 1 + 1 - before.length = 2 := by omega
  simp [matchAt, Client.reEscapedBreak, Re.lit, Re.chr, Re.m, classTest, Item.test, consumed, e]

theorem matchAt_pair_miss (a b : Char) (before rest : Str)
    (h : ¬(a = Char.ofNat 92 ∧ b = 'n')) :
    matchAt false Client.reEscapedBreak before (a :: b :: rest) = none := by
  by_cases ha : a = Char.ofNat 92
  · have hb : b ≠ 'n' := fun hb => h ⟨ha, hb⟩
    simp [matchAt, Client.reEscapedBreak, Re.lit, Re.chr, Re.m, classTest, Item.test, ha, hb]
  · simp [matchAt, Client.reEscapedBreak, Re.lit, Re.chr, Re.m, classTest, Item.test, ha]

theorem matchAt_pair_one (a : Char) (before : Str) :
    matchAt false Client.reEscapedBreak before [a] = none := by
  by_cases ha : a = Char.ofNat 92
  · simp [matchAt, Client.reEscapedBreak, Re.lit, Re.chr, Re.m, classTest, Item.test, ha]
  · simp [matchAt, Client.reEscapedBreak, Re.lit, Re.chr, Re.m, classTest, Item.test, ha]

theorem matchAt_pair_nil (before : Str) :
    matchAt false Client.reEscapedBreak before [] = none := by
  simp [matchAt, Client.reEscapedBreak, Re.lit, Re.chr, Re.m]

theorem replaceGo_pairs : ∀ (n : Nat) (s before : Str), s.length ≤ n →
    replaceGo false Client.reEscapedBreak (fun _ => [Char.ofNat 10]) 0 before s =
      unescapePairs s := by
  intro n
  induction n with
  | zero =>
    intro s before h
    cases s with
    | nil => simp [replaceGo, matchAt_pair_nil, unescapePairs]
    | cons a t => simp at h
  | succ n ih =>
    intro s before h
    match s, h with
    | [], _ => simp [replaceGo, matchAt_pair_nil, unescapePairs]
    | [a], _ =>
      rw [replaceGo_miss false _ _ before a [] (matchAt_pair_one a before)]
      simp [replaceGo, matchAt_pair_nil, unescapePairs]
    | a :: b :: r, h =>
      simp only [List.length_cons] at h
      by_cases hab : a = Char.ofNat 92 ∧ b = 'n'
      · obtain ⟨ha, hb⟩ := hab
        subst ha hb
        have := replaceGo_hit false Client.reEscapedBreak (fun _ => [Char.ofNat 10]) before
          [Char.ofNat 92, 'n'] r _ (by simp) (matchAt_pair_hit before r) rfl
        simp only [List.cons_append, List.nil_append] at this
        rw [this, ih r _ (by omega)]
        simp [unescapePairs]
      · rw [replaceGo_miss false _ _ before a (b :: r) (matchAt_pair_miss a b before r hab),
          ih (b :: r) _ (by simp only [List.length_cons]; omega)]
        simp [unescapePairs, hab]

theorem unescapeBreaks_eq (s : Str) : Client.unescapeBreaks s = unescapePairs s :=
  replaceGo_pairs s.length s [] (Nat.le_refl _)

theorem unescapePairs_cons (a : Char) (t : Str)
    (h : ¬(a = Char.ofNat 92 ∧ t.head? = some 'n')) :
    unescapePairs (a :: t) = a :: unescapePairs t := by
  cases t with
  | nil => simp [unescapePairs]
  | cons b r =>
    have h2 : ¬(a = Char.ofNat 92 ∧ b = 'n') := by simpa using h
    simp only [unescapePairs]
    rw [if_neg h2]

theorem head_substChar (t : Str) (h : (substChar (Char.ofNat 10) [Char.ofNat 92, 'n'] t).head? = some 'n') :
    t.head? = some 'n' := by
  cases t with
  | nil => simp [substChar] at h
  | cons b r =>
    rw [substChar_cons] at h
    by_cases hb : b = Char.ofNat 10
    · rw [if_pos hb] at h
      simp at h
    · rw [if_neg hb] at h
      simpa using h

theorem breakTrip_nil : breakTrip [] = [] := rfl

theorem breakTrip_feed (t : Str) : breakTrip (Char.ofNat 10 :: t) = Char.ofNat 10 :: breakTrip t := by
  unfold breakTrip
  rw [substChar_cons, if_pos rfl]
  simp [unescapePairs]

theorem breakTrip_pair (r : Str) :
    breakTrip (Char.ofNat 92 :: 'n' :: r) = Char.ofNat 10 :: breakTrip r := by
  unfold breakTrip
  rw [substChar_cons, substChar_cons, if_neg (by decide), if_neg (by decide)]
  simp [unescapePairs]

theorem breakTrip_keep (a : Char) (t : Str) (h1 : a ≠ Char.ofNat 10)
    (h2 : ¬(a = Char.ofNat 92 ∧ t.head? = some 'n')) :
    breakTrip (a :: t) = a :: breakTrip t := by
  unfold breakTrip
  rw [substChar_cons, if_neg h1, List.singleton_append,
    unescapePairs_cons a _ (fun h => h2 ⟨h.1, head_substChar t h.2⟩)]

theorem hasEscapedBreak_cons (a : Char) (t : Str) :
    hasEscapedBreak (a :: t) =
      ((a == Char.ofNat 92 && t.head? == some 'n') || hasEscapedBreak t) := by
  cases t with
  | nil => simp [hasEscapedBreak]
  | cons b r => simp [hasEscapedBreak]

theorem breakTrip_id : ∀ (c : Str), hasEscapedBreak c = false → breakTrip c = c := by
  intro c
  induction c with
  | nil => intro _; rfl
  | cons a t ih =>
    intro h
    rw [hasEscapedBreak_cons] at h
    simp only [Bool.or_eq_false_iff, Bool.and_eq_false_iff] at h
    by_cases ha : a = Char.ofNat 10
    · subst ha; rw [breakTrip_feed, ih h.2]
    · rw [breakTrip_keep a t ha ?_, ih h.2]
      rintro ⟨h1, h2⟩
      rcases h.1 with h0 | h0
      · simp [h1] at h0
      · simp [h2] at h0

theorem breakTrip_count : ∀ (n : Nat) (c : Str), c.length ≤ n →
    c.count (Char.ofNat 10) ≤ (breakTrip c).count (Char.ofNat 10) ∧
    (hasEscapedBreak c = true → c.count (Char.ofNat 10) < (breakTrip c).count (Char.ofNat 10)) := by
  intro n
  induction n with
  | zero =>
    intro c h
    cases c with
    | nil => exact ⟨Nat.le_refl _, fun h => (by cases h)⟩
    | cons a t => simp at h
  | succ n ih =>
    intro c h
    cases c with
    | nil => exact ⟨Nat.le_refl _, fun h => (by cases h)⟩
    | cons a t =>
      simp only [List.length_cons] at h
      by_cases ha : a = Char.ofNat 10
      · subst ha
        have := ih t (by omega)
        rw [breakTrip_feed, hasEscapedBreak_cons]
        simp only [List.count_cons_self]
        refine ⟨by omega, fun hh => ?_⟩
        have : hasEscapedBreak t = true := by
          rcases Bool.or_eq_true_iff.mp hh with h0 | h0
          · simp only [Bool.and_eq_true, beq_iff_eq] at h0
            exact absurd h0.1 (by decide)
          · exact h0
        have := (ih t (by omega)).2 this
        omega
      · by_cases hp : a = Char.ofNat 92 ∧ t.head? = some 'n'
        · obtain ⟨h1, h2⟩ := hp
          cases t with
          | nil => cases h2
          | cons b r =>
            simp only [List.head?_cons, Option.some.injEq] at h2
            subst h1 h2
            simp only [List.length_cons] at h
            have := (ih r (by omega)).1
            rw [breakTrip_pair]
            have e1 : (Char.ofNat 92 :: 'n' :: r).count (Char.ofNat 10) = r.count (Char.ofNat 10) := by
              rw [List.count_cons_of_ne (by decide), List.count_cons_of_ne (by decide)]
            rw [e1, List.count_cons_self]
            exact ⟨by omega, fun _ => by omega⟩
        · have := ih t (by omega)
          rw [breakTrip_keep a t ha hp, hasEscapedBreak_cons,
            List.count_cons_of_ne (fun h => ha h.symm), List.count_cons_of_ne (fun h => ha h.symm)]
          refine ⟨this.1, fun hh => this.2 ?_⟩
          rcases Bool.or_eq_true_iff.mp hh with h0 | h0
          · simp only [Bool.and_eq_true, beq_iff_eq] at h0
            exact absurd h0 hp
          · exact h0

theorem mem_unescapePairs : ∀ (n : Nat) (s : Str) (y : Char), s.length ≤ n →
    y ∈ unescapePairs s → y ∈ s ∨ y = Char.ofNat 10 := by
  intro n
  induction n with
  | zero =>
    intro s y h hy
    cases s with
    | nil => simp [unescapePairs] at hy
    | cons a t => simp at h
  | succ n ih =>
    intro s y h hy
    match s, h, hy with
    | [], _, hy => simp [unescapePairs] at hy
    | [a], _, hy => simp only [unescapePairs] at hy; exact Or.inl hy
    | a :: b :: r, h, hy =>
      simp only [List.length_cons] at h
      simp only [unescapePairs] at hy
      split at hy
      · rcases List.mem_cons.mp hy with h0 | h0
        · exact Or.inr h0
        · rcases ih r y (by omega) h0 with h1 | h1
          · exact Or.inl (List.mem_cons_of_mem _ (List.mem_cons_of_mem _ h1))
          · exact Or.inr h1
      · rcases List.mem_cons.mp hy with h0 | h0
        · rw [h0]; exact Or.inl (List.mem_cons_self _ _)
        · rcases ih (b :: r) y (by simp only [List.length_cons]; omega) h0 with h1 | h1
          · exact Or.inl (List.mem_cons_of_mem _ h1)
          · exact Or.inr h1

theorem escape_no_return (c : Str) : Char.ofNat 13 ∉ Server2.escapeBreaks c := by
  rw [escapeBreaks_eq]
  intro h
  rcases mem_substChar _ _ _ _ h with h | h
  · exact absurd h (by decide)
  · exact h.2 rfl

/-- C12: the cleaner of `server.js` is idempotent: cleaning a cleaned text gives the same
text again, for every text. -/
theorem cleanText_idempotent (s : Str) :
    Server.cleanText (Server.cleanText s) = Server.cleanText s := by
  obtain ⟨hv, htl⟩ := valid_enc s
  have h1 := cleanText_dec (enc s).1 (enc s).2 hv htl
  rw [dec_enc] at h1
  cases hts : (enc s).1 with
  | nil =>
    rw [hts] at h1
    rw [h1]
    decide
  | cons t ts' =>
    obtain ⟨w, c⟩ := t
    rw [hts] at h1 hv
    simp only [cleanDec] at h1
    have hc := (hv (w, c) (List.mem_cons_self _ _)).2
    have hv' : Valid ts' := fun t ht => hv t (List.mem_cons_of_mem _ ht)
    have hv2 : Valid (([], c) :: cleanEnc (isPunct c) ts') := by
      intro t ht
      rcases List.mem_cons.mp ht with rfl | ht
      · exact ⟨fun x hx => (by cases hx), hc⟩
      · exact valid_cleanEnc ts' _ hv' t ht
    have h2 := cleanText_dec (([], c) :: cleanEnc (isPunct c) ts') [] hv2
      (fun x hx => (by cases hx))
    simp only [dec, List.nil_append, cleanDec] at h2
    rw [h1, h2, cleanEnc_idem ts' _ hv']

set_option maxRecDepth 100000 in
/-- C13 (failing input): the cleaner of `server.js` turns `Wait...` into `Wait. . .`, a text
with a space immediately in front of a full stop: the pass that puts a space after
punctuation puts it between two punctuation characters, after the pass that removes the
white space in front of punctuation has run. -/
theorem cleanText_space_before_punct :
    Server.cleanText "Wait...".toList = "Wait. . .".toList ∧
    spaceBeforePunct (Server.cleanText "Wait...".toList) = true := by
  decide

set_option maxRecDepth 100000 in
/-- C17 (failing input): the payloads `streamText` of `server.js` writes for the event-type
option list, received in one read and demultiplexed by the chat client, do not give the
cleaned text back: the line feeds inside the payloads are not escaped, so the client cuts
the payloads there and drops what follows each line feed up to the next `data: ` line. -/
theorem option_list_round_trip_fails :
    Client.botMessage [Server.wire (Server.streamText "session-1".toList (Server.prompt 5))] =
      "Noted. What type of event is this? Options include: - Anniversary Partyt Mitzvaheting- Engagement Party Graduation Party".toList ∧
    Client.botMessage [Server.wire (Server.streamText "session-1".toList (Server.prompt 5))] ≠
      Server.cleanText (Server.prompt 5) := by
  decide

set_option maxRecDepth 100000 in
/-- C18 (failing input): the fragment `a\r\nb` does not come back from the escaping of
`server2.js` followed by the client's unescaping: the server escapes the carriage return
as backslash-`r` and the client unescapes backslash-`n` only, so the client shows a
backslash and an `r` in its place.  The server also leaves a backslash unescaped, so a
backslash followed by `n` that the fragment itself holds comes back as a line feed. -/
theorem escape_round_trip_fails :
    Client.unescapeBreaks (Server2.escapeBreaks "a\r\nb".toList) = "a\\r\nb".toList ∧
    Client.unescapeBreaks (Server2.escapeBreaks "a\r\nb".toList) ≠ "a\r\nb".toList ∧
    Client.unescapeBreaks (Server2.escapeBreaks "use \\n here".toList) = "use \n here".toList ∧
    Client.unescapeBreaks (Server2.escapeBreaks "use \\n here".toList) ≠ "use \\n here".toList := by
  decide

/-- The extent of the defect of the escaping: the client's unescaping of the escaping of
`server2.js` loses a text fragment exactly when the fragment holds a carriage return or a
backslash immediately followed by `n`. -/
theorem escape_round_trip (c : Str) :
    Client.unescapeBreaks (Server2.escapeBreaks c) = c ↔
      (Char.ofNat 13 ∉ c ∧ hasEscapedBreak c = false) := by
  constructor
  · intro h
    have hr : Char.ofNat 13 ∉ c := by
      intro hc
      rw [← h, unescapeBreaks_eq] at hc
      rcases mem_unescapePairs _ _ _ (Nat.le_refl _) hc with h1 | h1
      · exact escape_no_return c h1
      · exact absurd h1 (by decide)
    refine ⟨hr, ?_⟩
    cases hh : hasEscapedBreak c with
    | false => rfl
    | true =>
      exfalso
      have h2 := (breakTrip_count _ c (Nat.le_refl _)).2 hh
      have h3 : Client.unescapeBreaks (Server2.escapeBreaks c) = breakTrip c := by
        rw [unescapeBreaks_eq, escapeBreaks_eq]
        unfold breakTrip
        rw [substChar_absent (Char.ofNat 13) _ _ ?_]
        intro h4
        rcases mem_substChar _ _ _ _ h4 with h5 | h5
        · exact absurd h5 (by decide)
        · exact hr h5.1
      rw [h3] at h
      rw [h] at h2
      exact Nat.lt_irrefl _ h2
  · rintro ⟨hr, hh⟩
    rw [unescapeBreaks_eq, escapeBreaks_eq, substChar_absent (Char.ofNat 13) _ _ ?_]
    · exact breakTrip_id c hh
    · intro h4
      rcases mem_substChar _ _ _ _ h4 with h5 | h5
      · exact absurd h5 (by decide)
      · exact hr h5.1

set_option maxRecDepth 100000 in
theorem escape_round_trip_witness :
    Client.unescapeBreaks (Server2.escapeBreaks "Ciao!\nA presto.".toList) =
      "Ciao!\nA presto.".toList :=
  (escape_round_trip "Ciao!\nA presto.".toList).mpr ⟨by decide, by decide⟩

namespace Server

theorem reachable_no_inherited {store : Store} (h : Reachable store) :
    ∀ id, id ∈ inheritedNames → store id = none := by
  induction h with
  | start => intro id _; rfl
  | request env store req _ ih =>
    intro id hid
    rcases apiAssistant_cases env store req with ⟨hst, -⟩ | ⟨m, hc, hm, hk⟩
    · rw [hst]; exact ih id hid
    · rw [apiAssistant_eq env store req m hc hm hk]
      have hne : id ≠ requestId env req := by
        intro he
        subst he
        rw [ih _ hid] at hk
        simp [hid] at hk
      show (store.set _ _) id = none
      rw [Store.set_other _ _ _ _ hne]
      exact ih id hid

set_option maxRecDepth 100000 in
/-- A request under the identifier `constructor`, for which no session can be stored: the
handler writes the session-identifier payload, the error payload and `[DONE]`, stores no
session and saves nothing. -/
theorem inherited_name_request :
    (apiAssistant sampleEnv (fun _ => none)
        ⟨some "constructor".toList, .str "I want to book a party".toList⟩).frames =
      [sessionFrame "constructor".toList, "[ERROR in assistant]".toList, doneFrame] ∧
    (apiAssistant sampleEnv (fun _ => none)
        ⟨some "constructor".toList, .str "I want to book a party".toList⟩).store
          "constructor".toList = none ∧
    (apiAssistant sampleEnv (fun _ => none)
        ⟨some "constructor".toList, .str "I want to book a party".toList⟩).saved = [] := by
  decide

end Server

end Salvatore
